import Mathlib

/-!
# Round-Robin scheduling simulator (`simulate_rr`, `scheduler.cpp`)

A shallow embedding of `simulate_rr` and proofs of its contract.

Modelling conventions.

* `int64_t` and `int` values are mathematical integers (`Int`); the development
  does not model 64-bit wrap-around, so every statement is about runs in which
  no intermediate value leaves the `int64_t` range.
* `std::vector` is a `List`; `v[i]` is `List.getD` and `v[i] = x` is `List.set`.
  All indices that the simulator uses are in range (this is part of the proved
  loop invariant), so the default value of `getD` is never observed on a run
  that starts from `init_state`.
* The `while (1)` loop is a step function `iter` driven by a fuel counter
  (`run`); `none` means the fuel ran out, and termination is proved separately.
* The command surface of `main.cpp` (`split`, `stdin_readline`, `run_sched`,
  `cppmain`) works on lists of characters; its printing is not modelled, only
  how far it gets outside `simulate_rr` (`MainResult`): the call of
  `simulate_rr` is recorded with its arguments, not run.
-/

namespace RR

/-- The `Process` record of `scheduler.h`, as used by `simulate_rr`. -/
structure Process where
  id : Int
  arrival : Int
  burst : Int
  start_time : Int
  finish_time : Int
deriving DecidableEq, Repr

/-- The local variables of `simulate_rr` together with the two vectors it
mutates through references (`processes` and `seq`). -/
structure State where
  curr_time : Int
  jq : List Nat
  rq : List Nat
  remb : List Int
  processes : List Process
  seq : List Int
deriving DecidableEq, Repr

/-- Reading `processes[i]`. -/
def procAt (ps : List Process) (i : Nat) : Process :=
  ps.getD i ⟨0, 0, 0, -1, -1⟩

/-- Reading `remb[i]`. -/
def rembAt (remb : List Int) (i : Nat) : Int :=
  remb.getD i 0

/-- The assignment `processes[j].start_time = t`. -/
def setStart (ps : List Process) (j : Nat) (t : Int) : List Process :=
  ps.set j { procAt ps j with start_time := t }

/-- The assignment `processes[j].finish_time = t`. -/
def setFinish (ps : List Process) (j : Nat) (t : Int) : List Process :=
  ps.set j { procAt ps j with finish_time := t }

/-- The lambda `append_seq` (lines 33-38): nothing is appended once the cap is
reached, and a value equal to the current last entry is not appended. -/
def append_seq (max_seq_len : Int) (seq : List Int) (n : Int) : List Int :=
  if (seq.length : Int) ≥ max_seq_len then seq
  else if seq = [] ∨ seq.getLast? ≠ some n then seq ++ [n]
  else seq

/-- The admission loops
`while (not jq.empty() && cond(processes[jq[0]].arrival)) { rq.push_back(jq[0]); jq.erase(jq.begin()); }`
(lines 91-94, 103-106, 110-113). Returns the new `(jq, rq)`. -/
def move_arrived (ps : List Process) (cond : Int → Bool) : List Nat → List Nat → List Nat × List Nat
  | [], rq => ([], rq)
  | i :: jq, rq =>
    if cond (procAt ps i).arrival then move_arrived ps cond jq (rq ++ [i]) else (i :: jq, rq)

/-- The value `(int64_t)pow(2, 63)` that line 137 uses as "no minimum yet",
taken as the number 2^63: it lies above every `int64_t` remaining burst. The
proofs use only that it is not negative. -/
def min_burst_init : Int := 9223372036854775808

/-- The loop of lines 138-140: minimum remaining burst over the ready queue. -/
def min_burst (remb : List Int) (rq : List Nat) : Int :=
  rq.foldl (fun m p => if rembAt remb p < m then rembAt remb p else m) min_burst_init

/-- The loop of line 165: `for (auto & p : rq) remb[p] -= d`. -/
def dec_all (remb : List Int) (rq : List Nat) (d : Int) : List Int :=
  rq.foldl (fun r p => r.set p (rembAt r p - d)) remb

/-- The guard of line 126: no job is waiting, or the next one arrives more than
one full round from now. -/
def ff_guard (quantum : Int) (s : State) : Bool :=
  match s.jq with
  | [] => true
  | a :: _ => (procAt s.processes a).arrival - s.curr_time > (s.rq.length : Int) * quantum

/-- Lines 137-150: the number of rounds `n` to skip; `none` is the `continue`
of line 148. The divisions have a non-negative dividend and a positive divisor
on every run with `quantum > 0`. -/
def ff_count (quantum : Int) (s : State) : Option Int :=
  let mb := min_burst s.remb s.rq
  let n_1 : Int := mb / (quantum * (s.rq.length : Int))
  match s.jq with
  | a :: _ =>
    if s.rq.length ≠ 0 then
      let n_2 : Int :=
        ((procAt s.processes a).arrival - s.curr_time) / ((s.rq.length : Int) * quantum)
      some (min n_1 n_2)
    else if mb = min_burst_init then none else some n_1
  | [] => if mb = min_burst_init then none else some n_1

/-- Lines 154-156: the single-process skip. -/
def ff_single (quantum max_seq_len : Int) (s : State) (p : Nat) (n : Int) : State :=
  { s with
    curr_time := s.curr_time + n * quantum
    remb := s.remb.set p (rembAt s.remb p - n * quantum)
    seq := append_seq max_seq_len s.seq (p : Int) }

/-- Lines 162-165: the skip of `n` whole rounds once the sequence is full. -/
def ff_multi (quantum : Int) (s : State) (n : Int) : State :=
  { s with
    curr_time := s.curr_time + n * (s.rq.length : Int) * quantum
    remb := dec_all s.remb s.rq (n * quantum) }

/-- The fast-forward block (lines 125-166). Every path through it ends the
current loop iteration, so it maps a state to the state at the next loop top. -/
def fast_forward (quantum max_seq_len : Int) (s : State) : State :=
  if ff_guard quantum s then
    if s.rq.any (fun p => (procAt s.processes p).start_time == -1) then s
    else
      match ff_count quantum s with
      | none => s
      | some n =>
        if s.rq.length = 1 then ff_single quantum max_seq_len s (s.rq.headD 0) n
        else if (s.seq.length : Int) ≠ max_seq_len then s
        else if n ≤ 1 then s
        else ff_multi quantum s n
  else s

/-- How one pass through the body of `while (1)` ends: at the next loop top
(`continue`, or falling off the end of the body) or out of the loop (`break`). -/
inductive Outcome where
  | loop (s : State)
  | exit (s : State)
deriving DecidableEq, Repr

/-- The idle branch (lines 67-78), taken when `rq` is empty and `jq = i :: jq'`:
record idleness if the next arrival is in the future, jump to that arrival and
move the job to the ready queue. -/
def idle_step (max_seq_len : Int) (s : State) (i : Nat) (jq : List Nat) : State :=
  let arr := (procAt s.processes i).arrival
  { s with
    seq := if s.curr_time < arr then append_seq max_seq_len s.seq (-1) else s.seq
    curr_time := arr
    rq := s.rq ++ [i]
    jq := jq }

/-- Lines 80-83, taken when `rq = j :: rq'`: record `j` in the sequence, set its
start time on first dispatch, pop it from the ready queue. -/
def dispatch (max_seq_len : Int) (s : State) (j : Nat) (rq : List Nat) : State :=
  { s with
    seq := append_seq max_seq_len s.seq (j : Int)
    processes :=
      if (procAt s.processes j).start_time = -1 then setStart s.processes j s.curr_time
      else s.processes
    rq := rq }

/-- Lines 87-94, after `dispatch`: job `j` runs to completion inside its slice. -/
def finish_slice (s : State) (j : Nat) : State :=
  let t := s.curr_time + rembAt s.remb j
  let ps := setFinish s.processes j t
  let q := move_arrived ps (fun a => a ≤ t) s.jq s.rq
  { s with curr_time := t, remb := s.remb.set j 0, processes := ps, jq := q.1, rq := q.2 }

/-- Lines 100-113, after `dispatch`: job `j` uses a whole quantum and is put
back, after the jobs that arrived strictly before the end of the slice and
before the jobs that arrive exactly at its end. -/
def preempt_slice (quantum : Int) (s : State) (j : Nat) : State :=
  let t := s.curr_time + quantum
  let q1 := move_arrived s.processes (fun a => a < t) s.jq s.rq
  let q2 := move_arrived s.processes (fun a => a == t) q1.1 (q1.2 ++ [j])
  { s with curr_time := t, remb := s.remb.set j (rembAt s.remb j - quantum),
           jq := q2.1, rq := q2.2 }

/-- Lines 117-121: the last job in the system runs to completion. -/
def last_job (max_seq_len : Int) (s : State) : State :=
  let a := s.rq.getLastD 0
  let t := s.curr_time + rembAt s.remb a
  { s with
    seq := append_seq max_seq_len s.seq (a : Int)
    rq := s.rq.dropLast
    curr_time := t
    processes := setFinish s.processes a t }

/-- The complete finishing pass: `dispatch` then `finish_slice`. -/
def finish_step (max_seq_len : Int) (s : State) (j : Nat) (rq : List Nat) : State :=
  finish_slice (dispatch max_seq_len s j rq) j

/-- The preempted pass up to line 113: `dispatch` then `preempt_slice`. -/
def preempt_step (quantum max_seq_len : Int) (s : State) (j : Nat) (rq : List Nat) : State :=
  preempt_slice quantum (dispatch max_seq_len s j rq) j

/-- One pass through the body of the main loop (lines 53-167). With
`ff = true` this is the code as written; with `ff = false` the fast-forward
block (lines 125-166) is skipped, so the pass ends after the "only one job
left" test. -/
def iter (ff : Bool) (quantum max_seq_len : Int) (s : State) : Outcome :=
  match s.rq with
  | [] =>
    match s.jq with
    | [] => .exit s
    | i :: jq => .loop (idle_step max_seq_len s i jq)
  | j :: rq =>
    if rembAt s.remb j ≤ quantum then .loop (finish_step max_seq_len s j rq)
    else
      let s1 := preempt_step quantum max_seq_len s j rq
      if s1.rq.length = 1 ∧ s1.jq = [] then .exit (last_job max_seq_len s1)
      else if ff then .loop (fast_forward quantum max_seq_len s1)
      else .loop s1

/-- The main loop, bounded by `fuel` passes; `none` when the fuel runs out
before the loop is left. -/
def run (ff : Bool) (quantum max_seq_len : Int) : Nat → State → Option State
  | 0, _ => none
  | fuel + 1, s =>
    match iter ff quantum max_seq_len s with
    | .exit s' => some s'
    | .loop s' => run ff quantum max_seq_len fuel s'

/-- The state at the first loop top (lines 40-51): `seq` cleared, time 0, the
job queue holding every index in input order, `remb[i] = processes[i].burst`. -/
def init_state (processes : List Process) : State :=
  { curr_time := 0
    jq := List.range processes.length
    rq := []
    remb := processes.map (·.burst)
    processes := processes
    seq := [] }

/-- The two outputs of `simulate_rr`: the process list and the sequence. -/
structure Result where
  processes : List Process
  seq : List Int
deriving DecidableEq, Repr

/-- The effect of `seq.clear()` (line 40) on the caller's vector: whatever it
held, it is empty afterwards. -/
def vector_clear (_seq : List Int) : List Int := []

/-- The function `simulate_rr`. The argument `seq` is the content of the
caller's vector on entry; it reaches the first loop top through the
`seq.clear()` of line 40. -/
def simulate_rr (fuel : Nat) (quantum max_seq_len : Int) (processes : List Process)
    (seq : List Int) : Option Result :=
  (run true quantum max_seq_len fuel { init_state processes with seq := vector_clear seq }).map
    fun s => ⟨s.processes, s.seq⟩

/-- The reference simulation: `simulate_rr` with the fast-forward block
disabled, one quantum per loop pass. -/
def simulate_rr_ref (fuel : Nat) (quantum max_seq_len : Int) (processes : List Process)
    (seq : List Int) : Option Result :=
  (run false quantum max_seq_len fuel { init_state processes with seq := vector_clear seq }).map
    fun s => ⟨s.processes, s.seq⟩

/-- A fresh process record: position `i`, the given arrival and burst, both
timestamps unset. -/
def mkProc (i : Nat) (arrival burst : Int) : Process :=
  ⟨i, arrival, burst, -1, -1⟩

/-- The fields of a process that `simulate_rr` must leave alone. -/
def frame (p : Process) : Int × Int × Int := (p.id, p.arrival, p.burst)

/-- The sequence invariant: within the cap, and no two adjacent entries equal. -/
def SeqOK (max_seq_len : Int) (seq : List Int) : Prop :=
  (seq.length : Int) ≤ max_seq_len ∧ seq.Chain' (· ≠ ·)

/-- `simulate_rr` returns `r`: some amount of fuel lets the main loop reach a
`break`, with `r` as the outputs at that point. -/
def Returns (quantum max_seq_len : Int) (processes : List Process) (seq : List Int)
    (r : Result) : Prop :=
  ∃ fuel, simulate_rr fuel quantum max_seq_len processes seq = some r

/-- The reference simulation returns `r`. -/
def ReturnsRef (quantum max_seq_len : Int) (processes : List Process) (seq : List Int)
    (r : Result) : Prop :=
  ∃ fuel, simulate_rr_ref fuel quantum max_seq_len processes seq = some r

/-- The queue invariant used for termination: the two queues hold distinct
valid indices whose remaining burst is non-negative. -/
def Core (s : State) : Prop :=
  (∀ i ∈ s.jq ++ s.rq, i < s.remb.length ∧ 0 ≤ rembAt s.remb i) ∧ (s.jq ++ s.rq).Nodup

/-- Total remaining burst. -/
def total (remb : List Int) : Nat :=
  (remb.map Int.toNat).sum

/-- The termination measure of the main loop: it drops on every pass. -/
def measure (s : State) : Nat :=
  total s.remb + 2 * s.jq.length + s.rq.length

/-- What the contract promises about a completed process: both timestamps are
populated, `arrival ≤ start_time ≤ finish_time`, and the process was in the
system at least as long as its burst. -/
def Done (p : Process) : Prop :=
  p.start_time ≠ -1 ∧ p.finish_time ≠ -1 ∧ p.arrival ≤ p.start_time ∧
    p.start_time ≤ p.finish_time ∧ p.burst ≤ p.finish_time - p.arrival

/-- A process that is still in the job queue, with remaining burst `r`. -/
def WaitingP (p : Process) (r : Int) : Prop :=
  p.start_time = -1 ∧ p.finish_time = -1 ∧ 0 ≤ p.arrival ∧ r = p.burst

/-- A process in the ready queue at time `t`, with remaining burst `r`: it has
arrived, and the CPU time it has received fits between its arrival and `t`. -/
def ReadyP (p : Process) (r t : Int) : Prop :=
  p.finish_time = -1 ∧ 0 ≤ p.arrival ∧ r ≤ p.burst ∧ p.arrival + (p.burst - r) ≤ t ∧
    (p.start_time ≠ -1 → p.arrival ≤ p.start_time ∧ p.start_time ≤ t)

/-- A process that has left both queues, with remaining burst `r`. -/
def FinishedP (p : Process) (r : Int) : Prop :=
  Done p ∧ r = 0 ∧ 0 ≤ p.burst

/-- The loop invariant of `simulate_rr` at every loop top. -/
structure Inv (s : State) : Prop where
  core : Core s
  len : s.remb.length = s.processes.length
  time : 0 ≤ s.curr_time
  waiting : ∀ i ∈ s.jq, WaitingP (procAt s.processes i) (rembAt s.remb i)
  ready : ∀ i ∈ s.rq, ReadyP (procAt s.processes i) (rembAt s.remb i) s.curr_time
  finished : ∀ i, i < s.processes.length → i ∉ s.jq ++ s.rq →
    FinishedP (procAt s.processes i) (rembAt s.remb i)

/-- The valid inputs of `simulate_rr`, as far as the process list goes:
non-negative arrivals and bursts, both timestamps unset. -/
def ValidInput (ps : List Process) : Prop :=
  ∀ p ∈ ps, 0 ≤ p.arrival ∧ 0 ≤ p.burst ∧ p.start_time = -1 ∧ p.finish_time = -1

instance (ps : List Process) : Decidable (ValidInput ps) := by
  unfold ValidInput
  infer_instance

/-- Under first-come-first-served, the time at which the CPU is free for the
process at position `k`: 0 for the first one, otherwise the finish time of its
predecessor. -/
def fcfs_free (procs : List Process) (k : Nat) : Int :=
  if k = 0 then 0 else (procAt procs (k - 1)).finish_time

/-- The process at position `i` has its first-come-first-served timestamps. -/
def FcfsAt (procs : List Process) (i : Nat) : Prop :=
  (procAt procs i).start_time = max (procAt procs i).arrival (fcfs_free procs i) ∧
  (procAt procs i).finish_time = (procAt procs i).start_time + (procAt procs i).burst

/-- The recorded sequence while processes `0 .. k-1` have been dispatched in
order: without the idle markers it lists `0 .. k'-1`, and it lists all `k`
unless the cap was reached. -/
def SeqP (m : Int) (k : Nat) (seq : List Int) : Prop :=
  ∃ k', k' ≤ k ∧ seq.filter (fun x => x != -1) = (List.range k').map Int.ofNat ∧
    ((seq.length : Int) < m → k' = k)

/-- Loop invariant when no burst exceeds the quantum: processes `0 .. k-1` are
complete with first-come-first-served timestamps, and `k, k+1, ...` wait in
list order, the ready queue in front of the job queue. -/
structure FInv (q m : Int) (k : Nat) (s : State) : Prop where
  queue : s.rq ++ s.jq = List.range' k (s.processes.length - k)
  klen : k ≤ s.processes.length
  rlen : s.remb.length = s.processes.length
  inb : ∀ i, i < s.processes.length → 0 ≤ (procAt s.processes i).arrival ∧
    0 ≤ (procAt s.processes i).burst ∧ (procAt s.processes i).burst ≤ q
  fresh : ∀ i, k ≤ i → i < s.processes.length →
    (procAt s.processes i).start_time = -1 ∧ rembAt s.remb i = (procAt s.processes i).burst
  sched : ∀ i, i < k → FcfsAt s.processes i
  t_idle : s.rq = [] → s.curr_time = fcfs_free s.processes k ∧
    ∀ a ∈ s.jq.head?, s.curr_time ≤ (procAt s.processes a).arrival
  t_busy : s.rq ≠ [] →
    s.curr_time = max (procAt s.processes k).arrival (fcfs_free s.processes k)
  arrived : ∀ i ∈ s.rq, (procAt s.processes i).arrival ≤ s.curr_time
  seqp : SeqP m k s.seq

/-- The admission of the jobs that arrive exactly now (the loop of lines
110-113, read at the current time). After a fast-forward the reference
simulation has already performed it, the optimised one has not yet. -/
def shift (s : State) : State :=
  let q2 := move_arrived s.processes (fun a => a == s.curr_time) s.jq s.rq
  { s with jq := q2.1, rq := q2.2 }

/-- The state after `k` passes of the reference simulation, none of which
leaves the loop. -/
def passes (quantum max_seq_len : Int) : Nat → State → Option State
  | 0, s => some s
  | k + 1, s =>
    match iter false quantum max_seq_len s with
    | .loop s' => passes quantum max_seq_len k s'
    | .exit _ => none

/-- The simulation relation between a loop-top state `so` of `simulate_rr` and
a loop-top state `sr` of the reference simulation: the states are equal; or
the reference simulation has already admitted the jobs arriving exactly now; or
fast-forward has consumed the whole remaining burst of the only ready process,
whose last slice the reference simulation is about to run. -/
def Rel (quantum : Int) (so sr : State) : Prop :=
  sr = so ∨ (so.rq ≠ [] ∧ sr = shift so) ∨
  ∃ p, so.rq = [p] ∧ p < so.remb.length ∧ rembAt so.remb p = 0 ∧
    (procAt so.processes p).start_time ≠ -1 ∧
    sr = { so with curr_time := so.curr_time - quantum, remb := so.remb.set p quantum }

/-- The state with its sequence cut to the first `k` entries. -/
def capSeq (k : Nat) (s : State) : State :=
  { s with seq := s.seq.take k }

/-- The outcome of a pass with the sequence of its state cut to `k` entries. -/
def capOut (k : Nat) : Outcome → Outcome
  | .loop s => .loop (capSeq k s)
  | .exit s => .exit (capSeq k s)

/-- The state at the loop top after `k` passes through the body of the main
loop, none of which leaves the loop. -/
def loop_top (ff : Bool) (quantum max_seq_len : Int) : Nat → State → Option State
  | 0, s => some s
  | k + 1, s =>
    match iter ff quantum max_seq_len s with
    | .loop s' => loop_top ff quantum max_seq_len k s'
    | .exit _ => none

/-- `s` is the state at the top of some iteration of the main loop of
`simulate_rr` on the given input. -/
def LoopTop (quantum max_seq_len : Int) (processes : List Process) (s : State) : Prop :=
  ∃ k, loop_top true quantum max_seq_len k (init_state processes) = some s

/-- The remaining-burst invariant: the queues are in order (`Core`), and for
every process `0 ≤ remb[i] ≤ burst[i]`. -/
def RInv (s : State) : Prop :=
  Core s ∧ s.remb.length = s.processes.length ∧
  ∀ i, i < s.processes.length →
    0 ≤ rembAt s.remb i ∧ rembAt s.remb i ≤ (procAt s.processes i).burst

/-- Time does not run backwards in the idle branch: whenever the ready queue
is empty, the next job arrives no earlier than the current time. -/
def TimeOK (s : State) : Prop :=
  s.rq = [] → ∀ a ∈ s.jq.head?, s.curr_time ≤ (procAt s.processes a).arrival

/-- The loop invariant when every process arrives at time 0: the CPU never
idles, so the time elapsed is the CPU time consumed (`B` is the sum of all
bursts), and every process that has left the queues finished no later than
now. -/
structure WInv (B : Int) (s : State) : Prop where
  core : Core s
  len : s.remb.length = s.processes.length
  time : 0 ≤ s.curr_time
  arr : ∀ i, i < s.processes.length → (procAt s.processes i).arrival = 0
  work : s.curr_time + s.remb.sum = B
  fin : ∀ i, i < s.processes.length → i ∉ s.jq ++ s.rq →
    rembAt s.remb i = 0 ∧ (procAt s.processes i).finish_time ≤ s.curr_time
  last : s.jq = [] → s.rq = [] → 0 < s.processes.length →
    ∃ i, i < s.processes.length ∧ (procAt s.processes i).finish_time = s.curr_time
  noidle : (-1 : Int) ∉ s.seq

/-! ## The command surface (`main.cpp`)

Text is a list of characters; standard input is the list of characters not
yet read. What the program prints is not modelled; what is kept is how far it
gets outside `simulate_rr`: to the usage message, to the error of an input
line, or to the call of `simulate_rr`, which is recorded with its arguments
and not run. -/

/-- The `isspace` of `<cctype>` in the "C" locale: the space (code 32) and the
control characters `\t`, `\n`, `\v`, `\f`, `\r` (codes 9 to 13). -/
def isspace (c : Char) : Bool :=
  c.toNat == 32 || (9 ≤ c.toNat && c.toNat ≤ 13)

/-- The decimal digits. -/
def isdigit (c : Char) : Bool :=
  48 ≤ c.toNat && c.toNat ≤ 57

/-- One turn of the `for` loop of `split` (lines 47-56) on the triple
`(res, in_str, curr_word)`. -/
def split_step (st : List (List Char) × Bool × List Char) (c : Char) :
    List (List Char) × Bool × List Char :=
  if isspace c then (if st.2.1 then st.1 ++ [st.2.2] else st.1, false, [])
  else (st.1, true, st.2.2 ++ [c])

/-- The tokeniser `split` (lines 41-58): the maximal runs of non-space
characters of the line, in order. -/
def split (p_line : List Char) : List (List Char) :=
  ((p_line ++ [Char.ofNat 32]).foldl split_step ([], false, [])).1

/-- The line reader `stdin_readline` (lines 60-70) on the unread input: the
characters up to and including the first newline, or up to the end of the
input, together with what is left unread. -/
def stdin_readline : List Char → List Char × List Char
  | [] => ([], [])
  | c :: cs =>
    if c = Char.ofNat 10 then ([c], cs)
    else ((c :: (stdin_readline cs).1), (stdin_readline cs).2)

/-- The library function `std::stoll` in base 10, as the C++ standard defines
it through `strtoll`: leading white space is skipped, one sign is optional,
the longest run of decimal digits is converted and what follows it is ignored;
`none` stands for the exception thrown when there is no digit
(`std::invalid_argument`) or the value is outside the 64-bit range
(`std::out_of_range`). -/
def stoll (str : List Char) : Option Int :=
  let s1 := str.dropWhile isspace
  let neg : Bool := s1.head? == some (Char.ofNat 45)
  let s2 :=
    match s1 with
    | c :: t => if c = Char.ofNat 45 ∨ c = Char.ofNat 43 then t else s1
    | [] => s1
  let ds := s2.takeWhile isdigit
  let v : Nat := ds.foldl (fun a d => 10 * a + (d.toNat - 48)) 0
  let r : Int := if neg then -(v : Int) else (v : Int)
  if ds = [] then none
  else if -9223372036854775808 ≤ r ∧ r ≤ 9223372036854775807 then some r
  else none

/-- Modelled from the spec: `scheduler.h` is not among the sources, so what
the declaration `Process p;` of line 108 leaves in the two timestamps is taken
from the data model of the spec, where both are unset (the sentinel -1) until
the simulation sets them. -/
def new_process : Process := ⟨0, 0, 0, -1, -1⟩

/-- The `try` block of lines 107-112 for the tokens of one line; `none` stands
for an exception: the line has not exactly two tokens, or `std::stoll` throws
on one of them. -/
def parse_line (toks : List (List Char)) (size : Nat) : Option Process :=
  match toks with
  | [t0, t1] =>
    match stoll t0 with
    | none => none
    | some arrival =>
      match stoll t1 with
      | none => none
      | some burst => some { new_process with id := (size : Int), arrival := arrival, burst := burst }
  | _ => none

/-- How the reading loop of `run_sched` ends. -/
inductive Input where
  | error (line_no : Nat)
  | ok (processes : List Process)
deriving DecidableEq, Repr

/-- The reading loop of `run_sched` (lines 99-117), bounded by `fuel` turns:
it stops at the end of the input, skips a line without tokens, ends the
program with the error of the first line the `try` block rejects, and
otherwise appends the process of the line. -/
def read_processes : Nat → List Char → Nat → List Process → Option Input
  | 0, _, _, _ => none
  | fuel + 1, stdin, line_no, processes =>
    if (stdin_readline stdin).1 = [] then some (.ok processes)
    else if split (stdin_readline stdin).1 = [] then
      read_processes fuel (stdin_readline stdin).2 (line_no + 1) processes
    else
      match parse_line (split (stdin_readline stdin).1) processes.length with
      | none => some (.error (line_no + 1))
      | some p => read_processes fuel (stdin_readline stdin).2 (line_no + 1) (processes ++ [p])

/-- How far `cppmain` gets outside `simulate_rr`: to the usage message and
the return value -1 (`usage`, lines 139-144); to `exit(-1)` after the error
message of an input line (lines 114-115); or to the call
`simulate_rr(quantum, max_seq_len, processes, seq)` of line 123. The call
itself is not run here: if it returns, `run_sched` prints the result and
returns 0; whether it returns is a matter of `simulate_rr`. -/
inductive MainResult where
  | usage
  | line_error (line_no : Nat)
  | simulate (quantum max_seq_len : Int) (processes : List Process) (seq : List Int)
deriving DecidableEq, Repr

/-- The function `run_sched` (lines 92-138) on the unread input, up to the
call of `simulate_rr`. Every turn of the reading loop consumes at least one
character, so the fuel given here is never used up (`run_sched_eq`). The
vector `seq` is handed to `simulate_rr` holding `-2, 1000000, 5000`
(line 121). -/
def run_sched (quantum max_seq_len : Int) (stdin : List Char) : Option MainResult :=
  match read_processes (stdin.length + 1) stdin 0 [] with
  | none => none
  | some (.error line_no) => some (.line_error line_no)
  | some (.ok processes) => some (.simulate quantum max_seq_len processes [-2, 1000000, 5000])

/-- The function `cppmain` (lines 146-160) on the argument vector and the
input, up to the call of `simulate_rr`: the usage message unless there are
exactly three arguments and `std::stoll` accepts the second and the third;
`run_sched` otherwise. -/
def cppmain (args : List (List Char)) (stdin : List Char) : Option MainResult :=
  match args with
  | [_, a1, a2] =>
    match stoll a1 with
    | none => some .usage
    | some quantum =>
      match stoll a2 with
      | none => some .usage
      | some max_seq_len => run_sched quantum max_seq_len stdin
  | _ => some .usage

/-- The value `main` returns, or the status given to `exit`, once the call of
`simulate_rr` (if any) has returned. -/
def exit_status : MainResult → Int
  | .usage => -1
  | .line_error _ => -1
  | .simulate _ _ _ _ => 0

/-- The lines of a text: the text cut after each newline, the newlines
dropped. -/
def lines_of : List Char → List (List Char)
  | [] => []
  | c :: cs =>
    if c = Char.ofNat 10 then [] :: lines_of cs
    else
      match lines_of cs with
      | [] => [[c]]
      | l :: ls => (c :: l) :: ls

/-- The reading loop of `run_sched` seen line by line. -/
def read_lines : List (List Char) → Nat → List Process → Input
  | [], _, processes => .ok processes
  | l :: ls, line_no, processes =>
    if split l = [] then read_lines ls (line_no + 1) processes
    else
      match parse_line (split l) processes.length with
      | none => .error (line_no + 1)
      | some p => read_lines ls (line_no + 1) (processes ++ [p])

/-- A line holds the record `(arrival, burst)`: it has exactly two tokens and
`std::stoll` reads these two values from them. -/
def RecordOf (l : List Char) (r : Int × Int) : Prop :=
  ∃ t0 t1, split l = [t0, t1] ∧ stoll t0 = some r.1 ∧ stoll t1 = some r.2

/-- The processes of a list of records, numbered from `size` on. -/
def processes_from : Nat → List (Int × Int) → List Process
  | _, [] => []
  | size, r :: rs => mkProc size r.1 r.2 :: processes_from (size + 1) rs

/-! ## Reading and writing the vectors -/

theorem procAt_set_self {ps : List Process} {j : Nat} {p : Process} (h : j < ps.length) :
    procAt (ps.set j p) j = p := by
  simp [procAt, List.getD_eq_getElem?_getD, List.getElem?_set, h]

theorem procAt_set_ne {ps : List Process} {j i : Nat} {p : Process} (h : j ≠ i) :
    procAt (ps.set j p) i = procAt ps i := by
  simp [procAt, List.getD_eq_getElem?_getD, List.getElem?_set, h]

theorem procAt_set_oob {ps : List Process} {j i : Nat} {p : Process} (h : ps.length ≤ j) :
    procAt (ps.set j p) i = procAt ps i := by
  by_cases hji : j = i
  · subst hji
    simp [procAt, List.getD_eq_getElem?_getD, List.getElem?_set, Nat.not_lt.mpr h,
      List.getElem?_eq_none h]
  · exact procAt_set_ne hji

theorem rembAt_set_self {r : List Int} {j : Nat} {v : Int} (h : j < r.length) :
    rembAt (r.set j v) j = v := by
  simp [rembAt, List.getD_eq_getElem?_getD, List.getElem?_set, h]

theorem rembAt_set_ne {r : List Int} {j i : Nat} {v : Int} (h : j ≠ i) :
    rembAt (r.set j v) i = rembAt r i := by
  simp [rembAt, List.getD_eq_getElem?_getD, List.getElem?_set, h]

theorem procAt_setStart_self {ps : List Process} {j : Nat} {t : Int} (h : j < ps.length) :
    procAt (setStart ps j t) j = { procAt ps j with start_time := t } :=
  procAt_set_self h

theorem procAt_setStart_ne {ps : List Process} {j i : Nat} {t : Int} (h : j ≠ i) :
    procAt (setStart ps j t) i = procAt ps i :=
  procAt_set_ne h

theorem procAt_setFinish_self {ps : List Process} {j : Nat} {t : Int} (h : j < ps.length) :
    procAt (setFinish ps j t) j = { procAt ps j with finish_time := t } :=
  procAt_set_self h

theorem procAt_setFinish_ne {ps : List Process} {j i : Nat} {t : Int} (h : j ≠ i) :
    procAt (setFinish ps j t) i = procAt ps i :=
  procAt_set_ne h

theorem length_setStart (ps : List Process) (j : Nat) (t : Int) :
    (setStart ps j t).length = ps.length := by
  simp [setStart]

theorem length_setFinish (ps : List Process) (j : Nat) (t : Int) :
    (setFinish ps j t).length = ps.length := by
  simp [setFinish]

/-- Writing a record with the same protected fields leaves the frame alone. -/
theorem map_frame_set {ps : List Process} {j : Nat} {p : Process}
    (h : frame p = frame (procAt ps j)) : (ps.set j p).map frame = ps.map frame := by
  apply List.ext_getElem?
  intro n
  simp only [List.getElem?_map, List.getElem?_set]
  by_cases hjn : j = n
  · subst hjn
    by_cases hj : j < ps.length
    · have : ps[j]? = some (procAt ps j) := by
        simp [procAt, List.getD_eq_getElem?_getD, List.getElem?_eq_getElem hj]
      simp [hj, this, h]
    · simp [hj, List.getElem?_eq_none (Nat.not_lt.mp hj)]
  · simp [hjn]

theorem map_frame_setStart (ps : List Process) (j : Nat) (t : Int) :
    (setStart ps j t).map frame = ps.map frame :=
  map_frame_set rfl

theorem map_frame_setFinish (ps : List Process) (j : Nat) (t : Int) :
    (setFinish ps j t).map frame = ps.map frame :=
  map_frame_set rfl

/-- The arrival of a process is read off the frame. -/
theorem arrival_of_frame {ps ps' : List Process} (h : ps'.map frame = ps.map frame) (i : Nat) :
    (procAt ps' i).arrival = (procAt ps i).arrival ∧ (procAt ps' i).burst = (procAt ps i).burst
      ∧ (procAt ps' i).id = (procAt ps i).id := by
  have h1 := congrArg (fun l => l[i]?) h
  simp only [List.getElem?_map] at h1
  unfold procAt
  rw [List.getD_eq_getElem?_getD, List.getD_eq_getElem?_getD]
  cases h2 : ps'[i]? <;> cases h3 : ps[i]? <;> simp [h2, h3, frame] at h1 ⊢
  exact ⟨h1.2.1, h1.2.2, h1.1⟩

/-! ## The main loop -/

/-- More fuel never changes a result. -/
theorem run_add {o : Bool} {q m : Int} :
    ∀ (fuel : Nat) (s r : State), run o q m fuel s = some r →
      ∀ k, run o q m (fuel + k) s = some r := by
  intro fuel
  induction fuel with
  | zero => intro s r h; simp [run] at h
  | succ n ih =>
    intro s r h k
    have : n + 1 + k = (n + k) + 1 := by omega
    rw [this]
    simp only [run] at h ⊢
    cases hi : iter o q m s with
    | exit s' => simpa [hi] using h
    | loop s' =>
      rw [hi] at h
      exact ih s' r h k

/-- The result of the loop does not depend on the fuel. -/
theorem run_unique {o : Bool} {q m : Int} {f1 f2 : Nat} {s r1 r2 : State}
    (h1 : run o q m f1 s = some r1) (h2 : run o q m f2 s = some r2) : r1 = r2 := by
  have a := run_add f1 s r1 h1 f2
  have b := run_add f2 s r2 h2 f1
  rw [Nat.add_comm] at b
  rw [a] at b
  exact Option.some.inj b

/-- Invariant rule for the main loop, one premise per path through the body. -/
theorem run_rule {o : Bool} {q m : Int} (P Q : State → Prop)
    (h_end : ∀ s, P s → s.rq = [] → s.jq = [] → Q s)
    (h_idle : ∀ s i jq, P s → s.rq = [] → s.jq = i :: jq → P (idle_step m s i jq))
    (h_fin : ∀ s j rq, P s → s.rq = j :: rq → rembAt s.remb j ≤ q →
      P (finish_step m s j rq))
    (h_pre : ∀ s j rq, P s → s.rq = j :: rq → q < rembAt s.remb j →
      P (preempt_step q m s j rq))
    (h_last : ∀ s, P s → s.rq.length = 1 → s.jq = [] → Q (last_job m s))
    (h_ff : o = true → ∀ s, P s → P (fast_forward q m s)) :
    ∀ (fuel : Nat) (s r : State), P s → run o q m fuel s = some r → Q r := by
  intro fuel
  induction fuel with
  | zero => intro s r _ h; simp [run] at h
  | succ n ih =>
    intro s r hP h
    simp only [run, iter] at h
    cases hrq : s.rq with
    | nil =>
      cases hjq : s.jq with
      | nil =>
        simp only [hrq, hjq] at h
        cases Option.some.inj h
        exact h_end s hP hrq hjq
      | cons i jq =>
        simp only [hrq, hjq] at h
        exact ih _ r (h_idle s i jq hP hrq hjq) h
    | cons j rq =>
      simp only [hrq] at h
      by_cases hle : rembAt s.remb j ≤ q
      · simp only [hle, if_true] at h
        exact ih _ r (h_fin s j rq hP hrq hle) h
      · simp only [hle, if_false] at h
        have hP1 := h_pre s j rq hP hrq (by omega)
        by_cases hl : (preempt_step q m s j rq).rq.length = 1 ∧ (preempt_step q m s j rq).jq = []
        · simp only [hl, and_self, if_true] at h
          cases Option.some.inj h
          exact h_last _ hP1 hl.1 hl.2
        · simp only [hl, if_false] at h
          cases o with
          | true =>
            simp only [if_true] at h
            exact ih _ r (h_ff rfl _ hP1) h
          | false =>
            simp only [Bool.false_eq_true, if_false] at h
            exact ih _ r hP1 h

/-! ## The fast-forward block, by cases -/

/-- The three things the fast-forward block can do: nothing, the
single-process skip, or the saturated-sequence skip. -/
theorem fast_forward_cases (q m : Int) (s : State) :
    fast_forward q m s = s ∨
    (ff_guard q s = true ∧ (∀ p ∈ s.rq, (procAt s.processes p).start_time ≠ -1) ∧
      ∃ n, ff_count q s = some n ∧
      ((∃ p, s.rq = [p] ∧ fast_forward q m s = ff_single q m s p n) ∨
       (2 ≤ s.rq.length ∧ (s.seq.length : Int) = m ∧ 1 < n ∧
          fast_forward q m s = ff_multi q s n))) := by
  unfold fast_forward
  by_cases hg : ff_guard q s = true
  swap
  · left; simp only [hg]; rfl
  simp only [hg, if_true]
  by_cases hany : (s.rq.any fun p => (procAt s.processes p).start_time == -1) = true
  · left; simp only [hany, if_true]
  have hst : ∀ p ∈ s.rq, (procAt s.processes p).start_time ≠ -1 := by
    intro p hp hc
    apply hany
    rw [List.any_eq_true]
    exact ⟨p, hp, by simp [hc]⟩
  simp only [hany]
  cases hc : ff_count q s with
  | none => left; rfl
  | some n =>
    simp only [Bool.false_eq_true, if_false]
    by_cases h1 : s.rq.length = 1
    · right
      refine ⟨trivial, hst, n, rfl, Or.inl ?_⟩
      obtain ⟨p, hp⟩ := List.length_eq_one.mp h1
      exact ⟨p, hp, by simp [h1, hp]⟩
    · simp only [h1, if_false]
      by_cases h2 : (s.seq.length : Int) = m
      swap
      · left; simp [h2]
      by_cases h3 : n ≤ 1
      · left; simp [h3]
      have h0 : s.rq.length ≠ 0 := by
        intro h0
        have hnil : s.rq = [] := List.length_eq_zero.mp h0
        unfold ff_count at hc
        simp only [hnil, List.length_nil, Nat.cast_zero, mul_zero, Int.ediv_zero] at hc
        cases hjq : s.jq <;> simp only [hjq] at hc
        · split at hc <;> simp at hc; omega
        · simp at hc; omega
      right
      refine ⟨trivial, hst, n, rfl, Or.inr ⟨by omega, h2, by omega, ?_⟩⟩
      simp [h2, h3]

/-- The round count never exceeds `n_1`. -/
theorem ff_count_le_n1 {q : Int} {s : State} {n : Int} (h : ff_count q s = some n) :
    n ≤ min_burst s.remb s.rq / (q * (s.rq.length : Int)) := by
  unfold ff_count at h
  cases hjq : s.jq with
  | nil =>
    simp only [hjq] at h
    split at h
    · simp at h
    · cases Option.some.inj h; exact le_refl _
  | cons a l =>
    simp only [hjq] at h
    split at h
    · cases Option.some.inj h; exact min_le_left _ _
    · split at h
      · simp at h
      · cases Option.some.inj h; exact le_refl _

/-- With a job waiting, the round count never exceeds `n_2`. -/
theorem ff_count_le_n2 {q : Int} {s : State} {n : Int} {a : Nat} {l : List Nat}
    (h : ff_count q s = some n) (hjq : s.jq = a :: l) (hrq : s.rq ≠ []) :
    n ≤ ((procAt s.processes a).arrival - s.curr_time) / ((s.rq.length : Int) * q) := by
  unfold ff_count at h
  have : s.rq.length ≠ 0 := fun h0 => hrq (List.length_eq_zero.mp h0)
  simp only [hjq, this, ne_eq, not_false_eq_true, if_true] at h
  cases Option.some.inj h; exact min_le_right _ _

/-- The round count is `n_1`, or `n_2` when a job is waiting. -/
theorem ff_count_eq {q : Int} {s : State} {n : Int} (h : ff_count q s = some n) :
    n = min_burst s.remb s.rq / (q * (s.rq.length : Int)) ∨
    ∃ a l, s.jq = a :: l ∧
      n = ((procAt s.processes a).arrival - s.curr_time) / ((s.rq.length : Int) * q) := by
  unfold ff_count at h
  cases hjq : s.jq with
  | nil =>
    simp only [hjq] at h
    split at h
    · simp at h
    · cases Option.some.inj h; exact Or.inl rfl
  | cons a l =>
    simp only [hjq] at h
    split at h
    · cases Option.some.inj h
      rcases min_choice (min_burst s.remb s.rq / (q * (s.rq.length : Int)))
        (((procAt s.processes a).arrival - s.curr_time) / ((s.rq.length : Int) * q)) with h1 | h1
      · exact Or.inl h1
      · exact Or.inr ⟨a, l, rfl, h1⟩
    · split at h
      · simp at h
      · cases Option.some.inj h; exact Or.inl rfl

/-! ## Frame: only the two timestamps are written -/

theorem fast_forward_processes (q m : Int) (s : State) :
    (fast_forward q m s).processes = s.processes := by
  rcases fast_forward_cases q m s with h | ⟨_, _, n, _, ⟨p, _, h⟩ | ⟨_, _, _, h⟩⟩ <;> rw [h] <;> rfl

theorem fast_forward_queues (q m : Int) (s : State) :
    (fast_forward q m s).jq = s.jq ∧ (fast_forward q m s).rq = s.rq := by
  rcases fast_forward_cases q m s with h | ⟨_, _, n, _, ⟨p, _, h⟩ | ⟨_, _, _, h⟩⟩ <;> rw [h] <;>
    exact ⟨rfl, rfl⟩

theorem dispatch_frame (m : Int) (s : State) (j : Nat) (rq : List Nat) :
    (dispatch m s j rq).processes.map frame = s.processes.map frame := by
  unfold dispatch
  dsimp only
  split
  · exact map_frame_setStart _ _ _
  · rfl

theorem finish_step_frame (m : Int) (s : State) (j : Nat) (rq : List Nat) :
    (finish_step m s j rq).processes.map frame = s.processes.map frame := by
  unfold finish_step finish_slice
  dsimp only
  rw [map_frame_setFinish, dispatch_frame]

theorem preempt_step_frame (q m : Int) (s : State) (j : Nat) (rq : List Nat) :
    (preempt_step q m s j rq).processes.map frame = s.processes.map frame := by
  unfold preempt_step preempt_slice
  dsimp only
  rw [dispatch_frame]

theorem last_job_frame (m : Int) (s : State) :
    (last_job m s).processes.map frame = s.processes.map frame := by
  unfold last_job
  dsimp only
  rw [map_frame_setFinish]

/-- Every state of a run has the protected fields of the initial state. -/
theorem run_frame {o : Bool} {q m : Int} (ps : List (Int × Int × Int)) :
    ∀ (fuel : Nat) (s r : State), s.processes.map frame = ps →
      run o q m fuel s = some r → r.processes.map frame = ps := by
  apply run_rule (fun s => s.processes.map frame = ps) (fun s => s.processes.map frame = ps)
  · intro s h _ _; exact h
  · intro s i jq h _ _; exact h
  · intro s j rq h _ _; rw [finish_step_frame]; exact h
  · intro s j rq h _ _; rw [preempt_step_frame]; exact h
  · intro s h _ _; rw [last_job_frame]; exact h
  · intro _ s h; rw [fast_forward_processes]; exact h

/-! ## The sequence recorder -/

theorem append_seq_ok {m : Int} {seq : List Int} (n : Int) (h : SeqOK m seq) :
    SeqOK m (append_seq m seq n) := by
  unfold append_seq
  split
  · exact h
  · split
    · rename_i hlt hne
      refine ⟨by simp only [List.length_append, List.length_singleton]; push_cast; omega, ?_⟩
      rw [List.chain'_append]
      refine ⟨h.2, List.chain'_singleton n, ?_⟩
      intro x hx y hy
      simp only [List.head?_cons, Option.mem_def, Option.some.injEq] at hy
      subst hy
      rcases hne with hnil | hlast
      · simp [hnil] at hx
      · intro hxy
        apply hlast
        rw [← hxy]
        exact hx
    · exact h

theorem fast_forward_seq_ok {q m : Int} {s : State} (h : SeqOK m s.seq) :
    SeqOK m (fast_forward q m s).seq := by
  rcases fast_forward_cases q m s with h1 | ⟨_, _, n, _, ⟨p, _, h1⟩ | ⟨_, _, _, h1⟩⟩ <;> rw [h1]
  · exact h
  · exact append_seq_ok _ h
  · exact h

/-- Every state of a run satisfies the sequence invariant. -/
theorem run_seq_ok {o : Bool} {q m : Int} :
    ∀ (fuel : Nat) (s r : State), SeqOK m s.seq →
      run o q m fuel s = some r → SeqOK m r.seq := by
  apply run_rule (fun s => SeqOK m s.seq) (fun s => SeqOK m s.seq)
  · intro s h _ _; exact h
  · intro s i jq h _ _
    unfold idle_step
    dsimp only
    split
    · exact append_seq_ok _ h
    · exact h
  · intro s j rq h _ _; exact append_seq_ok _ h
  · intro s j rq h _ _; exact append_seq_ok _ h
  · intro s h _ _; exact append_seq_ok _ h
  · intro _ s h; exact fast_forward_seq_ok h

/-! ## The admission loops -/

/-- The admission loop moves the longest prefix of the job queue whose
arrivals satisfy the condition to the back of the ready queue. -/
theorem move_arrived_eq (ps : List Process) (c : Int → Bool) :
    ∀ (jq rq : List Nat), move_arrived ps c jq rq =
      (jq.dropWhile (fun i => c (procAt ps i).arrival),
       rq ++ jq.takeWhile (fun i => c (procAt ps i).arrival)) := by
  intro jq
  induction jq with
  | nil => intro rq; simp [move_arrived]
  | cons i jq ih =>
    intro rq
    unfold move_arrived
    by_cases h : c (procAt ps i).arrival = true
    · simp [h, ih, List.takeWhile_cons, List.dropWhile_cons]
    · simp [h, List.takeWhile_cons, List.dropWhile_cons]

theorem move_arrived_perm (ps : List Process) (c : Int → Bool) (jq rq : List Nat) :
    ((move_arrived ps c jq rq).1 ++ (move_arrived ps c jq rq).2).Perm (jq ++ rq) := by
  rw [move_arrived_eq]
  dsimp only
  have h := List.takeWhile_append_dropWhile (fun i => c (procAt ps i).arrival) jq
  calc (jq.dropWhile _ ++ (rq ++ jq.takeWhile _)).Perm
        ((rq ++ jq.takeWhile _) ++ jq.dropWhile _) := List.perm_append_comm
    _ = rq ++ (jq.takeWhile _ ++ jq.dropWhile _) := by rw [List.append_assoc]
    _ = rq ++ jq := by rw [h]
    _ |>.Perm (jq ++ rq) := List.perm_append_comm

theorem move_arrived_jq_length_le (ps : List Process) (c : Int → Bool) (jq rq : List Nat) :
    (move_arrived ps c jq rq).1.length ≤ jq.length := by
  rw [move_arrived_eq]
  exact (List.dropWhile_sublist _).length_le

theorem move_arrived_rq_ne_nil (ps : List Process) (c : Int → Bool) (jq rq : List Nat) (h : rq ≠ []) :
    (move_arrived ps c jq rq).2 ≠ [] := by
  rw [move_arrived_eq]
  simp [h]

/-- After the loop the head of the job queue, if any, fails the condition. -/
theorem move_arrived_head (ps : List Process) (c : Int → Bool) (jq rq : List Nat) :
    ∀ a ∈ (move_arrived ps c jq rq).1.head?, c (procAt ps a).arrival = false := by
  rw [move_arrived_eq]
  dsimp only
  intro a ha
  have := List.head?_dropWhile_not (fun i => c (procAt ps i).arrival) jq
  rw [Option.mem_def] at ha
  rw [ha] at this
  simpa using this

/-! ## The queues along one pass -/

theorem idle_step_perm {m : Int} {s : State} {i : Nat} {jq : List Nat} (h : s.jq = i :: jq) :
    ((idle_step m s i jq).jq ++ (idle_step m s i jq).rq).Perm (s.jq ++ s.rq) := by
  unfold idle_step
  dsimp only
  rw [h]
  calc (jq ++ (s.rq ++ [i])).Perm ((s.rq ++ [i]) ++ jq) := List.perm_append_comm
    _ |>.Perm ([i] ++ jq ++ s.rq) := by
        rw [List.append_assoc]
        exact List.perm_append_comm.trans (by rw [List.append_assoc])
    _ = i :: jq ++ s.rq := rfl

theorem finish_step_perm {m : Int} {s : State} {j : Nat} {rq : List Nat} (h : s.rq = j :: rq) :
    (j :: ((finish_step m s j rq).jq ++ (finish_step m s j rq).rq)).Perm (s.jq ++ s.rq) := by
  unfold finish_step finish_slice dispatch
  dsimp only
  rw [h]
  refine ((move_arrived_perm _ _ s.jq rq).cons j).trans ?_
  exact List.perm_middle.symm

theorem preempt_step_perm {q m : Int} {s : State} {j : Nat} {rq : List Nat}
    (h : s.rq = j :: rq) :
    ((preempt_step q m s j rq).jq ++ (preempt_step q m s j rq).rq).Perm (s.jq ++ s.rq) := by
  unfold preempt_step preempt_slice dispatch
  dsimp only
  rw [h]
  refine (move_arrived_perm _ _ _ _).trans ?_
  rw [← List.append_assoc]
  refine ((move_arrived_perm _ _ s.jq rq).append_right [j]).trans ?_
  rw [List.append_assoc]
  exact List.Perm.append_left _ (List.perm_append_comm)

theorem preempt_step_rq_ne_nil (q m : Int) (s : State) (j : Nat) (rq : List Nat) :
    (preempt_step q m s j rq).rq ≠ [] := by
  unfold preempt_step preempt_slice
  dsimp only
  exact move_arrived_rq_ne_nil _ _ _ _ (by simp)

theorem preempt_step_jq_length_le (q m : Int) (s : State) (j : Nat) (rq : List Nat) :
    (preempt_step q m s j rq).jq.length ≤ s.jq.length := by
  unfold preempt_step preempt_slice dispatch
  dsimp only
  exact (move_arrived_jq_length_le _ _ _ _).trans (move_arrived_jq_length_le _ _ _ _)

theorem finish_step_jq_length_le (m : Int) (s : State) (j : Nat) (rq : List Nat) :
    (finish_step m s j rq).jq.length ≤ s.jq.length := by
  unfold finish_step finish_slice dispatch
  dsimp only
  exact move_arrived_jq_length_le _ _ _ _

/-! ## Remaining bursts -/

theorem total_set (r : List Int) (j : Nat) (v : Int) (h : j < r.length) :
    total (r.set j v) + (rembAt r j).toNat = total r + v.toNat := by
  induction r generalizing j with
  | nil => simp at h
  | cons x r ih =>
    cases j with
    | zero => simp [total, rembAt]; omega
    | succ j =>
      have hj : j < r.length := by simpa using h
      have := ih j hj
      simp only [total, rembAt, List.set_cons_succ, List.map_cons, List.sum_cons,
        List.getD_cons_succ] at this ⊢
      omega

theorem set_oob {α : Type} (r : List α) (j : Nat) (v : α) (h : r.length ≤ j) : r.set j v = r := by
  apply List.ext_getElem?
  intro n
  rw [List.getElem?_set]
  split
  · rename_i hjn
    subst hjn
    simp [Nat.not_lt.mpr h, List.getElem?_eq_none h]
  · rfl

theorem total_set_le (r : List Int) (j : Nat) (v : Int) (h : v ≤ rembAt r j) :
    total (r.set j v) ≤ total r := by
  by_cases hj : j < r.length
  · have := total_set r j v hj
    have : v.toNat ≤ (rembAt r j).toNat := Int.toNat_le_toNat h
    omega
  · rw [set_oob r j v (Nat.not_lt.mp hj)]

theorem total_set_lt (r : List Int) (j : Nat) (v : Int) (hj : j < r.length)
    (h : v < rembAt r j) (h0 : 0 < rembAt r j) : total (r.set j v) < total r := by
  have := total_set r j v hj
  have : v.toNat < (rembAt r j).toNat := by omega
  omega

theorem min_fold_le (r : List Int) (rq : List Nat) :
    ∀ init : Int,
      rq.foldl (fun m p => if rembAt r p < m then rembAt r p else m) init ≤ init ∧
      ∀ p ∈ rq, rq.foldl (fun m p => if rembAt r p < m then rembAt r p else m) init
        ≤ rembAt r p := by
  induction rq with
  | nil => intro init; simp
  | cons a rq ih =>
    intro init
    simp only [List.foldl_cons, List.mem_cons, forall_eq_or_imp]
    have h := ih (if rembAt r a < init then rembAt r a else init)
    refine ⟨?_, ?_, h.2⟩
    · refine h.1.trans ?_
      split <;> omega
    · refine h.1.trans ?_
      split <;> omega

theorem min_fold_ge (r : List Int) (rq : List Nat) (c : Int) (hc : ∀ p ∈ rq, c ≤ rembAt r p) :
    ∀ init : Int, c ≤ init →
      c ≤ rq.foldl (fun m p => if rembAt r p < m then rembAt r p else m) init := by
  induction rq with
  | nil => intro init h; simpa using h
  | cons a rq ih =>
    intro init h
    simp only [List.foldl_cons]
    apply ih (fun p hp => hc p (List.mem_cons_of_mem _ hp))
    split
    · exact hc a (List.mem_cons_self _ _)
    · exact h

theorem min_burst_le {r : List Int} {rq : List Nat} {p : Nat} (h : p ∈ rq) :
    min_burst r rq ≤ rembAt r p :=
  (min_fold_le r rq min_burst_init).2 p h

theorem min_burst_nonneg {r : List Int} {rq : List Nat} (h : ∀ p ∈ rq, 0 ≤ rembAt r p) :
    0 ≤ min_burst r rq :=
  min_fold_ge r rq 0 h min_burst_init (by unfold min_burst_init; omega)

theorem length_dec_all (r : List Int) (rq : List Nat) (d : Int) :
    (dec_all r rq d).length = r.length := by
  unfold dec_all
  induction rq generalizing r with
  | nil => rfl
  | cons a rq ih => simp only [List.foldl_cons]; rw [ih]; simp

theorem rembAt_dec_all_not_mem (rq : List Nat) (d : Int) (i : Nat) (hi : i ∉ rq) :
    ∀ r : List Int, rembAt (dec_all r rq d) i = rembAt r i := by
  unfold dec_all
  induction rq with
  | nil => intro r; rfl
  | cons a rq ih =>
    intro r
    simp only [List.mem_cons, not_or] at hi
    simp only [List.foldl_cons]
    rw [ih hi.2, rembAt_set_ne (Ne.symm hi.1)]

theorem rembAt_dec_all_mem (rq : List Nat) (d : Int) (i : Nat) (hi : i ∈ rq) (hnd : rq.Nodup) :
    ∀ r : List Int, i < r.length → rembAt (dec_all r rq d) i = rembAt r i - d := by
  induction rq with
  | nil => simp at hi
  | cons a rq ih =>
    intro r hlen
    rw [List.nodup_cons] at hnd
    unfold dec_all
    simp only [List.foldl_cons]
    rcases List.mem_cons.mp hi with h | h
    · subst h
      have := rembAt_dec_all_not_mem rq d i hnd.1 (r.set i (rembAt r i - d))
      unfold dec_all at this
      rw [this, rembAt_set_self hlen]
    · have hne : a ≠ i := fun e => hnd.1 (e ▸ h)
      have := ih h hnd.2 (r.set a (rembAt r a - d)) (by simpa using hlen)
      unfold dec_all at this
      rw [this, rembAt_set_ne hne]

theorem total_dec_all_le (rq : List Nat) (d : Int) (hd : 0 ≤ d) :
    ∀ r : List Int, total (dec_all r rq d) ≤ total r := by
  unfold dec_all
  induction rq with
  | nil => intro r; exact le_refl _
  | cons a rq ih =>
    intro r
    simp only [List.foldl_cons]
    exact (ih _).trans (total_set_le r a _ (by omega))

/-- Skipping `n` rounds of `k` slices never takes more than the minimum
remaining burst. -/
theorem rounds_bound {mb q n : Int} {k : Nat} (hq : 0 < q) (hk : 0 < k)
    (hn : n ≤ mb / (q * (k : Int))) : n * (k : Int) * q ≤ mb := by
  have hk' : (0 : Int) < (k : Int) := by exact_mod_cast hk
  have hpos : 0 < q * (k : Int) := mul_pos hq hk'
  have h1 : mb / (q * (k : Int)) * (q * (k : Int)) ≤ mb := Int.ediv_mul_le mb (ne_of_gt hpos)
  have h2 : n * (q * (k : Int)) ≤ mb / (q * (k : Int)) * (q * (k : Int)) :=
    mul_le_mul_of_nonneg_right hn hpos.le
  calc n * (k : Int) * q = n * (q * (k : Int)) := by ring
    _ ≤ mb := h2.trans h1

theorem slice_le_round {q n : Int} {k : Nat} (hq : 0 < q) (hk : 0 < k) (hn : 0 ≤ n) :
    n * q ≤ n * (k : Int) * q := by
  have hk' : (1 : Int) ≤ (k : Int) := by exact_mod_cast hk
  have : 0 ≤ n * q := mul_nonneg hn hq.le
  nlinarith

/-! ## Termination -/

/-- Termination rule for the main loop: if every pass that does not leave the
loop preserves `P` and lowers the measure, fuel above the measure suffices. -/
theorem run_total {o : Bool} {q m : Int} (P : State → Prop)
    (h_idle : ∀ s i jq, P s → s.rq = [] → s.jq = i :: jq →
      P (idle_step m s i jq) ∧ measure (idle_step m s i jq) < measure s)
    (h_fin : ∀ s j rq, P s → s.rq = j :: rq → rembAt s.remb j ≤ q →
      P (finish_step m s j rq) ∧ measure (finish_step m s j rq) < measure s)
    (h_pre : ∀ s j rq, P s → s.rq = j :: rq → q < rembAt s.remb j →
      P (preempt_step q m s j rq) ∧ measure (preempt_step q m s j rq) < measure s)
    (h_ff : o = true → ∀ s, P s →
      P (fast_forward q m s) ∧ measure (fast_forward q m s) ≤ measure s) :
    ∀ (N : Nat) (s : State), P s → measure s < N → ∃ r, run o q m N s = some r := by
  intro N
  induction N with
  | zero => intro s _ h; omega
  | succ n ih =>
    intro s hP hlt
    simp only [run, iter]
    cases hrq : s.rq with
    | nil =>
      cases hjq : s.jq with
      | nil => exact ⟨s, rfl⟩
      | cons i jq =>
        have := h_idle s i jq hP hrq hjq
        exact ih _ this.1 (by omega)
    | cons j rq =>
      dsimp only
      by_cases hle : rembAt s.remb j ≤ q
      · simp only [hle, if_true]
        have := h_fin s j rq hP hrq hle
        exact ih _ this.1 (by omega)
      · simp only [hle, if_false]
        have h1 := h_pre s j rq hP hrq (by omega)
        by_cases hl : (preempt_step q m s j rq).rq.length = 1 ∧ (preempt_step q m s j rq).jq = []
        · simp only [hl, and_self, if_true]
          exact ⟨_, rfl⟩
        · simp only [hl, if_false]
          cases o with
          | true =>
            simp only [if_true]
            have h2 := h_ff rfl _ h1.1
            exact ih _ h2.1 (by omega)
          | false =>
            simp only [Bool.false_eq_true, if_false]
            exact ih _ h1.1 (by omega)

theorem core_idle {m : Int} {s : State} {i : Nat} {jq : List Nat} (h : Core s)
    (hjq : s.jq = i :: jq) :
    Core (idle_step m s i jq) ∧ measure (idle_step m s i jq) < measure s := by
  have hp := idle_step_perm (m := m) hjq
  refine ⟨⟨fun x hx => h.1 x (hp.mem_iff.mp hx), hp.nodup_iff.mpr h.2⟩, ?_⟩
  unfold measure idle_step
  simp only [hjq, List.length_append, List.length_cons, List.length_singleton, List.length_nil]
  omega

theorem core_finish {m : Int} {s : State} {j : Nat} {rq : List Nat} (h : Core s)
    (hrq : s.rq = j :: rq) :
    Core (finish_step m s j rq) ∧ measure (finish_step m s j rq) < measure s := by
  have hp := finish_step_perm (m := m) hrq
  have hnd := hp.nodup_iff.mpr h.2
  rw [List.nodup_cons] at hnd
  have hj : j ∈ s.jq ++ s.rq := by rw [hrq]; simp
  have hremb : (finish_step m s j rq).remb = s.remb.set j 0 := rfl
  refine ⟨⟨fun x hx => ?_, hnd.2⟩, ?_⟩
  · have hx' := h.1 x (hp.mem_iff.mp (List.mem_cons_of_mem _ hx))
    have hne : j ≠ x := fun e => hnd.1 (e ▸ hx)
    rw [hremb, rembAt_set_ne hne, List.length_set]
    exact hx'
  · have hlen := hp.length_eq
    have hjl := finish_step_jq_length_le m s j rq
    have ht : total (s.remb.set j 0) ≤ total s.remb := total_set_le _ _ _ (h.1 j hj).2
    simp only [List.length_cons, List.length_append] at hlen
    unfold measure
    rw [hremb]
    omega

theorem core_preempt {q m : Int} {s : State} {j : Nat} {rq : List Nat} (h : Core s)
    (hq : 0 < q) (hrq : s.rq = j :: rq) (hlt : q < rembAt s.remb j) :
    Core (preempt_step q m s j rq) ∧ measure (preempt_step q m s j rq) < measure s := by
  have hp := preempt_step_perm (q := q) (m := m) hrq
  have hj : j ∈ s.jq ++ s.rq := by rw [hrq]; simp
  have hremb : (preempt_step q m s j rq).remb = s.remb.set j (rembAt s.remb j - q) := rfl
  refine ⟨⟨fun x hx => ?_, hp.nodup_iff.mpr h.2⟩, ?_⟩
  · have hx' := h.1 x (hp.mem_iff.mp hx)
    rw [hremb, List.length_set]
    refine ⟨hx'.1, ?_⟩
    by_cases hne : j = x
    · subst hne
      rw [rembAt_set_self hx'.1]
      omega
    · rw [rembAt_set_ne hne]
      exact hx'.2
  · have hlen := hp.length_eq
    have hjl := preempt_step_jq_length_le q m s j rq
    have ht : total (s.remb.set j (rembAt s.remb j - q)) < total s.remb :=
      total_set_lt _ _ _ (h.1 j hj).1 (by omega) (by omega)
    simp only [List.length_append] at hlen
    unfold measure
    rw [hremb]
    omega

/-- The round count is not negative. -/
theorem ff_count_nonneg {q : Int} {s : State} {n : Int} (hq : 0 < q)
    (hr : ∀ p ∈ s.rq, 0 ≤ rembAt s.remb p) (hg : ff_guard q s = true)
    (hc : ff_count q s = some n) : 0 ≤ n := by
  rcases ff_count_eq hc with h | ⟨a, l, hjq, h⟩
  · rw [h]
    exact Int.ediv_nonneg (min_burst_nonneg hr) (mul_nonneg hq.le (Int.ofNat_nonneg _))
  · rw [h]
    unfold ff_guard at hg
    simp only [hjq, decide_eq_true_eq] at hg
    have hk : 0 ≤ (s.rq.length : Int) * q := mul_nonneg (Int.ofNat_nonneg _) hq.le
    exact Int.ediv_nonneg (by omega) hk

/-- A skip of `n` rounds takes at most the minimum remaining burst. -/
theorem ff_count_bound {q : Int} {s : State} {n : Int} (hq : 0 < q) (hrq : s.rq ≠ [])
    (hc : ff_count q s = some n) :
    n * (s.rq.length : Int) * q ≤ min_burst s.remb s.rq :=
  rounds_bound hq (List.length_pos.mpr hrq) (ff_count_le_n1 hc)

theorem core_fast_forward {q m : Int} {s : State} (h : Core s) (hq : 0 < q) :
    Core (fast_forward q m s) ∧ measure (fast_forward q m s) ≤ measure s := by
  have hr : ∀ p ∈ s.rq, 0 ≤ rembAt s.remb p :=
    fun p hp => (h.1 p (List.mem_append_right _ hp)).2
  rcases fast_forward_cases q m s with h1 | ⟨hg, _, n, hc, ⟨p, hp, h1⟩ | ⟨hk, _, hn, h1⟩⟩
  · rw [h1]; exact ⟨h, le_refl _⟩
  · rw [h1]
    have hn := ff_count_nonneg hq hr hg hc
    have hb := ff_count_bound hq (by rw [hp]; simp) hc
    have hmb : min_burst s.remb s.rq ≤ rembAt s.remb p := min_burst_le (by rw [hp]; simp)
    rw [hp] at hb hmb
    simp only [List.length_singleton, Nat.cast_one, mul_one] at hb
    have hnq : 0 ≤ n * q := mul_nonneg hn hq.le
    refine ⟨⟨fun x hx => ?_, h.2⟩, ?_⟩
    · have hx' := h.1 x hx
      show x < (s.remb.set p _).length ∧ 0 ≤ rembAt (s.remb.set p _) x
      rw [List.length_set]
      refine ⟨hx'.1, ?_⟩
      by_cases hne : p = x
      · subst hne
        rw [rembAt_set_self hx'.1]
        omega
      · rw [rembAt_set_ne hne]
        exact hx'.2
    · have : total (s.remb.set p (rembAt s.remb p - n * q)) ≤ total s.remb :=
        total_set_le _ _ _ (by omega)
      unfold measure ff_single
      dsimp only
      omega
  · rw [h1]
    have hne : s.rq ≠ [] := by intro e; rw [e] at hk; simp at hk
    have hb := ff_count_bound hq hne hc
    have hsl := slice_le_round (k := s.rq.length) hq (by omega) (show 0 ≤ n by omega)
    have hnq : 0 ≤ n * q := mul_nonneg (by omega) hq.le
    have hnd : s.rq.Nodup := (List.nodup_append.mp h.2).2.1
    refine ⟨⟨fun x hx => ?_, h.2⟩, ?_⟩
    · have hx' := h.1 x hx
      show x < (dec_all s.remb s.rq (n * q)).length ∧ 0 ≤ rembAt (dec_all s.remb s.rq (n * q)) x
      rw [length_dec_all]
      refine ⟨hx'.1, ?_⟩
      by_cases hmem : x ∈ s.rq
      · rw [rembAt_dec_all_mem _ _ _ hmem hnd _ hx'.1]
        have := min_burst_le (r := s.remb) hmem
        omega
      · rw [rembAt_dec_all_not_mem _ _ _ hmem]
        exact hx'.2
    · have := total_dec_all_le s.rq (n * q) hnq s.remb
      unfold measure ff_multi
      dsimp only
      omega

/-- From a state that satisfies the queue invariant the main loop reaches a
`break` within `measure s + 1` passes. -/
theorem run_terminates {o : Bool} {q m : Int} (hq : 0 < q) (s : State) (h : Core s) :
    ∃ r, run o q m (measure s + 1) s = some r := by
  refine run_total (o := o) (q := q) (m := m) Core ?_ ?_ ?_ ?_ (measure s + 1) s h (by omega)
  · intro s i jq h _ hjq; exact core_idle h hjq
  · intro s j rq h hrq _; exact core_finish h hrq
  · intro s j rq h hrq hlt; exact core_preempt h hq hrq hlt
  · intro _ s h; exact core_fast_forward h hq

theorem core_init (ps : List Process) (h : ∀ p ∈ ps, 0 ≤ p.burst) : Core (init_state ps) := by
  unfold Core init_state
  simp only [List.append_nil, List.mem_range, List.length_map]
  refine ⟨fun i hi => ⟨hi, ?_⟩, List.nodup_range _⟩
  unfold rembAt
  rw [List.getD_eq_getElem?_getD, List.getElem?_map, List.getElem?_eq_getElem hi]
  simp only [Option.map_some', Option.getD_some]
  exact h _ (List.getElem_mem _)

/-! ## Timestamps -/

/-- Invariant rule in which the two continuations of a preempted slice (the
"only one job left" exit and the fast-forward block) know which slice
preceded them. -/
theorem run_rule_pre {o : Bool} {q m : Int} (P Q : State → Prop)
    (h_end : ∀ s, P s → s.rq = [] → s.jq = [] → Q s)
    (h_idle : ∀ s i jq, P s → s.rq = [] → s.jq = i :: jq → P (idle_step m s i jq))
    (h_fin : ∀ s j rq, P s → s.rq = j :: rq → rembAt s.remb j ≤ q →
      P (finish_step m s j rq))
    (h_pre : o = false → ∀ s j rq, P s → s.rq = j :: rq → q < rembAt s.remb j →
      P (preempt_step q m s j rq))
    (h_last : ∀ s j rq, P s → s.rq = j :: rq → q < rembAt s.remb j →
      (preempt_step q m s j rq).rq.length = 1 → (preempt_step q m s j rq).jq = [] →
      Q (last_job m (preempt_step q m s j rq)))
    (h_ff : o = true → ∀ s j rq, P s → s.rq = j :: rq → q < rembAt s.remb j →
      ¬ ((preempt_step q m s j rq).rq.length = 1 ∧ (preempt_step q m s j rq).jq = []) →
      P (fast_forward q m (preempt_step q m s j rq))) :
    ∀ (fuel : Nat) (s r : State), P s → run o q m fuel s = some r → Q r := by
  intro fuel
  induction fuel with
  | zero => intro s r _ h; simp [run] at h
  | succ n ih =>
    intro s r hP h
    simp only [run, iter] at h
    cases hrq : s.rq with
    | nil =>
      cases hjq : s.jq with
      | nil =>
        simp only [hrq, hjq] at h
        cases Option.some.inj h
        exact h_end s hP hrq hjq
      | cons i jq =>
        simp only [hrq, hjq] at h
        exact ih _ r (h_idle s i jq hP hrq hjq) h
    | cons j rq =>
      simp only [hrq] at h
      by_cases hle : rembAt s.remb j ≤ q
      · simp only [hle, if_true] at h
        exact ih _ r (h_fin s j rq hP hrq hle) h
      · simp only [hle, if_false] at h
        by_cases hl : (preempt_step q m s j rq).rq.length = 1 ∧ (preempt_step q m s j rq).jq = []
        · simp only [hl, and_self, if_true] at h
          cases Option.some.inj h
          exact h_last _ _ _ hP hrq (by omega) hl.1 hl.2
        · simp only [hl, if_false] at h
          cases o with
          | true =>
            simp only [if_true] at h
            exact ih _ r (h_ff rfl _ _ _ hP hrq (by omega) hl) h
          | false =>
            simp only [Bool.false_eq_true, if_false] at h
            exact ih _ r (h_pre rfl _ _ _ hP hrq (by omega)) h

theorem dispatch_procAt_ne {m : Int} {s : State} {j i : Nat} {rq : List Nat} (h : j ≠ i) :
    procAt (dispatch m s j rq).processes i = procAt s.processes i := by
  unfold dispatch
  dsimp only
  split
  · exact procAt_setStart_ne h
  · rfl

theorem dispatch_procAt_self {m : Int} {s : State} {j : Nat} {rq : List Nat}
    (h : j < s.processes.length) :
    procAt (dispatch m s j rq).processes j =
      { procAt s.processes j with
        start_time := if (procAt s.processes j).start_time = -1 then s.curr_time
                      else (procAt s.processes j).start_time } := by
  unfold dispatch
  dsimp only
  split
  · exact procAt_setStart_self h
  · rfl

theorem dispatch_length (m : Int) (s : State) (j : Nat) (rq : List Nat) :
    (dispatch m s j rq).processes.length = s.processes.length := by
  unfold dispatch
  dsimp only
  split
  · exact length_setStart _ _ _
  · rfl

theorem move_arrived_mem_jq {ps : List Process} {c : Int → Bool} {jq rq : List Nat} {x : Nat}
    (h : x ∈ (move_arrived ps c jq rq).1) : x ∈ jq := by
  rw [move_arrived_eq] at h
  exact (List.dropWhile_sublist _).subset h

theorem move_arrived_mem_rq {ps : List Process} {c : Int → Bool} {jq rq : List Nat} {x : Nat}
    (h : x ∈ (move_arrived ps c jq rq).2) :
    x ∈ rq ∨ (x ∈ jq ∧ c (procAt ps x).arrival = true) := by
  rw [move_arrived_eq] at h
  rcases List.mem_append.mp h with h | h
  · exact Or.inl h
  · exact Or.inr ⟨(List.takeWhile_sublist _).subset h,
      List.mem_takeWhile_imp (p := fun i => c (procAt ps i).arrival) h⟩

theorem readyP_mono {p : Process} {r t t' : Int} (h : ReadyP p r t) (ht : t ≤ t') :
    ReadyP p r t' := by
  obtain ⟨h1, h2, h3, h4, h5⟩ := h
  exact ⟨h1, h2, h3, by omega, fun hs => ⟨(h5 hs).1, by have := (h5 hs).2; omega⟩⟩

theorem readyP_of_waitingP {p : Process} {r t : Int} (h : WaitingP p r) (ht : p.arrival ≤ t) :
    ReadyP p r t := by
  obtain ⟨h1, h2, h3, h4⟩ := h
  exact ⟨h2, h3, by omega, by omega, fun hs => absurd h1 hs⟩

theorem inv_idle {m : Int} {s : State} {i : Nat} {jq : List Nat} (h : Inv s)
    (hrq : s.rq = []) (hjq : s.jq = i :: jq) : Inv (idle_step m s i jq) := by
  have hw := h.waiting i (by rw [hjq]; simp)
  refine ⟨(core_idle h.core hjq).1, h.len, hw.2.2.1, ?_, ?_, ?_⟩
  · intro x hx
    exact h.waiting x (by rw [hjq]; exact List.mem_cons_of_mem _ hx)
  · intro x hx
    have : x = i := by simpa [idle_step, hrq] using hx
    subst this
    exact readyP_of_waitingP hw (le_refl _)
  · intro x hx hnot
    apply h.finished x hx
    intro hmem
    apply hnot
    exact (idle_step_perm hjq).mem_iff.mpr hmem

theorem inv_finish {m : Int} {s : State} {j : Nat} {rq : List Nat} (h : Inv s)
    (hrq : s.rq = j :: rq) : Inv (finish_step m s j rq) := by
  have hjr : j ∈ s.rq := by rw [hrq]; simp
  have hj := h.core.1 j (List.mem_append_right _ hjr)
  have hjl : j < s.processes.length := h.len ▸ hj.1
  have hR := h.ready j hjr
  have hp := finish_step_perm (m := m) hrq
  have hnd := hp.nodup_iff.mpr h.core.2
  rw [List.nodup_cons] at hnd
  have e_t : (finish_step m s j rq).curr_time = s.curr_time + rembAt s.remb j := rfl
  have e_remb : (finish_step m s j rq).remb = s.remb.set j 0 := rfl
  have e_ps : (finish_step m s j rq).processes =
      setFinish (dispatch m s j rq).processes j (s.curr_time + rembAt s.remb j) := rfl
  have e_jq : (finish_step m s j rq).jq =
      (move_arrived (finish_step m s j rq).processes
        (fun a => a ≤ s.curr_time + rembAt s.remb j) s.jq rq).1 := rfl
  have e_rq : (finish_step m s j rq).rq =
      (move_arrived (finish_step m s j rq).processes
        (fun a => a ≤ s.curr_time + rembAt s.remb j) s.jq rq).2 := rfl
  have pa_ne : ∀ x, j ≠ x →
      procAt (finish_step m s j rq).processes x = procAt s.processes x := by
    intro x hx
    rw [e_ps, procAt_setFinish_ne hx, dispatch_procAt_ne hx]
  have ra_ne : ∀ x, j ≠ x → rembAt (finish_step m s j rq).remb x = rembAt s.remb x := by
    intro x hx
    rw [e_remb, rembAt_set_ne hx]
  have hlen : (finish_step m s j rq).processes.length = s.processes.length := by
    rw [e_ps, length_setFinish, dispatch_length]
  refine ⟨(core_finish h.core hrq).1, ?_, ?_, ?_, ?_, ?_⟩
  · rw [hlen, e_remb, List.length_set, h.len]
  · rw [e_t]; have := h.time; omega
  · intro x hx
    have hxj : x ∈ s.jq := move_arrived_mem_jq (e_jq ▸ hx)
    have hne : j ≠ x := by
      intro e; subst e; exact hnd.1 (List.mem_append_left _ hx)
    rw [pa_ne x hne, ra_ne x hne]
    exact h.waiting x hxj
  · intro x hx
    have hne : j ≠ x := by
      intro e; subst e; exact hnd.1 (List.mem_append_right _ hx)
    rw [pa_ne x hne, ra_ne x hne, e_t]
    rcases move_arrived_mem_rq (e_rq ▸ hx) with h1 | ⟨h1, h2⟩
    · exact readyP_mono (h.ready x (by rw [hrq]; exact List.mem_cons_of_mem _ h1)) (by omega)
    · apply readyP_of_waitingP (h.waiting x h1)
      rw [pa_ne x hne] at h2
      simpa using h2
  · intro x hx hnot
    by_cases hxj : j = x
    · subst hxj
      rw [e_ps, procAt_setFinish_self (by rw [dispatch_length]; exact hjl),
        dispatch_procAt_self hjl, e_remb, rembAt_set_self hj.1]
      obtain ⟨h1, h2, h3, h4, h5⟩ := hR
      have ht := h.time
      refine ⟨⟨?_, ?_, ?_, ?_, ?_⟩, rfl, by dsimp only; omega⟩ <;> dsimp only
      · split <;> omega
      · omega
      · split
        · omega
        · rename_i hs; exact (h5 hs).1
      · split
        · omega
        · rename_i hs; have := (h5 hs).2; omega
      · omega
    · rw [pa_ne x hxj, ra_ne x hxj]
      apply h.finished x (hlen ▸ hx)
      intro hmem
      apply hnot
      rcases List.mem_cons.mp (hp.mem_iff.mpr hmem) with e | e
      · exact absurd e.symm hxj
      · exact e

theorem inv_preempt {q m : Int} {s : State} {j : Nat} {rq : List Nat} (h : Inv s)
    (hq : 0 < q) (hrq : s.rq = j :: rq) (hlt : q < rembAt s.remb j) :
    Inv (preempt_step q m s j rq) ∧ j ∈ (preempt_step q m s j rq).rq ∧
      (procAt (preempt_step q m s j rq).processes j).start_time ≠ -1 := by
  have hjr : j ∈ s.rq := by rw [hrq]; simp
  have hj := h.core.1 j (List.mem_append_right _ hjr)
  have hjl : j < s.processes.length := h.len ▸ hj.1
  have hR := h.ready j hjr
  have hp := preempt_step_perm (q := q) (m := m) hrq
  have hnd : (s.jq ++ (j :: rq)).Nodup := hrq ▸ h.core.2
  have hjnot : j ∉ s.jq ∧ j ∉ rq := by
    have := List.nodup_middle.mp hnd
    rw [List.nodup_cons] at this
    simpa [not_or] using this.1
  have e_t : (preempt_step q m s j rq).curr_time = s.curr_time + q := rfl
  have e_remb : (preempt_step q m s j rq).remb = s.remb.set j (rembAt s.remb j - q) := rfl
  have e_ps : (preempt_step q m s j rq).processes = (dispatch m s j rq).processes := rfl
  have e_jq : (preempt_step q m s j rq).jq =
      (move_arrived (dispatch m s j rq).processes (fun a => a == s.curr_time + q)
        (move_arrived (dispatch m s j rq).processes (fun a => a < s.curr_time + q) s.jq rq).1
        ((move_arrived (dispatch m s j rq).processes
          (fun a => a < s.curr_time + q) s.jq rq).2 ++ [j])).1 := rfl
  have e_rq : (preempt_step q m s j rq).rq =
      (move_arrived (dispatch m s j rq).processes (fun a => a == s.curr_time + q)
        (move_arrived (dispatch m s j rq).processes (fun a => a < s.curr_time + q) s.jq rq).1
        ((move_arrived (dispatch m s j rq).processes
          (fun a => a < s.curr_time + q) s.jq rq).2 ++ [j])).2 := rfl
  have pa_ne : ∀ x, j ≠ x →
      procAt (preempt_step q m s j rq).processes x = procAt s.processes x := by
    intro x hx
    rw [e_ps, dispatch_procAt_ne hx]
  have ra_ne : ∀ x, j ≠ x → rembAt (preempt_step q m s j rq).remb x = rembAt s.remb x := by
    intro x hx
    rw [e_remb, rembAt_set_ne hx]
  have hlen : (preempt_step q m s j rq).processes.length = s.processes.length := by
    rw [e_ps, dispatch_length]
  have hjmem : j ∈ (preempt_step q m s j rq).rq := by
    rw [e_rq, move_arrived_eq]
    simp
  have hjself : procAt (preempt_step q m s j rq).processes j =
      { procAt s.processes j with
        start_time := if (procAt s.processes j).start_time = -1 then s.curr_time
                      else (procAt s.processes j).start_time } := by
    rw [e_ps, dispatch_procAt_self hjl]
  have ht := h.time
  refine ⟨⟨(core_preempt h.core hq hrq hlt).1, ?_, ?_, ?_, ?_, ?_⟩, hjmem, ?_⟩
  · rw [hlen, e_remb, List.length_set, h.len]
  · rw [e_t]; omega
  · intro x hx
    have hxj : x ∈ s.jq := move_arrived_mem_jq (move_arrived_mem_jq (e_jq ▸ hx))
    have hne : j ≠ x := fun e => hjnot.1 (e ▸ hxj)
    rw [pa_ne x hne, ra_ne x hne]
    exact h.waiting x hxj
  · intro x hx
    by_cases hne : j = x
    · subst hne
      rw [hjself, e_remb, rembAt_set_self hj.1, e_t]
      obtain ⟨h1, h2, h3, h4, h5⟩ := hR
      refine ⟨h1, h2, ?_, ?_, ?_⟩ <;> dsimp only
      · omega
      · omega
      · split
        · intro _; omega
        · rename_i hs; intro _; have := h5 hs; omega
    · rw [pa_ne x hne, ra_ne x hne, e_t]
      have hw : ∀ y, y ∈ s.jq → (procAt s.processes y).arrival ≤ s.curr_time + q →
          ReadyP (procAt s.processes y) (rembAt s.remb y) (s.curr_time + q) :=
        fun y hy hle => readyP_of_waitingP (h.waiting y hy) hle
      have hr : ∀ y, y ∈ rq →
          ReadyP (procAt s.processes y) (rembAt s.remb y) (s.curr_time + q) :=
        fun y hy => readyP_mono (h.ready y (by rw [hrq]; exact List.mem_cons_of_mem _ hy))
          (by omega)
      rcases move_arrived_mem_rq (e_rq ▸ hx) with h1 | ⟨h1, h2⟩
      · rcases List.mem_append.mp h1 with h1 | h1
        · rcases move_arrived_mem_rq h1 with h3 | ⟨h3, h4⟩
          · exact hr x h3
          · apply hw x h3
            rw [dispatch_procAt_ne hne] at h4
            have : (procAt s.processes x).arrival < s.curr_time + q := by simpa using h4
            omega
        · exact absurd (List.mem_singleton.mp h1).symm hne
      · apply hw x (move_arrived_mem_jq h1)
        rw [dispatch_procAt_ne hne] at h2
        have : (procAt s.processes x).arrival = s.curr_time + q := by simpa using h2
        omega
  · intro x hx hnot
    have hxq : x ∉ s.jq ++ s.rq := fun hmem => hnot (hp.mem_iff.mpr hmem)
    have hne : j ≠ x := fun e => hxq (e ▸ List.mem_append_right _ hjr)
    rw [pa_ne x hne, ra_ne x hne]
    exact h.finished x (hlen ▸ hx) hxq
  · rw [hjself]
    dsimp only
    split
    · omega
    · rename_i hs; exact hs

theorem inv_fast_forward {q m : Int} {s : State} (h : Inv s) (hq : 0 < q) :
    Inv (fast_forward q m s) := by
  have hr : ∀ p ∈ s.rq, 0 ≤ rembAt s.remb p :=
    fun p hp => (h.core.1 p (List.mem_append_right _ hp)).2
  have hcore := (core_fast_forward (m := m) h.core hq).1
  have hdis := (List.nodup_append.mp h.core.2).2.2
  have ht := h.time
  rcases fast_forward_cases q m s with h1 | ⟨hg, _, n, hc, ⟨p, hp, h1⟩ | ⟨hk, _, hn, h1⟩⟩
  · rw [h1]; exact h
  · rw [h1] at hcore ⊢
    have hn := ff_count_nonneg hq hr hg hc
    have hb := ff_count_bound hq (by rw [hp]; simp) hc
    have hpr : p ∈ s.rq := by rw [hp]; simp
    have hmb : min_burst s.remb s.rq ≤ rembAt s.remb p := min_burst_le hpr
    rw [hp] at hb hmb
    simp only [List.length_singleton, Nat.cast_one, mul_one] at hb
    have hnq : 0 ≤ n * q := mul_nonneg hn hq.le
    have hpl := (h.core.1 p (List.mem_append_right _ hpr)).1
    refine ⟨hcore, ?_, ?_, ?_, ?_, ?_⟩
    · show (s.remb.set p _).length = s.processes.length
      rw [List.length_set, h.len]
    · show 0 ≤ s.curr_time + n * q
      omega
    · intro x hx
      have hne : p ≠ x := by
        intro e; subst e; exact hdis hx hpr
      show WaitingP (procAt s.processes x) (rembAt (s.remb.set p _) x)
      rw [rembAt_set_ne hne]
      exact h.waiting x hx
    · intro x hx
      have hxp : x = p := by
        have : x ∈ s.rq := hx
        rw [hp] at this
        simpa using this
      subst hxp
      show ReadyP (procAt s.processes x) (rembAt (s.remb.set x _) x) (s.curr_time + n * q)
      rw [rembAt_set_self hpl]
      obtain ⟨h1, h2, h3, h4, h5⟩ := h.ready x hpr
      exact ⟨h1, h2, by omega, by omega, fun hs => ⟨(h5 hs).1, by have := (h5 hs).2; omega⟩⟩
    · intro x hx hnot
      have hne : p ≠ x := by
        intro e; subst e; exact hnot (List.mem_append_right _ hpr)
      show FinishedP (procAt s.processes x) (rembAt (s.remb.set p _) x)
      rw [rembAt_set_ne hne]
      exact h.finished x hx hnot
  · rw [h1] at hcore ⊢
    have hne : s.rq ≠ [] := by intro e; rw [e] at hk; simp at hk
    have hb := ff_count_bound hq hne hc
    have hsl := slice_le_round (k := s.rq.length) hq (by omega) (show 0 ≤ n by omega)
    have hnq : 0 ≤ n * q := mul_nonneg (by omega) hq.le
    have hnd : s.rq.Nodup := (List.nodup_append.mp h.core.2).2.1
    refine ⟨hcore, ?_, ?_, ?_, ?_, ?_⟩
    · show (dec_all s.remb s.rq (n * q)).length = s.processes.length
      rw [length_dec_all, h.len]
    · show 0 ≤ s.curr_time + n * (s.rq.length : Int) * q
      omega
    · intro x hx
      have hxr : x ∉ s.rq := fun e => hdis hx e
      show WaitingP (procAt s.processes x) (rembAt (dec_all s.remb s.rq (n * q)) x)
      rw [rembAt_dec_all_not_mem _ _ _ hxr]
      exact h.waiting x hx
    · intro x hx
      have hxr : x ∈ s.rq := hx
      have hxl := (h.core.1 x (List.mem_append_right _ hxr)).1
      show ReadyP (procAt s.processes x) (rembAt (dec_all s.remb s.rq (n * q)) x)
        (s.curr_time + n * (s.rq.length : Int) * q)
      rw [rembAt_dec_all_mem _ _ _ hxr hnd _ hxl]
      obtain ⟨h1, h2, h3, h4, h5⟩ := h.ready x hxr
      exact ⟨h1, h2, by omega, by omega, fun hs => ⟨(h5 hs).1, by have := (h5 hs).2; omega⟩⟩
    · intro x hx hnot
      have hxr : x ∉ s.rq := fun e => hnot (List.mem_append_right _ e)
      show FinishedP (procAt s.processes x) (rembAt (dec_all s.remb s.rq (n * q)) x)
      rw [rembAt_dec_all_not_mem _ _ _ hxr]
      exact h.finished x hx hnot

theorem inv_last {m : Int} {s : State} {a : Nat} (h : Inv s) (hrq : s.rq = [a])
    (hjq : s.jq = []) (hst : (procAt s.processes a).start_time ≠ -1) :
    (last_job m s).processes.length = s.processes.length ∧
    ∀ i, i < s.processes.length → Done (procAt (last_job m s).processes i) := by
  have har : a ∈ s.rq := by rw [hrq]; simp
  have ha := h.core.1 a (List.mem_append_right _ har)
  have hal : a < s.processes.length := h.len ▸ ha.1
  have e_ps : (last_job m s).processes =
      setFinish s.processes a (s.curr_time + rembAt s.remb a) := by
    simp [last_job, hrq]
  have ht := h.time
  refine ⟨by rw [e_ps, length_setFinish], fun i hi => ?_⟩
  by_cases hia : a = i
  · subst hia
    rw [e_ps, procAt_setFinish_self hal]
    obtain ⟨h1, h2, h3, h4, h5⟩ := h.ready a har
    have := h5 hst
    refine ⟨hst, ?_, this.1, ?_, ?_⟩ <;> dsimp only <;> omega
  · rw [e_ps, procAt_setFinish_ne hia]
    apply (h.finished i hi _).1
    rw [hrq, hjq]
    simpa using Ne.symm hia

theorem procAt_mem {ps : List Process} {i : Nat} (h : i < ps.length) : procAt ps i ∈ ps := by
  unfold procAt
  rw [List.getD_eq_getElem?_getD, List.getElem?_eq_getElem h]
  exact List.getElem_mem _

theorem exists_procAt_of_mem {ps : List Process} {p : Process} (h : p ∈ ps) :
    ∃ i, i < ps.length ∧ procAt ps i = p := by
  obtain ⟨i, hi, hp⟩ := List.getElem_of_mem h
  refine ⟨i, hi, ?_⟩
  unfold procAt
  rw [List.getD_eq_getElem?_getD, List.getElem?_eq_getElem hi]
  exact hp

theorem inv_init (ps : List Process) (h : ValidInput ps) : Inv (init_state ps) := by
  refine ⟨core_init ps (fun p hp => (h p hp).2.1), by simp [init_state], le_refl _, ?_, ?_, ?_⟩
  · intro i hi
    have hi' : i < ps.length := by simpa [init_state] using hi
    have hv := h _ (procAt_mem hi')
    refine ⟨hv.2.2.1, hv.2.2.2, hv.1, ?_⟩
    show rembAt (ps.map (·.burst)) i = (procAt ps i).burst
    unfold rembAt procAt
    rw [List.getD_eq_getElem?_getD, List.getD_eq_getElem?_getD, List.getElem?_map,
      List.getElem?_eq_getElem hi']
    rfl
  · intro i hi
    simp [init_state] at hi
  · intro i hi hnot
    exact absurd (by simpa [init_state] using hi) hnot

/-- From any state that satisfies the loop invariant, a completed run leaves
the list at its length with every process complete. -/
theorem run_all_done {o : Bool} {q m : Int} (hq : 0 < q) (n : Nat) :
    ∀ (fuel : Nat) (s r : State), (Inv s ∧ s.processes.length = n) →
      run o q m fuel s = some r →
      r.processes.length = n ∧ ∀ i, i < n → Done (procAt r.processes i) := by
  apply run_rule_pre (fun s => Inv s ∧ s.processes.length = n)
    (fun r => r.processes.length = n ∧ ∀ i, i < n → Done (procAt r.processes i))
  · intro s h hrq hjq
    refine ⟨h.2, fun i hi => (h.1.finished i (h.2 ▸ hi) ?_).1⟩
    rw [hrq, hjq]; simp
  · intro s i jq h hrq hjq
    exact ⟨inv_idle h.1 hrq hjq, h.2⟩
  · intro s j rq h hrq _
    have := inv_finish (m := m) h.1 hrq
    exact ⟨this, by rw [← h.2]; exact (this.len.symm.trans (by
      show (s.remb.set j 0).length = _
      rw [List.length_set, h.1.len]))⟩
  · intro _ s j rq h hrq hlt
    have := (inv_preempt (m := m) h.1 hq hrq hlt).1
    exact ⟨this, by rw [← h.2]; exact dispatch_length m s j rq⟩
  · intro s j rq h hrq hlt h1 h2
    have hp := inv_preempt (m := m) h.1 hq hrq hlt
    obtain ⟨a, ha⟩ := List.length_eq_one.mp h1
    have hja : j = a := by
      have := hp.2.1
      rw [ha] at this
      simpa using this
    subst hja
    have hl := inv_last (m := m) hp.1 ha h2 hp.2.2
    have hlen : (preempt_step q m s j rq).processes.length = n := by
      rw [← h.2]; exact dispatch_length m s j rq
    exact ⟨hl.1.trans hlen, fun i hi => hl.2 i (hlen ▸ hi)⟩
  · intro _ s j rq h hrq hlt _
    have := (inv_preempt (m := m) h.1 hq hrq hlt).1
    refine ⟨inv_fast_forward this hq, ?_⟩
    rw [fast_forward_processes, ← h.2]
    exact dispatch_length m s j rq

/-! ## First-come-first-served when no burst exceeds the quantum -/

theorem finish_step_procAt_ne {m : Int} {s : State} {j x : Nat} {rq : List Nat} (h : j ≠ x) :
    procAt (finish_step m s j rq).processes x = procAt s.processes x := by
  show procAt (setFinish (dispatch m s j rq).processes j _) x = _
  rw [procAt_setFinish_ne h, dispatch_procAt_ne h]

theorem finish_step_procAt_self {m : Int} {s : State} {j : Nat} {rq : List Nat}
    (h : j < s.processes.length) :
    procAt (finish_step m s j rq).processes j =
      { procAt s.processes j with
        start_time := if (procAt s.processes j).start_time = -1 then s.curr_time
                      else (procAt s.processes j).start_time
        finish_time := s.curr_time + rembAt s.remb j } := by
  show procAt (setFinish (dispatch m s j rq).processes j _) j = _
  rw [procAt_setFinish_self (by rw [dispatch_length]; exact h), dispatch_procAt_self h]
  rfl

theorem finish_step_length (m : Int) (s : State) (j : Nat) (rq : List Nat) :
    (finish_step m s j rq).processes.length = s.processes.length := by
  show (setFinish (dispatch m s j rq).processes j _).length = _
  rw [length_setFinish, dispatch_length]

theorem seqP_idle {m : Int} {k : Nat} {seq : List Int} (h : SeqP m k seq) :
    SeqP m k (append_seq m seq (-1)) := by
  obtain ⟨k', h1, h2, h3⟩ := h
  unfold append_seq
  split
  · exact ⟨k', h1, h2, h3⟩
  · split
    · refine ⟨k', h1, ?_, ?_⟩
      · rw [List.filter_append, h2]; simp
      · intro hl
        apply h3
        simp only [List.length_append, List.length_singleton] at hl
        push_cast at hl
        omega
    · exact ⟨k', h1, h2, h3⟩

theorem seqP_dispatch {m : Int} {k : Nat} {seq : List Int} (h : SeqP m k seq) :
    SeqP m (k + 1) (append_seq m seq (k : Int)) := by
  obtain ⟨k', h1, h2, h3⟩ := h
  unfold append_seq
  by_cases hcap : (seq.length : Int) ≥ m
  · simp only [hcap, if_true]
    exact ⟨k', by omega, h2, fun hl => by omega⟩
  · simp only [hcap, if_false]
    have hk : k' = k := h3 (by omega)
    subst hk
    have hnot : (k' : Int) ∉ seq := by
      intro hmem
      have : (k' : Int) ∈ seq.filter (fun x => x != -1) := by
        rw [List.mem_filter]
        refine ⟨hmem, ?_⟩
        simp only [bne_iff_ne, ne_eq]
        omega
      rw [h2, List.mem_map] at this
      obtain ⟨a, ha, hak⟩ := this
      rw [List.mem_range] at ha
      have : (a : Int) = (k' : Int) := hak
      omega
    have hcond : seq = [] ∨ seq.getLast? ≠ some (k' : Int) := by
      by_cases hnil : seq = []
      · exact Or.inl hnil
      · right
        intro hl
        obtain ⟨ys, hys⟩ := List.getLast?_eq_some_iff.mp hl
        apply hnot
        rw [hys]
        simp
    simp only [hcond, if_true]
    refine ⟨k' + 1, le_refl _, ?_, fun _ => rfl⟩
    rw [List.filter_append, h2, List.range_succ, List.map_append]
    have : ((k' : Int) != -1) = true := by
      simp only [bne_iff_ne, ne_eq]
      omega
    simp [List.filter_cons, this]

theorem range'_cons_inv {j k l : Nat} {rest : List Nat} (h : j :: rest = List.range' k l) :
    j = k ∧ rest = List.range' (k + 1) (l - 1) ∧ 0 < l := by
  cases l with
  | zero => simp at h
  | succ l =>
    rw [List.range'_succ] at h
    simp only [List.cons.injEq] at h
    exact ⟨h.1, by simpa using h.2, by omega⟩

theorem fcfs_free_congr {procs procs' : List Process} {k : Nat}
    (h : ∀ i, i < k → procAt procs' i = procAt procs i) :
    fcfs_free procs' k = fcfs_free procs k := by
  unfold fcfs_free
  split
  · rfl
  · rw [h (k - 1) (by omega)]

theorem fcfsAt_congr {procs procs' : List Process} {i : Nat}
    (h : ∀ x, x ≤ i → procAt procs' x = procAt procs x) (hf : FcfsAt procs i) :
    FcfsAt procs' i := by
  unfold FcfsAt at hf ⊢
  rw [h i (le_refl _), fcfs_free_congr (fun x hx => h x (by omega))]
  exact hf

theorem finv_head {q m : Int} {k : Nat} {s : State} {j : Nat} {rq : List Nat}
    (h : FInv q m k s) (hrq : s.rq = j :: rq) :
    j = k ∧ rq ++ s.jq = List.range' (k + 1) (s.processes.length - (k + 1)) ∧
      k < s.processes.length := by
  have := h.queue
  rw [hrq, List.cons_append] at this
  obtain ⟨h1, h2, h3⟩ := range'_cons_inv this
  exact ⟨h1, by rw [h2]; congr 1, by omega⟩

theorem finv_no_preempt {q m : Int} {k : Nat} {s : State} {j : Nat} {rq : List Nat}
    (h : FInv q m k s) (hrq : s.rq = j :: rq) : rembAt s.remb j ≤ q := by
  obtain ⟨rfl, _, hk⟩ := finv_head h hrq
  rw [(h.fresh j (le_refl _) hk).2]
  exact (h.inb j hk).2.2

theorem finv_idle {q m : Int} {k : Nat} {s : State} {i : Nat} {jq : List Nat}
    (h : FInv q m k s) (hrq : s.rq = []) (hjq : s.jq = i :: jq) :
    FInv q m k (idle_step m s i jq) := by
  have hik : i = k ∧ k < s.processes.length := by
    have := h.queue
    rw [hrq, hjq, List.nil_append] at this
    obtain ⟨h1, _, h3⟩ := range'_cons_inv this
    exact ⟨h1, by omega⟩
  obtain ⟨rfl, hk⟩ := hik
  have e_rq : (idle_step m s i jq).rq = [i] := by simp [idle_step, hrq]
  have hti := h.t_idle hrq
  have hle : s.curr_time ≤ (procAt s.processes i).arrival :=
    hti.2 i (by rw [hjq]; simp)
  refine ⟨?_, h.klen, h.rlen, h.inb, h.fresh, h.sched, ?_, ?_, ?_, ?_⟩
  · show (idle_step m s i jq).rq ++ jq = List.range' i (s.processes.length - i)
    rw [e_rq, ← h.queue, hrq, hjq]
    rfl
  · intro hnil
    rw [e_rq] at hnil
    simp at hnil
  · intro _
    show (procAt s.processes i).arrival
      = max (procAt s.processes i).arrival (fcfs_free s.processes i)
    rw [← hti.1]
    omega
  · intro x hx
    rw [e_rq] at hx
    have : x = i := by simpa using hx
    subst this
    exact le_refl _
  · show SeqP m i (if s.curr_time < (procAt s.processes i).arrival
      then append_seq m s.seq (-1) else s.seq)
    split
    · exact seqP_idle h.seqp
    · exact h.seqp

theorem finv_finish {q m : Int} {k : Nat} {s : State} {j : Nat} {rq : List Nat}
    (h : FInv q m k s) (hrq : s.rq = j :: rq) :
    FInv q m (k + 1) (finish_step m s j rq) := by
  obtain ⟨rfl, hrest, hk⟩ := finv_head h hrq
  have hfr := h.fresh j (le_refl _) hk
  have hb := h.inb j hk
  have ht := h.t_busy (by rw [hrq]; simp)
  have hlen := finish_step_length m s j rq
  have hfrm := arrival_of_frame (finish_step_frame m s j rq)
  have e_t : (finish_step m s j rq).curr_time = s.curr_time + rembAt s.remb j := rfl
  have e_remb : (finish_step m s j rq).remb = s.remb.set j 0 := rfl
  have e_jq : (finish_step m s j rq).jq =
      (move_arrived (finish_step m s j rq).processes
        (fun a => a ≤ s.curr_time + rembAt s.remb j) s.jq rq).1 := rfl
  have e_rq : (finish_step m s j rq).rq =
      (move_arrived (finish_step m s j rq).processes
        (fun a => a ≤ s.curr_time + rembAt s.remb j) s.jq rq).2 := rfl
  have hself : procAt (finish_step m s j rq).processes j = _ := finish_step_procAt_self hk
  have hqueue : (finish_step m s j rq).rq ++ (finish_step m s j rq).jq =
      List.range' (j + 1) ((finish_step m s j rq).processes.length - (j + 1)) := by
    rw [e_rq, e_jq, move_arrived_eq, hlen, ← hrest]
    dsimp only
    rw [List.append_assoc, List.takeWhile_append_dropWhile]
  have harr : ∀ x ∈ (finish_step m s j rq).rq,
      (procAt (finish_step m s j rq).processes x).arrival ≤ s.curr_time + rembAt s.remb j := by
    intro x hx
    rcases move_arrived_mem_rq (e_rq ▸ hx) with h1 | ⟨_, h2⟩
    · rw [(hfrm x).1]
      have := h.arrived x (by rw [hrq]; exact List.mem_cons_of_mem _ h1)
      omega
    · simpa using h2
  have hfree : fcfs_free (finish_step m s j rq).processes (j + 1)
      = s.curr_time + rembAt s.remb j := by
    unfold fcfs_free
    simp only [Nat.add_one_ne_zero, if_false, Nat.add_sub_cancel]
    rw [hself]
  refine ⟨hqueue, by rw [hlen]; omega, by rw [hlen, e_remb, List.length_set, h.rlen], ?_, ?_,
    ?_, ?_, ?_, ?_, seqP_dispatch h.seqp⟩
  · intro i hi
    rw [(hfrm i).1, (hfrm i).2.1]
    exact h.inb i (hlen ▸ hi)
  · intro i hki hi
    have hne : j ≠ i := by omega
    rw [finish_step_procAt_ne hne, e_remb, rembAt_set_ne hne]
    exact h.fresh i (by omega) (hlen ▸ hi)
  · intro i hi
    by_cases hij : i = j
    · subst hij
      unfold FcfsAt
      rw [fcfs_free_congr (fun x hx => finish_step_procAt_ne (by omega)), hself]
      dsimp only
      rw [if_pos hfr.1, hfr.2]
      exact ⟨ht, rfl⟩
    · exact fcfsAt_congr (fun x hx => finish_step_procAt_ne (by omega)) (h.sched i (by omega))
  · intro hnil
    refine ⟨by rw [hfree, e_t], ?_⟩
    intro a ha
    have := move_arrived_head _ _ _ _ a (e_jq ▸ ha)
    rw [e_t]
    have : ¬ (procAt (finish_step m s j rq).processes a).arrival
        ≤ s.curr_time + rembAt s.remb j := by simpa using this
    omega
  · intro hne
    rw [hfree, e_t]
    have hmem : j + 1 ∈ (finish_step m s j rq).rq := by
      cases hr : (finish_step m s j rq).rq with
      | nil => exact absurd hr hne
      | cons a l =>
        rw [hr, List.cons_append] at hqueue
        rw [(range'_cons_inv hqueue).1]
        simp
    have := harr _ hmem
    omega
  · intro x hx
    rw [e_t]
    exact harr x hx

theorem finv_init {q m : Int} (ps : List Process) (hv : ValidInput ps)
    (hq : ∀ p ∈ ps, p.burst ≤ q) : FInv q m 0 (init_state ps) := by
  have hin : ∀ i, i < ps.length → 0 ≤ (procAt ps i).arrival ∧ 0 ≤ (procAt ps i).burst ∧
      (procAt ps i).burst ≤ q ∧ (procAt ps i).start_time = -1 := by
    intro i hi
    have hm := procAt_mem hi
    exact ⟨(hv _ hm).1, (hv _ hm).2.1, hq _ hm, (hv _ hm).2.2.1⟩
  refine ⟨?_, Nat.zero_le _, by simp [init_state], ?_, ?_, ?_, ?_, ?_, ?_, ?_⟩
  · simp [init_state, List.range_eq_range']
  · intro i hi
    have := hin i hi
    exact ⟨this.1, this.2.1, this.2.2.1⟩
  · intro i _ hi
    have hi' : i < ps.length := hi
    refine ⟨(hin i hi').2.2.2, ?_⟩
    show rembAt (ps.map (·.burst)) i = (procAt ps i).burst
    unfold rembAt procAt
    rw [List.getD_eq_getElem?_getD, List.getD_eq_getElem?_getD, List.getElem?_map,
      List.getElem?_eq_getElem hi']
    rfl
  · intro i hi
    omega
  · intro _
    refine ⟨rfl, ?_⟩
    intro a ha
    have hmem : a ∈ List.range ps.length := List.mem_of_mem_head? ha
    exact (hin a (List.mem_range.mp hmem)).1
  · intro hne
    exact absurd rfl hne
  · intro i hi
    simp [init_state] at hi
  · exact ⟨0, le_refl _, rfl, fun _ => rfl⟩

/-- When no burst exceeds the quantum, a completed run leaves every process
with its first-come-first-served timestamps, and the sequence without idle
markers is an initial segment of `0, 1, ..., n-1`. -/
theorem run_fcfs {o : Bool} {q m : Int} (n : Nat) :
    ∀ (fuel : Nat) (s r : State), (s.processes.length = n ∧ ∃ k, FInv q m k s) →
      run o q m fuel s = some r →
      r.processes.length = n ∧ (∀ i, i < n → FcfsAt r.processes i) ∧
        r.seq.filter (fun x => x != -1) <+: (List.range n).map Int.ofNat := by
  apply run_rule_pre (fun s => s.processes.length = n ∧ ∃ k, FInv q m k s)
  · rintro s ⟨hn, k, h⟩ hrq hjq
    have hk : k = n := by
      have := h.queue
      rw [hrq, hjq] at this
      have hl := congrArg List.length this
      simp only [List.append_nil, List.length_nil, List.length_range'] at hl
      have := h.klen
      omega
    subst hk
    refine ⟨hn, fun i hi => h.sched i hi, ?_⟩
    obtain ⟨k', h1, h2, _⟩ := h.seqp
    rw [h2]
    obtain ⟨d, rfl⟩ := Nat.exists_eq_add_of_le h1
    rw [List.range_add, List.map_append]
    exact List.prefix_append _ _
  · rintro s i jq ⟨hn, k, h⟩ hrq hjq
    exact ⟨hn, k, finv_idle h hrq hjq⟩
  · rintro s j rq ⟨hn, k, h⟩ hrq _
    exact ⟨(finish_step_length m s j rq).trans hn, k + 1, finv_finish h hrq⟩
  · rintro _ s j rq ⟨_, k, h⟩ hrq hlt
    have := finv_no_preempt h hrq
    omega
  · rintro s j rq ⟨_, k, h⟩ hrq hlt
    have := finv_no_preempt h hrq
    omega
  · rintro _ s j rq ⟨_, k, h⟩ hrq hlt
    have := finv_no_preempt h hrq
    omega

/-! ## Fast-forward against the reference simulation -/

theorem state_ext {s s' : State} (h1 : s.curr_time = s'.curr_time) (h2 : s.jq = s'.jq)
    (h3 : s.rq = s'.rq) (h4 : s.remb = s'.remb) (h5 : s.processes = s'.processes)
    (h6 : s.seq = s'.seq) : s = s' := by
  cases s; cases s'
  simp only [State.mk.injEq]
  exact ⟨h1, h2, h3, h4, h5, h6⟩

theorem set_rembAt_self (r : List Int) (p : Nat) : r.set p (rembAt r p) = r := by
  apply List.ext_getElem?
  intro n
  rw [List.getElem?_set]
  split
  · rename_i hpn
    subst hpn
    split
    · rename_i hp
      simp [rembAt, List.getD_eq_getElem?_getD, List.getElem?_eq_getElem hp]
    · rename_i hp
      simp [List.getElem?_eq_none (Nat.not_lt.mp hp)]
  · rfl

theorem list_eq_of_rembAt {l1 l2 : List Int} (hl : l1.length = l2.length)
    (h : ∀ i, i < l1.length → rembAt l1 i = rembAt l2 i) : l1 = l2 := by
  apply List.ext_getElem hl
  intro i h1 h2
  have := h i h1
  simpa [rembAt, List.getD_eq_getElem?_getD, List.getElem?_eq_getElem h1,
    List.getElem?_eq_getElem h2] using this

theorem append_seq_idem (m : Int) (seq : List Int) (x : Int) :
    append_seq m (append_seq m seq x) x = append_seq m seq x := by
  by_cases hcap : (seq.length : Int) ≥ m
  · simp [append_seq, hcap]
  · by_cases hc : seq = [] ∨ seq.getLast? ≠ some x
    · have h1 : append_seq m seq x = seq ++ [x] := by simp [append_seq, hcap, hc]
      rw [h1]
      unfold append_seq
      simp
    · have h1 : append_seq m seq x = seq := by simp [append_seq, hcap, hc]
      rw [h1, h1]

theorem append_seq_full {m : Int} {seq : List Int} (h : (seq.length : Int) = m) (x : Int) :
    append_seq m seq x = seq := by
  simp [append_seq, h]

/-- When the head of the job queue fails the condition nothing is moved. -/
theorem move_arrived_none {ps : List Process} {c : Int → Bool} {jq rq : List Nat}
    (h : ∀ a ∈ jq.head?, c (procAt ps a).arrival = false) :
    move_arrived ps c jq rq = (jq, rq) := by
  cases jq with
  | nil => rfl
  | cons a l =>
    have := h a (by simp)
    simp [move_arrived, this]

/-- The admission loop only reads arrivals. -/
theorem move_arrived_congr {ps ps' : List Process} (c : Int → Bool)
    (h : ∀ i, (procAt ps' i).arrival = (procAt ps i).arrival) :
    ∀ (jq rq : List Nat), move_arrived ps' c jq rq = move_arrived ps c jq rq := by
  intro jq
  induction jq with
  | nil => intro rq; rfl
  | cons a l ih =>
    intro rq
    simp only [move_arrived, h a, ih]

/-- Admitting under a weaker condition absorbs an earlier admission. -/
theorem move_arrived_absorb {ps : List Process} {c0 c : Int → Bool}
    (h : ∀ x, c0 x = true → c x = true) :
    ∀ (jq rq : List Nat),
      move_arrived ps c (move_arrived ps c0 jq rq).1 (move_arrived ps c0 jq rq).2
        = move_arrived ps c jq rq := by
  intro jq
  induction jq with
  | nil => intro rq; rfl
  | cons a l ih =>
    intro rq
    by_cases h0 : c0 (procAt ps a).arrival = true
    · simp only [move_arrived, h0, if_true, h _ h0, ih]
    · simp only [move_arrived, h0, Bool.false_eq_true, if_false]

theorem move_arrived_append (ps : List Process) (c : Int → Bool) :
    ∀ (jq rq : List Nat),
      (move_arrived ps c jq rq).2 = rq ++ (move_arrived ps c jq []).2 ∧
      (move_arrived ps c jq rq).1 = (move_arrived ps c jq []).1 := by
  intro jq rq
  simp [move_arrived_eq]

theorem shift_id {s : State}
    (h : ∀ a ∈ s.jq.head?, (procAt s.processes a).arrival ≠ s.curr_time) : shift s = s := by
  unfold shift
  rw [move_arrived_none (by
    intro a ha
    simpa using h a ha)]

theorem passes_add (q m : Int) :
    ∀ (a b : Nat) (s : State),
      passes q m (a + b) s = (passes q m a s).bind (passes q m b) := by
  intro a
  induction a with
  | zero => intro b s; simp [passes]
  | succ a ih =>
    intro b s
    have : a + 1 + b = (a + b) + 1 := by omega
    rw [this]
    simp only [passes]
    cases iter false q m s with
    | loop s' => exact ih b s'
    | exit s' => rfl

theorem run_of_passes {q m : Int} :
    ∀ (k : Nat) (s s' : State) (fuel : Nat) (r : State), passes q m k s = some s' →
      run false q m fuel s' = some r → run false q m (k + fuel) s = some r := by
  intro k
  induction k with
  | zero =>
    intro s s' fuel r h hr
    simp only [passes, Option.some.injEq] at h
    subst h
    simpa using hr
  | succ k ih =>
    intro s s' fuel r h hr
    have : k + 1 + fuel = (k + fuel) + 1 := by omega
    rw [this]
    simp only [passes] at h
    simp only [run]
    cases hi : iter false q m s with
    | loop s1 =>
      rw [hi] at h
      exact ih s1 s' fuel r h hr
    | exit s1 => rw [hi] at h; simp at h

/-- One preempted pass of the reference simulation, for a process that has
started already, whose recording changes nothing, and when no job arrives
before the end of the slice: time advances by a quantum, the process moves to
the back of the ready queue, and the jobs arriving exactly then follow it. -/
theorem pass_spin {q m : Int} {s : State} {h : Nat} {rest : List Nat}
    (hrq : s.rq = h :: rest) (hlt : q < rembAt s.remb h)
    (hst : (procAt s.processes h).start_time ≠ -1)
    (hseq : append_seq m s.seq (h : Int) = s.seq)
    (hhead : ∀ a ∈ s.jq.head?, s.curr_time + q ≤ (procAt s.processes a).arrival)
    (hmore : rest ≠ [] ∨ s.jq ≠ []) :
    iter false q m s = .loop (shift { s with
      curr_time := s.curr_time + q
      remb := s.remb.set h (rembAt s.remb h - q)
      rq := rest ++ [h] }) := by
  have hd : dispatch m s h rest = { s with rq := rest } := by
    unfold dispatch
    simp only [hst, if_false, hseq]
  have h1 : move_arrived s.processes (fun a => decide (a < s.curr_time + q)) s.jq rest
      = (s.jq, rest) := by
    apply move_arrived_none
    intro a ha
    have := hhead a ha
    simp only [decide_eq_false_iff_not]
    omega
  have hp : preempt_step q m s h rest = shift { s with
      curr_time := s.curr_time + q
      remb := s.remb.set h (rembAt s.remb h - q)
      rq := rest ++ [h] } := by
    unfold preempt_step preempt_slice shift
    rw [hd]
    dsimp only
    rw [h1]
  have hnl : ¬ ((preempt_step q m s h rest).rq.length = 1 ∧ (preempt_step q m s h rest).jq = [])
      := by
    rw [hp]
    unfold shift
    dsimp only
    rw [move_arrived_eq]
    dsimp only
    intro ⟨hl, hj⟩
    simp only [List.length_append, List.length_singleton] at hl
    rcases hmore with hm | hm
    · have := List.length_pos.mpr hm
      omega
    · have ht : (List.takeWhile (fun i => (procAt s.processes i).arrival == s.curr_time + q)
          s.jq).length = 0 := by omega
      have := List.takeWhile_append_dropWhile
        (fun i => (procAt s.processes i).arrival == s.curr_time + q) s.jq
      rw [hj, List.length_eq_zero.mp ht] at this
      exact hm this.symm
  unfold iter
  rw [hrq]
  simp only [not_le.mpr hlt, if_false, hnl, Bool.false_eq_true]
  rw [hp]

/-- The value of `remb` after the loop of line 165 over `[p]`. -/
theorem dec_all_single (r : List Int) (p : Nat) (d : Int) :
    dec_all r [p] d = r.set p (rembAt r p - d) := rfl

theorem dec_all_cons (r : List Int) (p : Nat) (l : List Nat) (d : Int) :
    dec_all r (p :: l) d = dec_all (r.set p (rembAt r p - d)) l d := rfl

/-- Part of a round of the reference simulation: the ready queue is
`l1 ++ l2`, each process of `l1` gets one full slice, no job arrives before
the last of these slices ends. -/
theorem round_passes {q m : Int} (hq : 0 < q) :
    ∀ (l1 l2 : List Nat) (s : State), l1 ≠ [] → s.rq = l1 ++ l2 → (l1 ++ l2).Nodup →
      (∀ p ∈ l1, q < rembAt s.remb p) →
      (∀ p ∈ l1 ++ l2, (procAt s.processes p).start_time ≠ -1 ∧
        append_seq m s.seq (p : Int) = s.seq) →
      (2 ≤ (l1 ++ l2).length ∨ s.jq ≠ []) →
      (∀ a ∈ s.jq.head?,
        s.curr_time + (l1.length : Int) * q ≤ (procAt s.processes a).arrival) →
      passes q m l1.length s = some (shift { s with
        curr_time := s.curr_time + (l1.length : Int) * q
        remb := dec_all s.remb l1 q
        rq := l2 ++ l1 }) := by
  intro l1
  induction l1 with
  | nil => intro l2 s h; exact absurd rfl h
  | cons h l1 ih =>
    intro l2 s _ hrq hnd hrem hok hmore hhead
    have hlenq : (0 : Int) ≤ (l1.length : Int) * q :=
      mul_nonneg (Int.ofNat_nonneg _) hq.le
    have hcast : ((h :: l1).length : Int) * q = (l1.length : Int) * q + q := by
      simp only [List.length_cons]; push_cast; ring
    have hpass := @pass_spin q m s h (l1 ++ l2) hrq
      (hrem h (List.mem_cons_self _ _)) (hok h (by simp)).1 (hok h (by simp)).2
      (fun a ha => by have := hhead a ha; rw [hcast] at this; omega)
      (by
        rcases hmore with hm | hm
        · left
          intro e
          rw [List.cons_append, e] at hm
          simp at hm
        · exact Or.inr hm)
    simp only [List.length_cons, passes, hpass]
    by_cases hl1 : l1 = []
    · subst hl1
      simp only [List.length_nil, passes, List.nil_append, Nat.cast_zero, zero_add,
        Nat.cast_one, one_mul, dec_all_single]
    · have hl1len : 1 ≤ l1.length := List.length_pos.mpr hl1
      have hl1q : q ≤ (l1.length : Int) * q := by
        have : (1 : Int) ≤ (l1.length : Int) := by exact_mod_cast hl1len
        nlinarith
      rw [shift_id (by
        intro a ha
        have := hhead a ha
        rw [hcast] at this
        show (procAt s.processes a).arrival ≠ s.curr_time + q
        omega)]
      have hnd' : (l1 ++ (l2 ++ [h])).Nodup := by
        have : (l1 ++ (l2 ++ [h])).Perm (h :: l1 ++ l2) := by
          rw [← List.append_assoc]
          exact List.perm_append_comm.trans (by simp)
        exact this.nodup_iff.mpr hnd
      have hhl1 : h ∉ l1 := by
        intro hm
        have : (h ∉ l1 ∧ h ∉ l2) ∧ (l1 ++ l2).Nodup := by simpa using hnd
        exact this.1.1 hm
      have := ih (l2 ++ [h]) { s with
          curr_time := s.curr_time + q
          remb := s.remb.set h (rembAt s.remb h - q)
          rq := l1 ++ l2 ++ [h] } hl1 (by simp) hnd'
        (by
          intro p hp
          show q < rembAt (s.remb.set h _) p
          rw [rembAt_set_ne (by intro e; subst e; exact hhl1 hp)]
          exact hrem p (List.mem_cons_of_mem _ hp))
        (by
          intro p hp
          apply hok p
          simp only [List.mem_append, List.mem_singleton, List.mem_cons] at hp ⊢
          tauto)
        (by
          rcases hmore with hm | hm
          · left
            simp only [List.length_append, List.length_cons, List.length_nil] at hm ⊢
            omega
          · exact Or.inr hm)
        (by
          intro a ha
          have := hhead a ha
          rw [hcast] at this
          show s.curr_time + q + (l1.length : Int) * q ≤ (procAt s.processes a).arrival
          omega)
      rw [this]
      congr 2
      refine state_ext ?_ rfl ?_ rfl rfl rfl
      · show s.curr_time + q + (l1.length : Int) * q
          = s.curr_time + ((l1.length + 1 : Nat) : Int) * q
        push_cast; ring
      · show l2 ++ [h] ++ l1 = l2 ++ h :: l1
        simp

theorem dec_all_zero (rq : List Nat) : ∀ r : List Int, dec_all r rq 0 = r := by
  induction rq with
  | nil => intro r; rfl
  | cons p l ih =>
    intro r
    rw [dec_all_cons, sub_zero, set_rembAt_self, ih]

theorem dec_all_add {rq : List Nat} {r : List Int} (d e : Int) (hnd : rq.Nodup)
    (hv : ∀ p ∈ rq, p < r.length) :
    dec_all (dec_all r rq d) rq e = dec_all r rq (d + e) := by
  apply list_eq_of_rembAt
  · simp only [length_dec_all]
  · intro i _
    by_cases hi : i ∈ rq
    · rw [rembAt_dec_all_mem _ _ _ hi hnd _ (by rw [length_dec_all]; exact hv i hi),
        rembAt_dec_all_mem _ _ _ hi hnd _ (hv i hi),
        rembAt_dec_all_mem _ _ _ hi hnd _ (hv i hi)]
      ring
    · rw [rembAt_dec_all_not_mem _ _ _ hi, rembAt_dec_all_not_mem _ _ _ hi,
        rembAt_dec_all_not_mem _ _ _ hi]

/-- `n + 1` whole rounds of the reference simulation over a ready queue of
started processes whose recording changes nothing, when no job arrives before
the last slice ends: every process loses `n + 1` quanta, the queue is back in
its order, and the jobs arriving exactly at the end are admitted. -/
theorem rounds_passes {q m : Int} (hq : 0 < q) :
    ∀ (n : Nat) (s : State), s.rq.Nodup → s.rq ≠ [] →
      (∀ p ∈ s.rq, p < s.remb.length ∧ ((n + 1 : Nat) : Int) * q < rembAt s.remb p) →
      (∀ p ∈ s.rq, (procAt s.processes p).start_time ≠ -1 ∧
        append_seq m s.seq (p : Int) = s.seq) →
      (2 ≤ s.rq.length ∨ s.jq ≠ []) →
      (∀ a ∈ s.jq.head?, s.curr_time + ((n + 1 : Nat) : Int) * (s.rq.length : Int) * q
        ≤ (procAt s.processes a).arrival) →
      passes q m ((n + 1) * s.rq.length) s = some (shift { s with
        curr_time := s.curr_time + ((n + 1 : Nat) : Int) * (s.rq.length : Int) * q
        remb := dec_all s.remb s.rq (((n + 1 : Nat) : Int) * q) }) := by
  intro n
  induction n with
  | zero =>
    intro s hnd hne hrem hok hmore hhead
    have := round_passes (m := m) hq s.rq [] s hne (by simp) (by simpa using hnd)
      (fun p hp => by have := (hrem p hp).2; simpa using this)
      (by simpa using hok) (by simpa using hmore)
      (fun a ha => by have := hhead a ha; simpa using this)
    simp only [Nat.zero_add, Nat.one_mul, Nat.cast_one, one_mul]
    rw [this]
    congr 2
  | succ n ih =>
    intro s hnd hne hrem hok hmore hhead
    have hk : (1 : Int) ≤ (s.rq.length : Int) := by
      have := List.length_pos.mpr hne
      exact_mod_cast this
    have hkq : 0 < (s.rq.length : Int) * q := mul_pos (by omega) hq
    have hn0 : (0 : Int) ≤ ((n + 1 : Nat) : Int) := Int.ofNat_nonneg _
    have hnq : 0 ≤ ((n + 1 : Nat) : Int) * q := mul_nonneg hn0 hq.le
    have hnkq : 0 < ((n + 1 : Nat) : Int) * ((s.rq.length : Int) * q) :=
      mul_pos (by exact_mod_cast Nat.succ_pos n) hkq
    have hsplit : ((n + 1 + 1 : Nat) : Int) * (s.rq.length : Int) * q
        = (s.rq.length : Int) * q + ((n + 1 : Nat) : Int) * ((s.rq.length : Int) * q) := by
      push_cast; ring
    have hsplit' : ((n + 1 + 1 : Nat) : Int) * q = q + ((n + 1 : Nat) : Int) * q := by
      push_cast; ring
    have h1 := round_passes (m := m) hq s.rq [] s hne (by simp) (by simpa using hnd)
      (fun p hp => by have := (hrem p hp).2; rw [hsplit'] at this; omega)
      (by simpa using hok) (by simpa using hmore)
      (fun a ha => by have := hhead a ha; rw [hsplit] at this; omega)
    rw [shift_id (by
      intro a ha
      have := hhead a ha
      rw [hsplit] at this
      show (procAt s.processes a).arrival ≠ s.curr_time + (s.rq.length : Int) * q
      omega)] at h1
    have hlen : (n + 1 + 1) * s.rq.length = s.rq.length + (n + 1) * s.rq.length := by ring
    rw [hlen, passes_add, h1, Option.some_bind]
    have h2 := ih { s with
        curr_time := s.curr_time + (s.rq.length : Int) * q
        remb := dec_all s.remb s.rq q
        rq := [] ++ s.rq } (by simpa using hnd) (by simpa using hne)
      (by
        intro p hp
        have hp' : p ∈ s.rq := by simpa using hp
        have := hrem p hp'
        rw [hsplit'] at this
        show p < (dec_all s.remb s.rq q).length ∧ _ < rembAt (dec_all s.remb s.rq q) p
        rw [length_dec_all, rembAt_dec_all_mem _ _ _ hp' hnd _ this.1]
        exact ⟨this.1, by omega⟩)
      (by
        intro p hp
        exact hok p (by simpa using hp))
      (by simpa using hmore)
      (by
        intro a ha
        have := hhead a ha
        rw [hsplit] at this
        show s.curr_time + (s.rq.length : Int) * q
          + ((n + 1 : Nat) : Int) * (([] ++ s.rq).length : Int) * q
          ≤ (procAt s.processes a).arrival
        simp only [List.nil_append]
        rw [mul_assoc]
        omega)
    simp only [List.nil_append] at h2 ⊢
    rw [h2]
    congr 2
    refine state_ext ?_ rfl rfl ?_ rfl rfl
    · show s.curr_time + (s.rq.length : Int) * q + ((n + 1 : Nat) : Int) * (s.rq.length : Int) * q
        = s.curr_time + ((n + 1 + 1 : Nat) : Int) * (s.rq.length : Int) * q
      rw [hsplit]; ring
    · show dec_all (dec_all s.remb s.rq q) s.rq (((n + 1 : Nat) : Int) * q)
        = dec_all s.remb s.rq (((n + 1 + 1 : Nat) : Int) * q)
      rw [dec_all_add _ _ hnd (fun p hp => (hrem p hp).1), hsplit']

/-- Any number of whole rounds of the reference simulation, when no job
arrives before or at the end of the last slice. -/
theorem rounds_passes_strict {q m : Int} (hq : 0 < q) (n : Nat) (s : State) (hnd : s.rq.Nodup)
    (hne : s.rq ≠ [])
    (hrem : ∀ p ∈ s.rq, p < s.remb.length ∧ (n : Int) * q < rembAt s.remb p)
    (hok : ∀ p ∈ s.rq, (procAt s.processes p).start_time ≠ -1 ∧
      append_seq m s.seq (p : Int) = s.seq)
    (hmore : 2 ≤ s.rq.length ∨ s.jq ≠ [])
    (hhead : ∀ a ∈ s.jq.head?, s.curr_time + (n : Int) * (s.rq.length : Int) * q
      < (procAt s.processes a).arrival) :
    passes q m (n * s.rq.length) s = some { s with
      curr_time := s.curr_time + (n : Int) * (s.rq.length : Int) * q
      remb := dec_all s.remb s.rq ((n : Int) * q) } := by
  cases n with
  | zero =>
    simp only [Nat.zero_mul, passes, Nat.cast_zero, zero_mul, add_zero, dec_all_zero]
  | succ n =>
    have := rounds_passes (m := m) hq n s hnd hne hrem hok hmore
      (fun a ha => le_of_lt (hhead a ha))
    rw [this, shift_id]
    intro a ha
    have := hhead a ha
    show (procAt s.processes a).arrival
      ≠ s.curr_time + ((n + 1 : Nat) : Int) * (s.rq.length : Int) * q
    omega

/-- A skip of `n` rounds ends no later than the next arrival. -/
theorem ff_head_bound {q : Int} {s : State} {n : Int} (hq : 0 < q) (hne : s.rq ≠ [])
    (hc : ff_count q s = some n) :
    ∀ a ∈ s.jq.head?,
      s.curr_time + n * (s.rq.length : Int) * q ≤ (procAt s.processes a).arrival := by
  intro a ha
  cases hjq : s.jq with
  | nil => simp [hjq] at ha
  | cons b l =>
    simp only [hjq, List.head?_cons, Option.mem_def, Option.some.injEq] at ha
    subst ha
    have h2 := ff_count_le_n2 hc hjq hne
    have hk : (0 : Int) < (s.rq.length : Int) := by
      have := List.length_pos.mpr hne
      exact_mod_cast this
    have hkq : 0 < (s.rq.length : Int) * q := mul_pos hk hq
    have h3 := Int.ediv_mul_le ((procAt s.processes b).arrival - s.curr_time) (ne_of_gt hkq)
    have h4 := mul_le_mul_of_nonneg_right h2 hkq.le
    have : n * (s.rq.length : Int) * q = n * ((s.rq.length : Int) * q) := by ring
    rw [this]
    omega

/-- What the fast-forward block does to a state, the reference simulation
does in some number of passes, up to the simulation relation. -/
theorem ff_sim {q m : Int} (hq : 0 < q) (s1 : State) (hc : Core s1)
    (hnl : ¬ (s1.rq.length = 1 ∧ s1.jq = []))
    (hseq : ∀ p, s1.rq = [p] → append_seq m s1.seq (p : Int) = s1.seq) :
    ∃ k sr, passes q m k s1 = some sr ∧ Rel q (fast_forward q m s1) sr := by
  have hr : ∀ p ∈ s1.rq, 0 ≤ rembAt s1.remb p :=
    fun p hp => (hc.1 p (List.mem_append_right _ hp)).2
  have hv : ∀ p ∈ s1.rq, p < s1.remb.length :=
    fun p hp => (hc.1 p (List.mem_append_right _ hp)).1
  have hnd : s1.rq.Nodup := (List.nodup_append.mp hc.2).2.1
  rcases fast_forward_cases q m s1 with h1 | ⟨hg, hst, n, hcnt, ⟨p, hp, h1⟩ | ⟨hk, hfull, hn, h1⟩⟩
  · exact ⟨0, s1, rfl, Or.inl h1.symm⟩
  · have hne : s1.rq ≠ [] := by rw [hp]; simp
    have hjq : s1.jq ≠ [] := fun e => hnl ⟨by rw [hp]; rfl, e⟩
    have hn0 := ff_count_nonneg hq hr hg hcnt
    have hb := ff_count_bound hq hne hcnt
    have hpr : p ∈ s1.rq := by rw [hp]; simp
    have hmb : min_burst s1.remb s1.rq ≤ rembAt s1.remb p := min_burst_le hpr
    have hhead := ff_head_bound hq hne hcnt
    have hsq := hseq p hp
    have hlen1 : s1.rq.length = 1 := by rw [hp]; rfl
    rw [hlen1] at hb hhead
    simp only [Nat.cast_one, mul_one] at hb hhead
    have hok : ∀ x ∈ s1.rq, (procAt s1.processes x).start_time ≠ -1 ∧
        append_seq m s1.seq (x : Int) = s1.seq := by
      intro x hx
      have : x = p := by rw [hp] at hx; simpa using hx
      subst this
      exact ⟨hst x hx, hsq⟩
    rw [h1]
    by_cases hz : n = 0
    · subst hz
      refine ⟨0, s1, rfl, Or.inl ?_⟩
      refine state_ext ?_ rfl rfl ?_ rfl ?_
      · show s1.curr_time = s1.curr_time + 0 * q
        ring
      · show s1.remb = s1.remb.set p (rembAt s1.remb p - 0 * q)
        rw [zero_mul, sub_zero, set_rembAt_self]
      · exact hsq.symm
    · obtain ⟨N, hN⟩ := Int.eq_ofNat_of_zero_le (show 0 ≤ n - 1 by omega)
      have hN' : n = ((N + 1 : Nat) : Int) := by push_cast; omega
      subst hN'
      have hNq : ((N + 1 : Nat) : Int) * q = (N : Int) * q + q := by push_cast; ring
      have hNq0 : 0 ≤ (N : Int) * q := mul_nonneg (Int.ofNat_nonneg _) hq.le
      by_cases hlt : ((N + 1 : Nat) : Int) * q < rembAt s1.remb p
      · have := rounds_passes (m := m) hq N s1 hnd hne
          (by
            intro x hx
            have : x = p := by rw [hp] at hx; simpa using hx
            subst this
            exact ⟨hv x hx, hlt⟩)
          hok (Or.inr hjq)
          (by
            intro a ha
            have := hhead a ha
            rw [hlen1]
            simpa using this)
        refine ⟨_, _, this, Or.inr (Or.inl ⟨hne, ?_⟩)⟩
        congr 1
        refine state_ext ?_ rfl rfl ?_ rfl ?_
        · show s1.curr_time + ((N + 1 : Nat) : Int) * (s1.rq.length : Int) * q
            = s1.curr_time + ((N + 1 : Nat) : Int) * q
          rw [hlen1]; simp
        · show dec_all s1.remb s1.rq (((N + 1 : Nat) : Int) * q)
            = s1.remb.set p (rembAt s1.remb p - ((N + 1 : Nat) : Int) * q)
          rw [hp, dec_all_single]
        · exact hsq.symm
      · have heq : rembAt s1.remb p = (N : Int) * q + q := by omega
        have := rounds_passes_strict (m := m) hq N s1 hnd hne
          (by
            intro x hx
            have : x = p := by rw [hp] at hx; simpa using hx
            subst this
            exact ⟨hv x hx, by omega⟩)
          hok (Or.inr hjq)
          (by
            intro a ha
            have := hhead a ha
            rw [hlen1]
            simp only [Nat.cast_one, mul_one]
            omega)
        refine ⟨_, _, this, Or.inr (Or.inr ⟨p, hp, ?_, ?_, hst p hpr, ?_⟩)⟩
        · show p < (s1.remb.set p _).length
          rw [List.length_set]; exact hv p hpr
        · show rembAt (s1.remb.set p _) p = 0
          rw [rembAt_set_self (hv p hpr)]
          omega
        · refine state_ext ?_ rfl rfl ?_ rfl ?_
          · show s1.curr_time + (N : Int) * (s1.rq.length : Int) * q
              = s1.curr_time + ((N + 1 : Nat) : Int) * q - q
            rw [hlen1, hNq]; simp only [Nat.cast_one, mul_one]; ring
          · show dec_all s1.remb s1.rq ((N : Int) * q)
              = (s1.remb.set p (rembAt s1.remb p - ((N + 1 : Nat) : Int) * q)).set p q
            rw [hp, dec_all_single, List.set_set]
            congr 1
            omega
          · exact hsq.symm
  · have hne : s1.rq ≠ [] := by intro e; rw [e] at hk; simp at hk
    have hb := ff_count_bound hq hne hcnt
    have hhead := ff_head_bound hq hne hcnt
    obtain ⟨N, hN⟩ := Int.eq_ofNat_of_zero_le (show 0 ≤ n - 1 by omega)
    have hN' : n = ((N + 1 : Nat) : Int) := by push_cast; omega
    subst hN'
    have hk2 : (2 : Int) ≤ (s1.rq.length : Int) := by exact_mod_cast hk
    have hnq : 0 < ((N + 1 : Nat) : Int) * q := mul_pos (by omega) hq
    have hlt : ((N + 1 : Nat) : Int) * q
        < ((N + 1 : Nat) : Int) * (s1.rq.length : Int) * q := by
      have : ((N + 1 : Nat) : Int) * (s1.rq.length : Int) * q
          = (((N + 1 : Nat) : Int) * q) * (s1.rq.length : Int) := by ring
      rw [this]
      nlinarith
    have := rounds_passes (m := m) hq N s1 hnd hne
      (by
        intro x hx
        have := min_burst_le (r := s1.remb) hx
        exact ⟨hv x hx, by omega⟩)
      (fun x hx => ⟨hst x hx, append_seq_full hfull _⟩) (Or.inl hk) hhead
    rw [h1]
    exact ⟨_, _, this, Or.inr (Or.inl ⟨hne, rfl⟩)⟩

theorem shift_cons {s : State} {h : Nat} {rest : List Nat} (hrq : s.rq = h :: rest) :
    (shift s).rq =
        h :: (move_arrived s.processes (fun a => a == s.curr_time) s.jq rest).2 ∧
      (shift s).jq = (move_arrived s.processes (fun a => a == s.curr_time) s.jq rest).1 := by
  unfold shift
  dsimp only
  rw [hrq]
  simp [move_arrived_eq]

theorem dispatch_congr {m : Int} {s s' : State} (j : Nat) (rq rq' : List Nat)
    (h1 : s'.processes = s.processes) (h2 : s'.curr_time = s.curr_time)
    (h3 : s'.seq = s.seq) :
    (dispatch m s' j rq').processes = (dispatch m s j rq).processes ∧
    (dispatch m s' j rq').seq = (dispatch m s j rq).seq := by
  unfold dispatch
  simp only [h1, h2, h3, and_self]

theorem finish_step_jq (m : Int) (s : State) (j : Nat) (rq : List Nat) :
    (finish_step m s j rq).jq = (move_arrived (finish_step m s j rq).processes
      (fun a => decide (a ≤ s.curr_time + rembAt s.remb j)) s.jq rq).1 := rfl

theorem finish_step_rq (m : Int) (s : State) (j : Nat) (rq : List Nat) :
    (finish_step m s j rq).rq = (move_arrived (finish_step m s j rq).processes
      (fun a => decide (a ≤ s.curr_time + rembAt s.remb j)) s.jq rq).2 := rfl

theorem finish_step_processes (m : Int) (s : State) (j : Nat) (rq : List Nat) :
    (finish_step m s j rq).processes
      = setFinish (dispatch m s j rq).processes j (s.curr_time + rembAt s.remb j) := rfl

theorem preempt_step_jq (q m : Int) (s : State) (j : Nat) (rq : List Nat) :
    (preempt_step q m s j rq).jq =
      (move_arrived (dispatch m s j rq).processes (fun a => a == s.curr_time + q)
        (move_arrived (dispatch m s j rq).processes
          (fun a => decide (a < s.curr_time + q)) s.jq rq).1
        ((move_arrived (dispatch m s j rq).processes
          (fun a => decide (a < s.curr_time + q)) s.jq rq).2 ++ [j])).1 := rfl

theorem preempt_step_rq (q m : Int) (s : State) (j : Nat) (rq : List Nat) :
    (preempt_step q m s j rq).rq =
      (move_arrived (dispatch m s j rq).processes (fun a => a == s.curr_time + q)
        (move_arrived (dispatch m s j rq).processes
          (fun a => decide (a < s.curr_time + q)) s.jq rq).1
        ((move_arrived (dispatch m s j rq).processes
          (fun a => decide (a < s.curr_time + q)) s.jq rq).2 ++ [j])).2 := rfl

/-- Admitting under a condition that holds at time `t` absorbs the admission
of the jobs arriving exactly at `t`. -/
theorem move_arrived_absorb_now {ps ps' : List Process} {c : Int → Bool} {t : Int}
    (hfr : ∀ i, (procAt ps' i).arrival = (procAt ps i).arrival) (hc : c t = true)
    (jq rq : List Nat) :
    move_arrived ps' c (move_arrived ps (fun a => a == t) jq rq).1
        (move_arrived ps (fun a => a == t) jq rq).2
      = move_arrived ps' c jq rq := by
  rw [← move_arrived_congr (fun a => a == t) hfr jq rq]
  apply move_arrived_absorb
  intro x hx
  have : x = t := by simpa using hx
  rw [this]
  exact hc

/-- A finishing pass gives the same state whether or not the jobs arriving
exactly now were admitted beforehand. -/
theorem finish_step_shift {m : Int} {s : State} {h : Nat} {rest : List Nat}
    (hrq : s.rq = h :: rest) (h0 : 0 ≤ rembAt s.remb h) :
    finish_step m (shift s) h
        (move_arrived s.processes (fun a => a == s.curr_time) s.jq rest).2
      = finish_step m s h rest := by
  have hd := @dispatch_congr m s (shift s) h rest
    (move_arrived s.processes (fun a => a == s.curr_time) s.jq rest).2 rfl rfl rfl
  have hps : (finish_step m (shift s) h
      (move_arrived s.processes (fun a => a == s.curr_time) s.jq rest).2).processes
      = (finish_step m s h rest).processes := by
    rw [finish_step_processes, finish_step_processes, hd.1]
    rfl
  have hfr : ∀ i, (procAt (finish_step m s h rest).processes i).arrival
      = (procAt s.processes i).arrival :=
    fun i => (arrival_of_frame (finish_step_frame m s h rest) i).1
  have key := move_arrived_absorb_now (c := fun a => decide (a ≤ s.curr_time + rembAt s.remb h))
    (t := s.curr_time) hfr (by simp only [decide_eq_true_eq]; omega) s.jq rest
  refine state_ext rfl ?_ ?_ rfl hps hd.2
  · rw [finish_step_jq, finish_step_jq, hps, (shift_cons hrq).2]
    exact congrArg Prod.fst key
  · rw [finish_step_rq, finish_step_rq, hps, (shift_cons hrq).2]
    exact congrArg Prod.snd key

/-- A preempted pass gives the same state whether or not the jobs arriving
exactly now were admitted beforehand. -/
theorem preempt_step_shift {q m : Int} {s : State} {h : Nat} {rest : List Nat} (hq : 0 < q)
    (hrq : s.rq = h :: rest) :
    preempt_step q m (shift s) h
        (move_arrived s.processes (fun a => a == s.curr_time) s.jq rest).2
      = preempt_step q m s h rest := by
  have hd := @dispatch_congr m s (shift s) h rest
    (move_arrived s.processes (fun a => a == s.curr_time) s.jq rest).2 rfl rfl rfl
  have hfr : ∀ i, (procAt (dispatch m s h rest).processes i).arrival
      = (procAt s.processes i).arrival :=
    fun i => (arrival_of_frame (dispatch_frame m s h rest) i).1
  have key := move_arrived_absorb_now (c := fun a => decide (a < s.curr_time + q))
    (t := s.curr_time) hfr (by simp only [decide_eq_true_eq]; omega) s.jq rest
  refine state_ext rfl ?_ ?_ rfl hd.1 hd.2
  · rw [preempt_step_jq, preempt_step_jq, hd.1, (shift_cons hrq).2]
    rw [show (shift s).curr_time = s.curr_time from rfl, key]
  · rw [preempt_step_rq, preempt_step_rq, hd.1, (shift_cons hrq).2]
    rw [show (shift s).curr_time = s.curr_time from rfl, key]

/-- Related states give the same reference pass. -/
theorem rel_iter {q m : Int} {so sr : State} (hq : 0 < q) (hc : Core so)
    (hrel : Rel q so sr) : iter false q m sr = iter false q m so := by
  rcases hrel with h | ⟨hne, h⟩ | ⟨p, hp, hpl, hz, hst, h⟩
  · rw [h]
  · subst h
    cases hrq : so.rq with
    | nil => exact absurd hrq hne
    | cons j rest =>
      have hs := shift_cons hrq
      have h0 : 0 ≤ rembAt so.remb j :=
        (hc.1 j (List.mem_append_right _ (by rw [hrq]; simp))).2
      have hremb : (shift so).remb = so.remb := rfl
      have e1 := finish_step_shift (m := m) hrq h0
      have e2 := preempt_step_shift (m := m) hq hrq
      unfold iter
      rw [hs.1, hrq]
      dsimp only
      rw [hremb, e1, e2]
  · subst h
    have hd : ∀ s' : State, s'.processes = so.processes → s'.seq = so.seq →
        (dispatch m s' p []).processes = so.processes ∧
        (dispatch m s' p []).seq = append_seq m so.seq (p : Int) := by
      intro s' h1 h2
      unfold dispatch
      simp only [h1, h2, hst, if_false, and_self]
    have d1 := hd { so with curr_time := so.curr_time - q, remb := so.remb.set p q } rfl rfl
    have d2 := hd so rfl rfl
    have t1 : ({ so with curr_time := so.curr_time - q, remb := so.remb.set p q } : State).curr_time
        + rembAt ({ so with curr_time := so.curr_time - q,
                            remb := so.remb.set p q } : State).remb p
        = so.curr_time + rembAt so.remb p := by
      show so.curr_time - q + rembAt (so.remb.set p q) p = _
      rw [rembAt_set_self hpl, hz]; ring
    have hps : (finish_step m
        { so with curr_time := so.curr_time - q, remb := so.remb.set p q } p []).processes
        = (finish_step m so p []).processes := by
      rw [finish_step_processes, finish_step_processes, d1.1, d2.1, t1]
    have e : finish_step m
        { so with curr_time := so.curr_time - q, remb := so.remb.set p q } p []
        = finish_step m so p [] := by
      refine state_ext t1 ?_ ?_ ?_ hps (d1.2.trans d2.2.symm)
      · rw [finish_step_jq, finish_step_jq, hps, t1]
      · rw [finish_step_rq, finish_step_rq, hps, t1]
      · show (so.remb.set p q).set p 0 = so.remb.set p 0
        rw [List.set_set]
    have hr1 : rembAt (so.remb.set p q) p = q := rembAt_set_self hpl
    rw [hp] at e
    unfold iter
    rw [hp]
    dsimp only
    rw [hr1, hz, e]
    simp [hq.le]

theorem iter_nil_nil {o : Bool} {q m : Int} {s : State} (hrq : s.rq = []) (hjq : s.jq = []) :
    iter o q m s = .exit s := by
  unfold iter
  rw [hrq, hjq]

theorem iter_idle {o : Bool} {q m : Int} {s : State} {i : Nat} {jq : List Nat}
    (hrq : s.rq = []) (hjq : s.jq = i :: jq) : iter o q m s = .loop (idle_step m s i jq) := by
  unfold iter
  rw [hrq, hjq]

theorem iter_finish {o : Bool} {q m : Int} {s : State} {j : Nat} {rq : List Nat}
    (hrq : s.rq = j :: rq) (hle : rembAt s.remb j ≤ q) :
    iter o q m s = .loop (finish_step m s j rq) := by
  unfold iter
  rw [hrq]
  simp only [hle, if_true]

theorem iter_last {o : Bool} {q m : Int} {s : State} {j : Nat} {rq : List Nat}
    (hrq : s.rq = j :: rq) (hle : ¬ rembAt s.remb j ≤ q)
    (hl : (preempt_step q m s j rq).rq.length = 1 ∧ (preempt_step q m s j rq).jq = []) :
    iter o q m s = .exit (last_job m (preempt_step q m s j rq)) := by
  unfold iter
  rw [hrq]
  simp only [hle, if_false, hl, and_self, if_true]

theorem iter_pre_ref {q m : Int} {s : State} {j : Nat} {rq : List Nat}
    (hrq : s.rq = j :: rq) (hle : ¬ rembAt s.remb j ≤ q)
    (hl : ¬ ((preempt_step q m s j rq).rq.length = 1 ∧ (preempt_step q m s j rq).jq = [])) :
    iter false q m s = .loop (preempt_step q m s j rq) := by
  unfold iter
  rw [hrq]
  simp only [hle, if_false, hl, Bool.false_eq_true]

theorem iter_pre_opt {q m : Int} {s : State} {j : Nat} {rq : List Nat}
    (hrq : s.rq = j :: rq) (hle : ¬ rembAt s.remb j ≤ q)
    (hl : ¬ ((preempt_step q m s j rq).rq.length = 1 ∧ (preempt_step q m s j rq).jq = [])) :
    iter true q m s = .loop (fast_forward q m (preempt_step q m s j rq)) := by
  unfold iter
  rw [hrq]
  simp only [hle, if_false, hl, if_true]

/-- One pass of `simulate_rr` against one pass of the reference simulation
from the same state: the same exit, the same next state, or the next state of
the reference simulation followed by the fast-forward block. -/
theorem iter_opt_cases {q m : Int} {so : State} (hq : 0 < q) (hc : Core so) :
    (∃ r, iter true q m so = .exit r ∧ iter false q m so = .exit r) ∨
    (∃ s', iter true q m so = .loop s' ∧ iter false q m so = .loop s' ∧ Core s') ∨
    (∃ s1, iter true q m so = .loop (fast_forward q m s1) ∧ iter false q m so = .loop s1 ∧
      Core s1 ∧ ¬ (s1.rq.length = 1 ∧ s1.jq = []) ∧
      ∀ p, s1.rq = [p] → append_seq m s1.seq (p : Int) = s1.seq) := by
  cases hrq : so.rq with
  | nil =>
    cases hjq : so.jq with
    | nil => exact Or.inl ⟨so, iter_nil_nil hrq hjq, iter_nil_nil hrq hjq⟩
    | cons i jq =>
      exact Or.inr (Or.inl ⟨_, iter_idle hrq hjq, iter_idle hrq hjq, (core_idle hc hjq).1⟩)
  | cons j rest =>
    by_cases hle : rembAt so.remb j ≤ q
    · exact Or.inr (Or.inl ⟨_, iter_finish hrq hle, iter_finish hrq hle,
        (core_finish hc hrq).1⟩)
    · have hc1 := (core_preempt (m := m) hc hq hrq (by omega)).1
      by_cases hl : (preempt_step q m so j rest).rq.length = 1 ∧
          (preempt_step q m so j rest).jq = []
      · exact Or.inl ⟨_, iter_last hrq hle hl, iter_last hrq hle hl⟩
      · refine Or.inr (Or.inr ⟨_, iter_pre_opt hrq hle hl, iter_pre_ref hrq hle hl, hc1, hl, ?_⟩)
        intro p hp
        have hj : j ∈ (preempt_step q m so j rest).rq := by
          rw [preempt_step_rq, move_arrived_eq]
          simp
        rw [hp] at hj
        have hjp : j = p := by simpa using hj
        subst hjp
        exact append_seq_idem m so.seq _

/-- Simulation: whatever `simulate_rr` returns from a state, the reference
simulation returns from every related state. -/
theorem sim_run {q m : Int} (hq : 0 < q) :
    ∀ (fuel : Nat) (so sr r : State), Core so → Rel q so sr →
      run true q m fuel so = some r → ∃ fuel', run false q m fuel' sr = some r := by
  intro fuel
  induction fuel with
  | zero => intro so sr r _ _ h; simp [run] at h
  | succ n ih =>
    intro so sr r hc hrel h
    have hb := rel_iter (m := m) hq hc hrel
    simp only [run] at h
    rcases iter_opt_cases (m := m) hq hc with ⟨r', h1, h2⟩ | ⟨s', h1, h2, hc'⟩ |
        ⟨s1, h1, h2, hc1, hnl, hsq⟩
    · rw [h1] at h
      refine ⟨1, ?_⟩
      simp only [run, hb, h2]
      exact h
    · rw [h1] at h
      obtain ⟨f, hf⟩ := ih s' s' r hc' (Or.inl rfl) h
      refine ⟨f + 1, ?_⟩
      simp only [run, hb, h2]
      exact hf
    · rw [h1] at h
      obtain ⟨k, sr', hpass, hrel'⟩ := ff_sim (m := m) hq s1 hc1 hnl hsq
      obtain ⟨f, hf⟩ := ih _ sr' r (core_fast_forward hc1 hq).1 hrel' h
      refine ⟨k + f + 1, ?_⟩
      simp only [run, hb, h2]
      exact run_of_passes k s1 sr' f r hpass hf

/-! ## The cap only cuts the sequence -/

/-- Recording under the smaller cap into the cut sequence gives the cut of
recording under the larger cap. -/
theorem append_seq_take {m m' : Int} (hm : 0 < m) (hmm : m ≤ m') (seq : List Int) (x : Int) :
    append_seq m (seq.take m.toNat) x = (append_seq m' seq x).take m.toNat := by
  have hM : ((m.toNat : Nat) : Int) = m := Int.toNat_of_nonneg hm.le
  by_cases h1 : m.toNat ≤ seq.length
  · have hl : (seq.take m.toNat).length = m.toNat := by
      rw [List.length_take]; omega
    have hL : append_seq m (seq.take m.toNat) x = seq.take m.toNat := by
      unfold append_seq
      rw [if_pos (by rw [hl]; omega)]
    rw [hL]
    unfold append_seq
    split
    · rfl
    · split
      · rw [List.take_append_of_le_length h1]
      · rfl
  · have hlt : seq.length < m.toNat := by omega
    rw [List.take_of_length_le (by omega)]
    have c1 : ¬ ((seq.length : Int) ≥ m) := by omega
    have c2 : ¬ ((seq.length : Int) ≥ m') := by omega
    unfold append_seq
    rw [if_neg c1, if_neg c2]
    split
    · rw [List.take_of_length_le (by simp; omega)]
    · rw [List.take_of_length_le (by omega)]

theorem dispatch_cap {m m' : Int} (hm : 0 < m) (hmm : m ≤ m') (s : State) (j : Nat)
    (rq : List Nat) :
    dispatch m (capSeq m.toNat s) j rq = capSeq m.toNat (dispatch m' s j rq) := by
  refine state_ext rfl rfl rfl rfl rfl ?_
  exact append_seq_take hm hmm s.seq _

theorem finish_step_cap {m m' : Int} (hm : 0 < m) (hmm : m ≤ m') (s : State) (j : Nat)
    (rq : List Nat) :
    finish_step m (capSeq m.toNat s) j rq = capSeq m.toNat (finish_step m' s j rq) := by
  unfold finish_step
  rw [dispatch_cap hm hmm]
  rfl

theorem preempt_step_cap {q m m' : Int} (hm : 0 < m) (hmm : m ≤ m') (s : State) (j : Nat)
    (rq : List Nat) :
    preempt_step q m (capSeq m.toNat s) j rq = capSeq m.toNat (preempt_step q m' s j rq) := by
  unfold preempt_step
  rw [dispatch_cap hm hmm]
  rfl

theorem idle_step_cap {m m' : Int} (hm : 0 < m) (hmm : m ≤ m') (s : State) (i : Nat)
    (jq : List Nat) :
    idle_step m (capSeq m.toNat s) i jq = capSeq m.toNat (idle_step m' s i jq) := by
  refine state_ext rfl rfl rfl rfl rfl ?_
  show (if s.curr_time < (procAt s.processes i).arrival
      then append_seq m (s.seq.take m.toNat) (-1) else s.seq.take m.toNat)
    = (if s.curr_time < (procAt s.processes i).arrival
      then append_seq m' s.seq (-1) else s.seq).take m.toNat
  split
  · exact append_seq_take hm hmm s.seq _
  · rfl

theorem last_job_cap {m m' : Int} (hm : 0 < m) (hmm : m ≤ m') (s : State) :
    last_job m (capSeq m.toNat s) = capSeq m.toNat (last_job m' s) := by
  refine state_ext rfl rfl rfl rfl rfl ?_
  exact append_seq_take hm hmm s.seq _

/-- One pass of the reference simulation under the smaller cap, from the cut
state, is the cut of the pass under the larger cap. -/
theorem iter_cap {q m m' : Int} (hm : 0 < m) (hmm : m ≤ m') (s : State) :
    iter false q m (capSeq m.toNat s) = capOut m.toNat (iter false q m' s) := by
  cases hrq : s.rq with
  | nil =>
    cases hjq : s.jq with
    | nil =>
      rw [iter_nil_nil (s := capSeq m.toNat s) hrq hjq, iter_nil_nil hrq hjq]
      rfl
    | cons i jq =>
      rw [iter_idle (s := capSeq m.toNat s) hrq hjq, iter_idle hrq hjq, idle_step_cap hm hmm]
      rfl
  | cons j rest =>
    by_cases hle : rembAt s.remb j ≤ q
    · rw [iter_finish (s := capSeq m.toNat s) hrq hle, iter_finish hrq hle,
        finish_step_cap hm hmm]
      rfl
    · have e := preempt_step_cap (q := q) hm hmm s j rest
      by_cases hl : (preempt_step q m' s j rest).rq.length = 1 ∧
          (preempt_step q m' s j rest).jq = []
      · rw [iter_last (s := capSeq m.toNat s) hrq hle (by rw [e]; exact hl),
          iter_last hrq hle hl, e, last_job_cap hm hmm]
        rfl
      · rw [iter_pre_ref (s := capSeq m.toNat s) hrq hle (by rw [e]; exact hl),
          iter_pre_ref hrq hle hl, e]
        rfl

/-- The reference simulation under the smaller cap, from the cut state, gives
the cut of the result under the larger cap. -/
theorem run_cap {q m m' : Int} (hm : 0 < m) (hmm : m ≤ m') :
    ∀ (fuel : Nat) (s : State),
      run false q m fuel (capSeq m.toNat s) = (run false q m' fuel s).map (capSeq m.toNat) := by
  intro fuel
  induction fuel with
  | zero => intro s; rfl
  | succ n ih =>
    intro s
    simp only [run]
    rw [iter_cap hm hmm]
    cases iter false q m' s with
    | loop s' => exact ih s'
    | exit s' => rfl

/-! ## Loop tops -/

/-- One continuing pass, by cases on the path taken. -/
theorem iter_loop_rule {o : Bool} {q m : Int} (P P' : State → Prop)
    (h_idle : ∀ s i jq, P s → s.rq = [] → s.jq = i :: jq → P' (idle_step m s i jq))
    (h_fin : ∀ s j rq, P s → s.rq = j :: rq → rembAt s.remb j ≤ q →
      P' (finish_step m s j rq))
    (h_pre : o = false → ∀ s j rq, P s → s.rq = j :: rq → q < rembAt s.remb j →
      P' (preempt_step q m s j rq))
    (h_ff : o = true → ∀ s j rq, P s → s.rq = j :: rq → q < rembAt s.remb j →
      ¬ ((preempt_step q m s j rq).rq.length = 1 ∧ (preempt_step q m s j rq).jq = []) →
      P' (fast_forward q m (preempt_step q m s j rq))) :
    ∀ s s', P s → iter o q m s = .loop s' → P' s' := by
  intro s s' hP h
  cases hrq : s.rq with
  | nil =>
    cases hjq : s.jq with
    | nil =>
      rw [iter_nil_nil hrq hjq] at h
      cases h
    | cons i jq =>
      rw [iter_idle hrq hjq] at h
      cases h
      exact h_idle s i jq hP hrq hjq
  | cons j rq =>
    by_cases hle : rembAt s.remb j ≤ q
    · rw [iter_finish hrq hle] at h
      cases h
      exact h_fin s j rq hP hrq hle
    · by_cases hl : (preempt_step q m s j rq).rq.length = 1 ∧ (preempt_step q m s j rq).jq = []
      · rw [iter_last hrq hle hl] at h
        cases h
      · cases o with
        | true =>
          rw [iter_pre_opt hrq hle hl] at h
          cases h
          exact h_ff rfl s j rq hP hrq (by omega) hl
        | false =>
          rw [iter_pre_ref hrq hle hl] at h
          cases h
          exact h_pre rfl s j rq hP hrq (by omega)

/-- Invariant rule for the states at the loop tops. -/
theorem top_rule {o : Bool} {q m : Int} (P : State → Prop)
    (h_step : ∀ s s', P s → iter o q m s = .loop s' → P s') :
    ∀ (k : Nat) (s0 s : State), P s0 → loop_top o q m k s0 = some s → P s := by
  intro k
  induction k with
  | zero =>
    intro s0 s h0 h
    simp only [loop_top, Option.some.injEq] at h
    exact h ▸ h0
  | succ k ih =>
    intro s0 s h0 h
    simp only [loop_top] at h
    cases hi : iter o q m s0 with
    | loop s1 =>
      rw [hi] at h
      exact ih s1 s (h_step s0 s1 h0 hi) h
    | exit s1 => rw [hi] at h; cases h

/-- A continuing pass preserves the loop invariant. -/
theorem inv_iter {o : Bool} {q m : Int} (hq : 0 < q) :
    ∀ s s', Inv s → iter o q m s = .loop s' → Inv s' := by
  apply iter_loop_rule Inv Inv
  · intro s i jq h hrq hjq; exact inv_idle h hrq hjq
  · intro s j rq h hrq _; exact inv_finish h hrq
  · intro _ s j rq h hrq hlt; exact (inv_preempt h hq hrq hlt).1
  · intro _ s j rq h hrq hlt _; exact inv_fast_forward (inv_preempt h hq hrq hlt).1 hq

/-- A continuing pass keeps the length of the process list. -/
theorem iter_length {o : Bool} {q m : Int} (n : Nat) :
    ∀ s s', s.processes.length = n → iter o q m s = .loop s' → s'.processes.length = n := by
  apply iter_loop_rule (fun s => s.processes.length = n) (fun s => s.processes.length = n)
  · intro s i jq h _ _; exact h
  · intro s j rq h _ _; rw [finish_step_length]; exact h
  · intro _ s j rq h _ _; exact (dispatch_length m s j rq).trans h
  · intro _ s j rq h _ _ _
    rw [fast_forward_processes]
    exact (dispatch_length m s j rq).trans h

/-- The loop invariant holds at every loop top of a run on a valid input. -/
theorem inv_loop_top {q m : Int} {ps : List Process} {s : State} (hq : 0 < q)
    (hv : ValidInput ps) (h : LoopTop q m ps s) : Inv s ∧ s.processes.length = ps.length := by
  obtain ⟨k, hk⟩ := h
  exact top_rule (fun s => Inv s ∧ s.processes.length = ps.length)
    (fun s s' hs hi => ⟨inv_iter hq s s' hs.1 hi, iter_length ps.length s s' hs.2 hi⟩)
    k _ s ⟨inv_init ps hv, rfl⟩ hk

/-! ## Remaining burst at the loop tops -/

theorem rembAt_set_le {r : List Int} {j : Nat} {v : Int} (h : v ≤ rembAt r j) (i : Nat) :
    rembAt (r.set j v) i ≤ rembAt r i := by
  by_cases hj : j < r.length
  · by_cases hji : j = i
    · subst hji
      rw [rembAt_set_self hj]
      exact h
    · rw [rembAt_set_ne hji]
  · rw [set_oob r j v (Nat.not_lt.mp hj)]

theorem rembAt_dec_all_le (rq : List Nat) (d : Int) (hd : 0 ≤ d) (i : Nat) :
    ∀ r : List Int, rembAt (dec_all r rq d) i ≤ rembAt r i := by
  induction rq with
  | nil => intro r; exact le_refl _
  | cons p l ih =>
    intro r
    rw [dec_all_cons]
    exact (ih _).trans (rembAt_set_le (by omega) i)

/-- Assembling the remaining-burst invariant for the next loop top. -/
theorem rinv_of {s s' : State} (h : RInv s) (hc : Core s')
    (hlen : s'.remb.length = s.remb.length)
    (hfr : s'.processes.map frame = s.processes.map frame)
    (hle : ∀ i, rembAt s'.remb i ≤ rembAt s.remb i)
    (h0 : ∀ i, i < s.remb.length → 0 ≤ rembAt s'.remb i) :
    RInv s' ∧ ∀ i, rembAt s'.remb i ≤ rembAt s.remb i := by
  have hpl : s'.processes.length = s.processes.length := by
    simpa using congrArg List.length hfr
  refine ⟨⟨hc, by rw [hlen, hpl, h.2.1], fun i hi => ?_⟩, hle⟩
  rw [hpl] at hi
  have := h.2.2 i hi
  rw [(arrival_of_frame hfr i).2.1]
  exact ⟨h0 i (by rw [h.2.1]; exact hi), (hle i).trans this.2⟩

theorem fast_forward_frame (q m : Int) (s : State) :
    (fast_forward q m s).processes.map frame = s.processes.map frame := by
  rw [fast_forward_processes]

/-- A continuing pass of `simulate_rr` preserves the remaining-burst invariant
and increases no remaining burst. -/
theorem rinv_iter {q m : Int} (hq : 0 < q) (s s' : State) (h : RInv s)
    (hi : iter true q m s = .loop s') :
    RInv s' ∧ ∀ i, rembAt s'.remb i ≤ rembAt s.remb i := by
  have key := iter_loop_rule (o := true) (q := q) (m := m) (fun x => x = s ∧ RInv x)
    (fun x => RInv x ∧ ∀ i, rembAt x.remb i ≤ rembAt s.remb i)
    (by
      rintro x i jq ⟨rfl, hx⟩ _ hjq
      exact rinv_of hx (core_idle hx.1 hjq).1 rfl rfl (fun _ => le_refl _)
        (fun i hi => (hx.2.2 i (hx.2.1 ▸ hi)).1))
    (by
      rintro x j rq ⟨rfl, hx⟩ hrq _
      have hj := hx.1.1 j (List.mem_append_right _ (by rw [hrq]; simp))
      refine rinv_of hx (core_finish hx.1 hrq).1 (List.length_set _ _ _)
        (finish_step_frame m x j rq) (fun i => rembAt_set_le hj.2 i) (fun i hi => ?_)
      show 0 ≤ rembAt (x.remb.set j 0) i
      by_cases hji : j = i
      · subst hji; rw [rembAt_set_self hj.1]
      · rw [rembAt_set_ne hji]; exact (hx.2.2 i (hx.2.1 ▸ hi)).1)
    (by intro h; cases h)
    (by
      rintro _ x j rq ⟨rfl, hx⟩ hrq hlt _
      have hj := hx.1.1 j (List.mem_append_right _ (by rw [hrq]; simp))
      have hc1 := (core_preempt (m := m) hx.1 hq hrq hlt).1
      have h1 : RInv (preempt_step q m x j rq) ∧
          ∀ i, rembAt (preempt_step q m x j rq).remb i ≤ rembAt x.remb i := by
        refine rinv_of hx hc1 (List.length_set _ _ _) (preempt_step_frame q m x j rq)
          (fun i => rembAt_set_le (by omega) i) (fun i hi => ?_)
        show 0 ≤ rembAt (x.remb.set j (rembAt x.remb j - q)) i
        by_cases hji : j = i
        · subst hji; rw [rembAt_set_self hj.1]; omega
        · rw [rembAt_set_ne hji]; exact (hx.2.2 i (hx.2.1 ▸ hi)).1
      have hcf := (core_fast_forward (m := m) hc1 hq).1
      have hq2 := fast_forward_queues q m (preempt_step q m x j rq)
      have hr : ∀ p ∈ (preempt_step q m x j rq).rq, 0 ≤ rembAt (preempt_step q m x j rq).remb p :=
        fun p hp => (hc1.1 p (List.mem_append_right _ hp)).2
      have h2 : (fast_forward q m (preempt_step q m x j rq)).remb.length
            = (preempt_step q m x j rq).remb.length ∧
          (∀ i, rembAt (fast_forward q m (preempt_step q m x j rq)).remb i
            ≤ rembAt (preempt_step q m x j rq).remb i) ∧
          (∀ i, i ∉ (preempt_step q m x j rq).rq →
            rembAt (fast_forward q m (preempt_step q m x j rq)).remb i
              = rembAt (preempt_step q m x j rq).remb i) := by
        rcases fast_forward_cases q m (preempt_step q m x j rq) with
          e | ⟨hg, _, n, hcnt, ⟨p, hp, e⟩ | ⟨hk, _, hn, e⟩⟩
        · rw [e]; exact ⟨rfl, fun _ => le_refl _, fun _ _ => rfl⟩
        · rw [e]
          have hn0 := ff_count_nonneg hq hr hg hcnt
          have hnq : 0 ≤ n * q := mul_nonneg hn0 hq.le
          refine ⟨List.length_set _ _ _, fun i => rembAt_set_le (by omega) i, fun i hi => ?_⟩
          show rembAt ((preempt_step q m x j rq).remb.set p _) i = _
          rw [rembAt_set_ne]
          intro e'
          subst e'
          exact hi (by rw [hp]; simp)
        · rw [e]
          have hnq : 0 ≤ n * q := mul_nonneg (by omega) hq.le
          exact ⟨length_dec_all _ _ _, fun i => rembAt_dec_all_le _ _ hnq i _,
            fun i hi => rembAt_dec_all_not_mem _ _ _ hi _⟩
      have h3 := rinv_of h1.1 hcf h2.1 (fast_forward_frame q m _) h2.2.1 (fun i hi => by
        by_cases hmem : i ∈ (preempt_step q m x j rq).rq
        · exact (hcf.1 i (List.mem_append_right _ (hq2.2 ▸ hmem))).2
        · rw [h2.2.2 i hmem]
          exact (h1.1.2.2 i (h1.1.2.1 ▸ hi)).1)
      exact ⟨h3.1, fun i => (h3.2 i).trans (h1.2 i)⟩)
    s s' ⟨rfl, h⟩ hi
  exact key

theorem rinv_init (ps : List Process) (hb : ∀ p ∈ ps, 0 ≤ p.burst) : RInv (init_state ps) := by
  refine ⟨core_init ps hb, by simp [init_state], fun i hi => ?_⟩
  have hi' : i < ps.length := hi
  have e : rembAt (init_state ps).remb i = (procAt ps i).burst := by
    show rembAt (ps.map (·.burst)) i = (procAt ps i).burst
    unfold rembAt procAt
    rw [List.getD_eq_getElem?_getD, List.getD_eq_getElem?_getD, List.getElem?_map,
      List.getElem?_eq_getElem hi']
    rfl
  rw [e]
  exact ⟨hb _ (procAt_mem hi'), le_refl _⟩

theorem rinv_loop_top {q m : Int} {ps : List Process} {s : State} (hq : 0 < q)
    (hb : ∀ p ∈ ps, 0 ≤ p.burst) (h : LoopTop q m ps s) : RInv s := by
  obtain ⟨k, hk⟩ := h
  exact top_rule RInv (fun s s' hs hi => (rinv_iter hq s s' hs hi).1) k _ s (rinv_init ps hb) hk

/-- A continuing pass leaves the protected fields alone. -/
theorem iter_frame {o : Bool} {q m : Int} (fr : List (Int × Int × Int)) :
    ∀ s s', s.processes.map frame = fr → iter o q m s = .loop s' →
      s'.processes.map frame = fr := by
  apply iter_loop_rule (fun s => s.processes.map frame = fr)
    (fun s => s.processes.map frame = fr)
  · intro s i jq h _ _; exact h
  · intro s j rq h _ _; rw [finish_step_frame]; exact h
  · intro _ s j rq h _ _; rw [preempt_step_frame]; exact h
  · intro _ s j rq h _ _ _; rw [fast_forward_frame, preempt_step_frame]; exact h

theorem frame_loop_top {q m : Int} {ps : List Process} {s : State} (h : LoopTop q m ps s) :
    s.processes.map frame = ps.map frame := by
  obtain ⟨k, hk⟩ := h
  exact top_rule (fun s => s.processes.map frame = ps.map frame)
    (fun s s' hs hi => iter_frame _ s s' hs hi) k _ s rfl hk

theorem loop_top_succ {o : Bool} {q m : Int} :
    ∀ (k : Nat) (s0 s s' : State), loop_top o q m k s0 = some s → iter o q m s = .loop s' →
      loop_top o q m (k + 1) s0 = some s' := by
  intro k
  induction k with
  | zero =>
    intro s0 s s' h hi
    simp only [loop_top, Option.some.injEq] at h
    subst h
    simp only [loop_top, hi]
  | succ k ih =>
    intro s0 s s' h hi
    simp only [loop_top] at h
    cases h0 : iter o q m s0 with
    | loop s1 =>
      rw [h0] at h
      have := ih s1 s s' h hi
      show (match iter o q m s0 with
        | .loop s' => loop_top o q m (k + 1) s'
        | .exit _ => none) = some s'
      rw [h0]
      exact this
    | exit s1 => rw [h0] at h; cases h

/-- The state after a continuing pass from a loop top is a loop top. -/
theorem loopTop_next {q m : Int} {ps : List Process} {s s' : State} (h : LoopTop q m ps s)
    (hi : iter true q m s = .loop s') : LoopTop q m ps s' := by
  obtain ⟨k, hk⟩ := h
  exact ⟨k + 1, loop_top_succ k _ s s' hk hi⟩

/-! ## The admission loops on a sorted job queue -/

/-- On a list along which the condition can only switch from true to false,
the loop `while (cond(front)) pop` takes exactly the entries that satisfy it. -/
theorem takeWhile_dropWhile_eq_filter {α : Type} (P : α → Bool) :
    ∀ l : List α, l.Pairwise (fun a b => P b = true → P a = true) →
      l.takeWhile P = l.filter P ∧ l.dropWhile P = l.filter (fun x => !P x) := by
  intro l
  induction l with
  | nil => intro _; exact ⟨rfl, rfl⟩
  | cons a t ih =>
    intro h
    rw [List.pairwise_cons] at h
    have iht := ih h.2
    by_cases ha : P a = true
    · simp only [List.takeWhile_cons, List.dropWhile_cons, List.filter_cons, ha, if_true,
        Bool.not_true, Bool.false_eq_true, if_false]
      exact ⟨by rw [iht.1], iht.2⟩
    · have hall : ∀ b ∈ t, P b = false := by
        intro b hb
        by_contra hc
        exact ha (h.1 b hb (by simpa using hc))
      have h1 : t.filter P = [] := by
        rw [List.filter_eq_nil_iff]
        intro b hb
        simp [hall b hb]
      have h2 : t.filter (fun x => !P x) = t := by
        rw [List.filter_eq_self]
        intro b hb
        simp [hall b hb]
      have ha' : P a = false := by simpa using ha
      simp only [List.takeWhile_cons, List.dropWhile_cons, List.filter_cons, ha',
        Bool.false_eq_true, if_false, Bool.not_false, if_true, h1, h2, and_self]

/-- The queues after the two admission loops of a preempted slice, when the
job queue is sorted by arrival. -/
theorem preempt_queues_sorted (ps : List Process) (t : Int) (j : Nat) (jq rq : List Nat)
    (hs : jq.Pairwise (fun a b => (procAt ps a).arrival ≤ (procAt ps b).arrival)) :
    (move_arrived ps (fun a => a == t)
        (move_arrived ps (fun a => decide (a < t)) jq rq).1
        ((move_arrived ps (fun a => decide (a < t)) jq rq).2 ++ [j])).2
      = rq ++ jq.filter (fun i => decide ((procAt ps i).arrival < t)) ++ [j]
          ++ jq.filter (fun i => decide ((procAt ps i).arrival = t)) ∧
    (move_arrived ps (fun a => a == t)
        (move_arrived ps (fun a => decide (a < t)) jq rq).1
        ((move_arrived ps (fun a => decide (a < t)) jq rq).2 ++ [j])).1
      = jq.filter (fun i => decide (t < (procAt ps i).arrival)) := by
  have h1 := takeWhile_dropWhile_eq_filter (fun i => decide ((procAt ps i).arrival < t)) jq
    (hs.imp (by
      intro a b hab hb
      simp only [decide_eq_true_eq] at hb ⊢
      omega))
  have hs2 : (jq.filter (fun x => !decide ((procAt ps x).arrival < t))).Pairwise
      (fun a b => ((procAt ps b).arrival == t) = true → ((procAt ps a).arrival == t) = true) := by
    have hsub := (List.filter_sublist (l := jq)
      (p := fun x => !decide ((procAt ps x).arrival < t)))
    refine List.Pairwise.imp_of_mem ?_ (hs.sublist hsub)
    intro a b ha _ hab hb
    have ha' := (List.mem_filter.mp ha).2
    simp only [Bool.not_eq_true', decide_eq_false_iff_not, beq_iff_eq] at ha' hb ⊢
    omega
  have h2 := takeWhile_dropWhile_eq_filter (fun i => (procAt ps i).arrival == t) _ hs2
  simp only [move_arrived_eq]
  rw [h1.1, h1.2, h2.1, h2.2, List.filter_filter, List.filter_filter]
  refine ⟨?_, ?_⟩
  · congr 1
    apply List.filter_congr
    intro x _
    by_cases hx : (procAt ps x).arrival = t
    · simp [hx]
    · simp [hx]
  · apply List.filter_congr
    intro x _
    by_cases hx : t < (procAt ps x).arrival
    · have h3 : ¬ (procAt ps x).arrival = t := by omega
      have h4 : ¬ (procAt ps x).arrival < t := by omega
      simp [hx, h3, h4]
    · by_cases h3 : (procAt ps x).arrival = t
      · simp [hx, h3]
      · have h4 : (procAt ps x).arrival < t := by omega
        simp [hx, h3, h4]

/-! ## Progress of one pass -/

theorem timeOK_iter {o : Bool} {q m : Int} :
    ∀ s s', TimeOK s → iter o q m s = .loop s' → TimeOK s' := by
  apply iter_loop_rule TimeOK TimeOK
  · intro s i jq _ _ _ hnil
    simp [idle_step] at hnil
  · intro s j rq _ _ _ _ a ha
    have := move_arrived_head _ _ _ _ a ((finish_step_jq m s j rq) ▸ ha)
    have h2 : ¬ (procAt (finish_step m s j rq).processes a).arrival
        ≤ s.curr_time + rembAt s.remb j := by simpa using this
    show s.curr_time + rembAt s.remb j ≤ _
    omega
  · intro _ s j rq _ _ _ hnil
    exact absurd hnil (preempt_step_rq_ne_nil q m s j rq)
  · intro _ s j rq _ _ _ _ hnil
    rw [(fast_forward_queues q m _).2] at hnil
    exact absurd hnil (preempt_step_rq_ne_nil q m s j rq)

theorem timeOK_loop_top {q m : Int} {ps : List Process} {s : State}
    (ha : ∀ p ∈ ps, 0 ≤ p.arrival) (h : LoopTop q m ps s) : TimeOK s := by
  obtain ⟨k, hk⟩ := h
  refine top_rule TimeOK (fun s s' hs hi => timeOK_iter s s' hs hi) k _ s ?_ hk
  intro _ a hmem
  have hmem' : a ∈ List.range ps.length := List.mem_of_mem_head? hmem
  exact ha _ (procAt_mem (List.mem_range.mp hmem'))

theorem core_loop_top {q m : Int} {ps : List Process} {s : State} (hq : 0 < q)
    (hb : ∀ p ∈ ps, 0 ≤ p.burst) (h : LoopTop q m ps s) : Core s :=
  (rinv_loop_top hq hb h).1

/-- Fast-forward never moves time backwards. -/
theorem fast_forward_time {q m : Int} {s : State} (hc : Core s) (hq : 0 < q) :
    s.curr_time ≤ (fast_forward q m s).curr_time := by
  have hr : ∀ p ∈ s.rq, 0 ≤ rembAt s.remb p :=
    fun p hp => (hc.1 p (List.mem_append_right _ hp)).2
  rcases fast_forward_cases q m s with e | ⟨hg, _, n, hcnt, ⟨p, _, e⟩ | ⟨_, _, hn, e⟩⟩
  · rw [e]
  · rw [e]
    have := mul_nonneg (ff_count_nonneg hq hr hg hcnt) hq.le
    show s.curr_time ≤ s.curr_time + n * q
    omega
  · rw [e]
    have h1 : 0 ≤ n * (s.rq.length : Int) := mul_nonneg (by omega) (Int.ofNat_nonneg _)
    have := mul_nonneg h1 hq.le
    show s.curr_time ≤ s.curr_time + n * (s.rq.length : Int) * q
    omega

/-! ## No idle time when every process arrives at time 0 -/

theorem sum_set (r : List Int) (j : Nat) (v : Int) (h : j < r.length) :
    (r.set j v).sum = r.sum - rembAt r j + v := by
  induction r generalizing j with
  | nil => simp at h
  | cons x r ih =>
    cases j with
    | zero => simp [rembAt]; ring
    | succ j =>
      have hj : j < r.length := by simpa using h
      have := ih j hj
      simp only [rembAt, List.set_cons_succ, List.sum_cons, List.getD_cons_succ] at this ⊢
      omega

theorem sum_dec_all (rq : List Nat) (d : Int) :
    ∀ r : List Int, rq.Nodup → (∀ p ∈ rq, p < r.length) →
      (dec_all r rq d).sum = r.sum - (rq.length : Int) * d := by
  induction rq with
  | nil => intro r _ _; simp [dec_all]
  | cons p l ih =>
    intro r hnd hv
    rw [List.nodup_cons] at hnd
    rw [dec_all_cons, ih _ hnd.2 (fun x hx => by
      rw [List.length_set]; exact hv x (List.mem_cons_of_mem _ hx)),
      sum_set r p _ (hv p (List.mem_cons_self _ _))]
    simp only [List.length_cons]
    push_cast
    ring

theorem sum_eq_zero_of_rembAt (r : List Int) (h : ∀ i, i < r.length → rembAt r i = 0) :
    r.sum = 0 := by
  induction r with
  | nil => rfl
  | cons x r ih =>
    have h0 : x = 0 := by simpa [rembAt] using h 0 (by simp)
    have := ih (fun i hi => by
      have := h (i + 1) (by simpa using hi)
      simpa [rembAt] using this)
    simp [h0, this]

theorem sum_eq_rembAt (r : List Int) (a : Nat) (ha : a < r.length)
    (h : ∀ i, i < r.length → i ≠ a → rembAt r i = 0) : r.sum = rembAt r a := by
  have h1 := sum_set r a 0 ha
  have h2 : (r.set a 0).sum = 0 := by
    apply sum_eq_zero_of_rembAt
    intro i hi
    rw [List.length_set] at hi
    by_cases hia : a = i
    · subst hia; exact rembAt_set_self ha
    · rw [rembAt_set_ne hia]; exact h i hi (Ne.symm hia)
  omega

theorem append_seq_no_idle {m : Int} {seq : List Int} {x : Int} (hx : x ≠ -1)
    (h : (-1 : Int) ∉ seq) : (-1 : Int) ∉ append_seq m seq x := by
  unfold append_seq
  split
  · exact h
  · split
    · intro hmem
      rcases List.mem_append.mp hmem with h1 | h1
      · exact h h1
      · exact hx (List.mem_singleton.mp h1).symm
    · exact h

theorem nat_cast_ne_neg_one (j : Nat) : (j : Int) ≠ -1 := by omega

theorem winv_idle {B m : Int} {s : State} {i : Nat} {jq : List Nat} (h : WInv B s)
    (ht : TimeOK s) (hrq : s.rq = []) (hjq : s.jq = i :: jq) : WInv B (idle_step m s i jq) := by
  have hi : i < s.processes.length :=
    h.len ▸ (h.core.1 i (List.mem_append_left _ (by rw [hjq]; simp))).1
  have ha : (procAt s.processes i).arrival = 0 := h.arr i hi
  have ht0 : s.curr_time = 0 := by
    have h1 := ht hrq i (by rw [hjq]; simp)
    have h2 := h.time
    omega
  have hp := idle_step_perm (m := m) hjq
  refine ⟨(core_idle h.core hjq).1, h.len, ?_, h.arr, ?_, ?_, ?_, ?_⟩
  · show 0 ≤ (procAt s.processes i).arrival
    omega
  · show (procAt s.processes i).arrival + s.remb.sum = B
    rw [ha, ← ht0]; exact h.work
  · intro x hx hnot
    have := h.fin x hx (fun hm => hnot (hp.mem_iff.mpr hm))
    show rembAt s.remb x = 0 ∧ (procAt s.processes x).finish_time ≤ (procAt s.processes i).arrival
    rw [ha]
    rw [ht0] at this
    exact this
  · intro _ hr
    simp [idle_step] at hr
  · show (-1 : Int) ∉ (if s.curr_time < (procAt s.processes i).arrival
      then append_seq m s.seq (-1) else s.seq)
    rw [if_neg (by omega)]
    exact h.noidle

theorem winv_finish {B m : Int} {s : State} {j : Nat} {rq : List Nat} (h : WInv B s)
    (hrq : s.rq = j :: rq) : WInv B (finish_step m s j rq) := by
  have hjm : j ∈ s.jq ++ s.rq := List.mem_append_right _ (by rw [hrq]; simp)
  have hj := h.core.1 j hjm
  have hjl : j < s.processes.length := h.len ▸ hj.1
  have htime := h.time
  have hp := finish_step_perm (m := m) hrq
  refine ⟨(core_finish h.core hrq).1, ?_, ?_, ?_, ?_, ?_, ?_, ?_⟩
  · show (s.remb.set j 0).length = (finish_step m s j rq).processes.length
    rw [List.length_set, finish_step_length]; exact h.len
  · show 0 ≤ s.curr_time + rembAt s.remb j
    omega
  · intro x hx
    rw [(arrival_of_frame (finish_step_frame m s j rq) x).1]
    exact h.arr x (by rwa [finish_step_length] at hx)
  · show s.curr_time + rembAt s.remb j + (s.remb.set j 0).sum = B
    rw [sum_set _ _ _ hj.1]
    have := h.work
    omega
  · intro x hx hnot
    rw [finish_step_length] at hx
    by_cases hjx : j = x
    · subst hjx
      refine ⟨rembAt_set_self hj.1, ?_⟩
      rw [finish_step_procAt_self hjl]
      exact le_refl _
    · have hx' : x ∉ s.jq ++ s.rq := by
        intro hm
        rcases List.mem_cons.mp (hp.mem_iff.mpr hm) with e | e
        · exact hjx e.symm
        · exact hnot e
      have := h.fin x hx hx'
      show rembAt (s.remb.set j 0) x = 0 ∧
        (procAt (finish_step m s j rq).processes x).finish_time ≤ s.curr_time + rembAt s.remb j
      rw [rembAt_set_ne hjx, finish_step_procAt_ne hjx]
      exact ⟨this.1, by omega⟩
  · intro _ _ _
    refine ⟨j, by rw [finish_step_length]; exact hjl, ?_⟩
    rw [finish_step_procAt_self hjl]
    rfl
  · show (-1 : Int) ∉ append_seq m s.seq (j : Int)
    exact append_seq_no_idle (nat_cast_ne_neg_one j) h.noidle

theorem winv_preempt {B q m : Int} {s : State} {j : Nat} {rq : List Nat} (h : WInv B s)
    (hq : 0 < q) (hrq : s.rq = j :: rq) (hlt : q < rembAt s.remb j) :
    WInv B (preempt_step q m s j rq) := by
  have hjm : j ∈ s.jq ++ s.rq := List.mem_append_right _ (by rw [hrq]; simp)
  have hj := h.core.1 j hjm
  have htime := h.time
  have hp := preempt_step_perm (q := q) (m := m) hrq
  have hlen : (preempt_step q m s j rq).processes.length = s.processes.length :=
    dispatch_length m s j rq
  refine ⟨(core_preempt h.core hq hrq hlt).1, ?_, ?_, ?_, ?_, ?_, ?_, ?_⟩
  · show (s.remb.set j (rembAt s.remb j - q)).length = (dispatch m s j rq).processes.length
    rw [List.length_set, dispatch_length]; exact h.len
  · show 0 ≤ s.curr_time + q
    omega
  · intro x hx
    rw [(arrival_of_frame (preempt_step_frame q m s j rq) x).1]
    exact h.arr x (by rwa [hlen] at hx)
  · show s.curr_time + q + (s.remb.set j (rembAt s.remb j - q)).sum = B
    rw [sum_set _ _ _ hj.1]
    have := h.work
    omega
  · intro x hx hnot
    rw [hlen] at hx
    have hx' : x ∉ s.jq ++ s.rq := fun hm => hnot (hp.mem_iff.mpr hm)
    have hjx : j ≠ x := fun e => hx' (e ▸ hjm)
    have := h.fin x hx hx'
    show rembAt (s.remb.set j (rembAt s.remb j - q)) x = 0 ∧
      (procAt (dispatch m s j rq).processes x).finish_time ≤ s.curr_time + q
    rw [rembAt_set_ne hjx, dispatch_procAt_ne hjx]
    exact ⟨this.1, by omega⟩
  · intro _ hr
    exact absurd hr (preempt_step_rq_ne_nil q m s j rq)
  · show (-1 : Int) ∉ append_seq m s.seq (j : Int)
    exact append_seq_no_idle (nat_cast_ne_neg_one j) h.noidle

theorem winv_fast_forward {B q m : Int} {s : State} (h : WInv B s) (hq : 0 < q)
    (hne : s.rq ≠ []) : WInv B (fast_forward q m s) := by
  have hc := (core_fast_forward (m := m) h.core hq).1
  have ht := fast_forward_time (m := m) h.core hq
  have htime := h.time
  have hwork := h.work
  rcases fast_forward_cases q m s with e | ⟨_, _, n, _, ⟨p, hp, e⟩ | ⟨_, _, _, e⟩⟩
  · rw [e]; exact h
  · rw [e] at hc ht ⊢
    have hpm : p ∈ s.rq := by rw [hp]; simp
    have hpl := (h.core.1 p (List.mem_append_right _ hpm)).1
    refine ⟨hc, ?_, by omega, h.arr, ?_, ?_, fun _ hr => absurd hr hne, ?_⟩
    · show (s.remb.set p _).length = s.processes.length
      rw [List.length_set]; exact h.len
    · show s.curr_time + n * q + (s.remb.set p (rembAt s.remb p - n * q)).sum = B
      rw [sum_set _ _ _ hpl]
      linarith
    · intro x hx hnot
      have := h.fin x hx hnot
      have hpx : p ≠ x := fun e' => hnot (List.mem_append_right _ (e' ▸ hpm))
      show rembAt (s.remb.set p (rembAt s.remb p - n * q)) x = 0 ∧ _
      rw [rembAt_set_ne hpx]
      exact ⟨this.1, le_trans this.2 ht⟩
    · show (-1 : Int) ∉ append_seq m s.seq (p : Int)
      exact append_seq_no_idle (nat_cast_ne_neg_one p) h.noidle
  · rw [e] at hc ht ⊢
    refine ⟨hc, ?_, by omega, h.arr, ?_, ?_, fun _ hr => absurd hr hne, h.noidle⟩
    · show (dec_all s.remb s.rq _).length = s.processes.length
      rw [length_dec_all]; exact h.len
    · show s.curr_time + n * (s.rq.length : Int) * q + (dec_all s.remb s.rq (n * q)).sum = B
      rw [sum_dec_all _ _ _ (List.Nodup.of_append_right h.core.2)
        (fun x hx => (h.core.1 x (List.mem_append_right _ hx)).1)]
      linarith
    · intro x hx hnot
      have := h.fin x hx hnot
      show rembAt (dec_all s.remb s.rq (n * q)) x = 0 ∧ _
      rw [rembAt_dec_all_not_mem s.rq (n * q) x
        (fun hm => hnot (List.mem_append_right _ hm)) s.remb]
      exact ⟨this.1, le_trans this.2 ht⟩

theorem winv_init (ps : List Process) (ha : ∀ p ∈ ps, p.arrival = 0 ∧ 0 ≤ p.burst) :
    WInv (ps.map (·.burst)).sum (init_state ps) := by
  refine ⟨core_init ps (fun p hp => (ha p hp).2), by simp [init_state], le_refl _,
    fun i hi => (ha _ (procAt_mem hi)).1, ?_, ?_, ?_, ?_⟩
  · show (0 : Int) + (ps.map (·.burst)).sum = _
    omega
  · intro x hx hnot
    exact absurd (List.mem_append_left _ (List.mem_range.mpr hx)) hnot
  · intro hjq _ hn
    have hjq' : List.range ps.length = [] := hjq
    have hn' : 0 < ps.length := hn
    rw [List.range_eq_nil] at hjq'
    omega
  · show (-1 : Int) ∉ ([] : List Int)
    simp

/-- What a run leaves when every process arrives at time 0: no idle marker in
the sequence, no finish time after the sum `B` of the bursts, and one finish
time equal to it. -/
theorem run_no_idle {q m : Int} (hq : 0 < q) (B : Int) (n : Nat) :
    ∀ (fuel : Nat) (s r : State),
      (WInv B s ∧ TimeOK s ∧ s.processes.length = n) → run true q m fuel s = some r →
      r.processes.length = n ∧
      (∀ i, i < n → (procAt r.processes i).finish_time ≤ B) ∧
      (0 < n → ∃ i, i < n ∧ (procAt r.processes i).finish_time = B) ∧
      (-1 : Int) ∉ r.seq := by
  apply run_rule_pre
  · rintro s ⟨h, _, hn⟩ hrq hjq
    have hz : ∀ i, i < s.processes.length →
        rembAt s.remb i = 0 ∧ (procAt s.processes i).finish_time ≤ s.curr_time :=
      fun i hi => h.fin i hi (by rw [hrq, hjq]; simp)
    have hsum : s.remb.sum = 0 :=
      sum_eq_zero_of_rembAt _ (fun i hi => (hz i (h.len ▸ hi)).1)
    have ht : s.curr_time = B := by have := h.work; omega
    refine ⟨hn, fun i hi => ht ▸ (hz i (hn ▸ hi)).2, fun h0 => ?_, h.noidle⟩
    obtain ⟨i, hi, e⟩ := h.last hjq hrq (hn ▸ h0)
    exact ⟨i, hn ▸ hi, e.trans ht⟩
  · rintro s i jq ⟨h, ht, hn⟩ hrq hjq
    exact ⟨winv_idle h ht hrq hjq, timeOK_iter (o := true) (q := q) s _ ht (iter_idle hrq hjq), hn⟩
  · rintro s j rq ⟨h, ht, hn⟩ hrq hle
    exact ⟨winv_finish h hrq, timeOK_iter (o := true) s _ ht (iter_finish hrq hle),
      (finish_step_length m s j rq).trans hn⟩
  · intro h; cases h
  · rintro s j rq ⟨h, _, hn⟩ hrq hlt hl hjq
    have h1 := winv_preempt (m := m) h hq hrq hlt
    obtain ⟨a, ha⟩ := List.length_eq_one.mp hl
    have ham : a ∈ (preempt_step q m s j rq).jq ++ (preempt_step q m s j rq).rq := by
      rw [ha]; simp
    have hac := h1.core.1 a ham
    have hlen : (preempt_step q m s j rq).processes.length = n :=
      (dispatch_length m s j rq).trans hn
    have hal : a < (preempt_step q m s j rq).processes.length := h1.len ▸ hac.1
    have hz : ∀ i, i < (preempt_step q m s j rq).processes.length → i ≠ a →
        rembAt (preempt_step q m s j rq).remb i = 0 ∧
        (procAt (preempt_step q m s j rq).processes i).finish_time
          ≤ (preempt_step q m s j rq).curr_time :=
      fun i hi hia => h1.fin i hi (by rw [ha, hjq]; simpa using hia)
    have hsum := sum_eq_rembAt _ a hac.1 (fun i hi hia => (hz i (h1.len ▸ hi) hia).1)
    have hB : (preempt_step q m s j rq).curr_time + rembAt (preempt_step q m s j rq).remb a = B := by
      have := h1.work; omega
    have e_ps : (last_job m (preempt_step q m s j rq)).processes =
        setFinish (preempt_step q m s j rq).processes a
          ((preempt_step q m s j rq).curr_time + rembAt (preempt_step q m s j rq).remb a) := by
      simp [last_job, ha]
    have e_seq : (last_job m (preempt_step q m s j rq)).seq =
        append_seq m (preempt_step q m s j rq).seq (a : Int) := by
      simp [last_job, ha]
    refine ⟨by rw [e_ps, length_setFinish]; exact hlen, fun i hi => ?_, fun _ => ⟨a, hlen ▸ hal, ?_⟩, ?_⟩
    · by_cases hia : a = i
      · subst hia
        rw [e_ps, procAt_setFinish_self hal, hB]
      · rw [e_ps, procAt_setFinish_ne hia]
        have := (hz i (hlen ▸ hi) (Ne.symm hia)).2
        omega
    · rw [e_ps, procAt_setFinish_self hal, hB]
    · rw [e_seq]
      exact append_seq_no_idle (nat_cast_ne_neg_one a) h1.noidle
  · rintro _ s j rq ⟨h, ht, hn⟩ hrq hlt hl
    have h1 := winv_preempt (m := m) h hq hrq hlt
    exact ⟨winv_fast_forward h1 hq (preempt_step_rq_ne_nil q m s j rq),
      timeOK_iter s _ ht (iter_pre_opt hrq (by omega) hl),
      by rw [fast_forward_processes]; exact (dispatch_length m s j rq).trans hn⟩

/-! ## The reading loop of `run_sched`, line by line -/

theorem split_snoc_space (l : List Char) (c : Char) (hc : isspace c = true) :
    split (l ++ [c]) = split l := by
  unfold split
  simp only [List.append_assoc, List.foldl_append]
  generalize List.foldl split_step ([], false, []) l = st
  have hs : isspace (Char.ofNat 32) = true := by decide
  simp [split_step, hc, hs]

theorem lines_of_cons_ne {c : Char} (cs : List Char) (h : ¬ c = Char.ofNat 10) :
    lines_of (c :: cs) =
      match lines_of cs with
      | [] => [[c]]
      | l :: ls => (c :: l) :: ls := by
  simp [lines_of, h]

theorem stdin_readline_cons_ne {c : Char} (cs : List Char) (h : ¬ c = Char.ofNat 10) :
    stdin_readline (c :: cs) = (c :: (stdin_readline cs).1, (stdin_readline cs).2) := by
  simp [stdin_readline, h]

/-- What `stdin_readline` reads from a non-empty input is the first line of
the text, with or without its newline, and leaves the other lines unread. -/
theorem stdin_readline_lines (c : Char) (cs : List Char) :
    ∃ l, lines_of (c :: cs) = l :: lines_of (stdin_readline (c :: cs)).2 ∧
      ((stdin_readline (c :: cs)).1 = l ∨ (stdin_readline (c :: cs)).1 = l ++ [Char.ofNat 10]) ∧
      (stdin_readline (c :: cs)).1 ≠ [] ∧
      (stdin_readline (c :: cs)).2.length ≤ cs.length := by
  induction cs generalizing c with
  | nil =>
    by_cases h : c = Char.ofNat 10
    · exact ⟨[], by simp [lines_of, stdin_readline, h]⟩
    · exact ⟨[c], by simp [lines_of, stdin_readline, h]⟩
  | cons d cs ih =>
    by_cases h : c = Char.ofNat 10
    · exact ⟨[], by simp [lines_of, stdin_readline, h]⟩
    · obtain ⟨l, h1, h2, _, h4⟩ := ih d
      refine ⟨c :: l, ?_, ?_, ?_, ?_⟩
      · rw [lines_of_cons_ne _ h, h1, stdin_readline_cons_ne _ h]
      · rw [stdin_readline_cons_ne _ h]
        rcases h2 with e | e
        · left; rw [e]
        · right; rw [e]; rfl
      · rw [stdin_readline_cons_ne _ h]; simp
      · rw [stdin_readline_cons_ne _ h]
        exact Nat.le_succ_of_le h4

theorem read_processes_eq :
    ∀ (fuel : Nat) (stdin : List Char) (k : Nat) (ps : List Process), stdin.length < fuel →
      read_processes fuel stdin k ps = some (read_lines (lines_of stdin) k ps) := by
  intro fuel
  induction fuel with
  | zero => intro stdin k ps h; omega
  | succ f ih =>
    intro stdin k ps h
    cases stdin with
    | nil => simp [read_processes, stdin_readline, lines_of, read_lines]
    | cons c cs =>
      obtain ⟨l, h1, h2, h3, h4⟩ := stdin_readline_lines c cs
      have hs : split (stdin_readline (c :: cs)).1 = split l := by
        rcases h2 with e | e
        · rw [e]
        · rw [e]; exact split_snoc_space l _ (by decide)
      have hlen : (stdin_readline (c :: cs)).2.length < f := by
        simp only [List.length_cons] at h
        omega
      rw [read_processes, if_neg h3, hs, h1, read_lines]
      by_cases hb : split l = []
      · rw [if_pos hb, if_pos hb]
        exact ih _ _ _ hlen
      · rw [if_neg hb, if_neg hb]
        cases parse_line (split l) ps.length with
        | none => rfl
        | some p => exact ih _ _ _ hlen

theorem run_sched_eq (q m : Int) (stdin : List Char) :
    run_sched q m stdin =
      some (match read_lines (lines_of stdin) 0 [] with
        | .error k => .line_error k
        | .ok ps => .simulate q m ps [-2, 1000000, 5000]) := by
  unfold run_sched
  rw [read_processes_eq _ stdin 0 [] (Nat.lt_succ_self _)]
  cases read_lines (lines_of stdin) 0 [] <;> rfl

theorem parse_line_of_record {l : List Char} {r : Int × Int} (h : RecordOf l r) (n : Nat) :
    parse_line (split l) n = some (mkProc n r.1 r.2) := by
  obtain ⟨t0, t1, e, h0, h1⟩ := h
  simp [parse_line, e, h0, h1, mkProc, new_process]

theorem record_of_parse_line {l : List Char} {n : Nat} {p : Process}
    (h : parse_line (split l) n = some p) :
    ∃ r, RecordOf l r ∧ p = mkProc n r.1 r.2 := by
  unfold parse_line at h
  split at h
  · rename_i t0 t1 e
    cases h0 : stoll t0 with
    | none => simp [h0] at h
    | some a =>
      cases h1 : stoll t1 with
      | none => simp [h0, h1] at h
      | some b =>
        simp only [h0, h1, Option.some.injEq] at h
        exact ⟨(a, b), ⟨t0, t1, e, h0, h1⟩, h.symm⟩
  · cases h

/-- Lines that all hold a record, or no token at all, are read without error,
one process for each record. -/
theorem read_lines_ok :
    ∀ (ls : List (List Char)) (k : Nat) (ps : List Process) (recs : List (Int × Int)),
      List.Forall₂ RecordOf (ls.filter fun l => decide (split l ≠ [])) recs →
      read_lines ls k ps = .ok (ps ++ processes_from ps.length recs) := by
  intro ls
  induction ls with
  | nil =>
    intro k ps recs h
    cases h
    simp [read_lines, processes_from]
  | cons l ls ih =>
    intro k ps recs h
    by_cases hb : split l = []
    · rw [read_lines, if_pos hb]
      rw [List.filter_cons_of_neg (by simpa using hb)] at h
      exact ih _ _ _ h
    · rw [List.filter_cons_of_pos (by simpa using hb)] at h
      cases h with
      | cons hr hrest =>
        rename_i r rs
        rw [read_lines, if_neg hb, parse_line_of_record hr]
        show read_lines ls (k + 1) (ps ++ [mkProc ps.length r.1 r.2]) = _
        rw [ih _ _ _ hrest]
        simp [processes_from]

/-- The processes read without error are those of the records of the lines. -/
theorem read_lines_ok_inv :
    ∀ (ls : List (List Char)) (k : Nat) (ps ps' : List Process),
      read_lines ls k ps = .ok ps' →
      ∃ recs, List.Forall₂ RecordOf (ls.filter fun l => decide (split l ≠ [])) recs ∧
        ps' = ps ++ processes_from ps.length recs := by
  intro ls
  induction ls with
  | nil =>
    intro k ps ps' h
    simp only [read_lines, Input.ok.injEq] at h
    exact ⟨[], by simp, by simp [processes_from, h]⟩
  | cons l ls ih =>
    intro k ps ps' h
    by_cases hb : split l = []
    · rw [read_lines, if_pos hb] at h
      rw [List.filter_cons_of_neg (by simpa using hb)]
      exact ih _ _ _ h
    · rw [read_lines, if_neg hb] at h
      rw [List.filter_cons_of_pos (by simpa using hb)]
      cases hp : parse_line (split l) ps.length with
      | none => rw [hp] at h; cases h
      | some p =>
        rw [hp] at h
        obtain ⟨r, hr, rfl⟩ := record_of_parse_line hp
        obtain ⟨recs, h1, h2⟩ := ih _ _ _ h
        refine ⟨r :: recs, List.Forall₂.cons hr h1, ?_⟩
        rw [h2]
        simp [processes_from]

/-- An error is reported only on a line that has a token and holds no
record; `k` is the number of that line. -/
theorem read_lines_error :
    ∀ (ls : List (List Char)) (k0 : Nat) (ps : List Process) (k : Nat),
      read_lines ls k0 ps = .error k →
      k0 < k ∧ ∃ l, ls[k - k0 - 1]? = some l ∧ split l ≠ [] ∧ ∀ r, ¬ RecordOf l r := by
  intro ls
  induction ls with
  | nil => intro k0 ps k h; simp [read_lines] at h
  | cons l ls ih =>
    intro k0 ps k h
    have step : ∀ ps1, read_lines ls (k0 + 1) ps1 = .error k →
        k0 < k ∧ ∃ l', (l :: ls)[k - k0 - 1]? = some l' ∧ split l' ≠ [] ∧
          ∀ r, ¬ RecordOf l' r := by
      intro ps1 h1
      obtain ⟨hk, l', e, h2⟩ := ih _ _ _ h1
      refine ⟨by omega, l', ?_, h2⟩
      have : k - k0 - 1 = (k - (k0 + 1) - 1) + 1 := by omega
      rw [this, List.getElem?_cons_succ]
      exact e
    by_cases hb : split l = []
    · rw [read_lines, if_pos hb] at h
      exact step _ h
    · rw [read_lines, if_neg hb] at h
      cases hp : parse_line (split l) ps.length with
      | none =>
        rw [hp] at h
        simp only [Input.error.injEq] at h
        subst h
        refine ⟨by omega, l, by simp, hb, fun r hr => ?_⟩
        rw [parse_line_of_record hr] at hp
        cases hp
      | some p =>
        rw [hp] at h
        exact step _ h

/-! # The contract of `simulate_rr` -/

/-- After line 40 the first loop top does not depend on the caller's `seq`. -/
theorem simulate_rr_eq (fuel : Nat) (q m : Int) (ps : List Process) (seq0 : List Int) :
    simulate_rr fuel q m ps seq0 =
      (run true q m fuel (init_state ps)).map fun s => ⟨s.processes, s.seq⟩ := rfl

theorem simulate_rr_ref_eq (fuel : Nat) (q m : Int) (ps : List Process) (seq0 : List Int) :
    simulate_rr_ref fuel q m ps seq0 =
      (run false q m fuel (init_state ps)).map fun s => ⟨s.processes, s.seq⟩ := rfl

theorem returns_of_run {q m : Int} {ps : List Process} {seq0 : List Int} {fuel : Nat} {s : State}
    (h : run true q m fuel (init_state ps) = some s) :
    Returns q m ps seq0 ⟨s.processes, s.seq⟩ :=
  ⟨fuel, by rw [simulate_rr_eq, h]; rfl⟩

theorem run_of_returns {q m : Int} {ps : List Process} {seq0 : List Int} {r : Result}
    (h : Returns q m ps seq0 r) :
    ∃ fuel s, run true q m fuel (init_state ps) = some s ∧ r = ⟨s.processes, s.seq⟩ := by
  obtain ⟨fuel, h⟩ := h
  rw [simulate_rr_eq] at h
  cases hr : run true q m fuel (init_state ps) with
  | none => simp [hr] at h
  | some s =>
    rw [hr] at h
    exact ⟨fuel, s, hr, (Option.some.inj h).symm⟩

/-- `simulate_rr` has at most one result. -/
theorem returns_unique {q m : Int} {ps : List Process} {seq0 : List Int} {r1 r2 : Result}
    (h1 : Returns q m ps seq0 r1) (h2 : Returns q m ps seq0 r2) : r1 = r2 := by
  obtain ⟨f1, s1, e1, rfl⟩ := run_of_returns h1
  obtain ⟨f2, s2, e2, rfl⟩ := run_of_returns h2
  rw [run_unique e1 e2]

/-- With a positive quantum and non-negative bursts `simulate_rr` returns. -/
theorem returns_exists (q m : Int) (ps : List Process) (seq0 : List Int) (hq : 0 < q)
    (hb : ∀ p ∈ ps, 0 ≤ p.burst) : ∃ r, Returns q m ps seq0 r := by
  obtain ⟨s, hs⟩ := run_terminates (o := true) (m := m) hq (init_state ps) (core_init ps hb)
  exact ⟨_, returns_of_run hs⟩

/-- C2: with `quantum > 0`, `max_seq_len > 0` and non-negative bursts,
`simulate_rr` returns, and the returned `seq` has at most `max_seq_len` entries
and no two adjacent entries equal. (The non-negative arrivals of the
input contract are not needed.) -/
theorem simulate_rr_seq_bounded (q m : Int) (ps : List Process) (seq0 : List Int)
    (hq : 0 < q) (hm : 0 < m) (hb : ∀ p ∈ ps, 0 ≤ p.burst) :
    (∃ r, Returns q m ps seq0 r) ∧
    ∀ r, Returns q m ps seq0 r → (r.seq.length : Int) ≤ m ∧ r.seq.Chain' (· ≠ ·) := by
  refine ⟨returns_exists q m ps seq0 hq hb, ?_⟩
  intro r hr
  obtain ⟨fuel, s, hs, rfl⟩ := run_of_returns hr
  exact run_seq_ok fuel _ s ⟨by simp [init_state]; omega, List.chain'_nil⟩ hs

theorem simulate_rr_seq_bounded_witness :
    (∃ r, Returns 1 3 [mkProc 0 0 10, mkProc 1 0 10] [] r) ∧
    ∀ r, Returns 1 3 [mkProc 0 0 10, mkProc 1 0 10] [] r →
      (r.seq.length : Int) ≤ 3 ∧ r.seq.Chain' (· ≠ ·) :=
  simulate_rr_seq_bounded 1 3 [mkProc 0 0 10, mkProc 1 0 10] [] (by decide) (by decide)
    (by decide)

/-- C7: for every process list with non-negative bursts and every
`quantum > 0`, the main loop of `simulate_rr` terminates: with
`measure (init_state ps) + 1` units of fuel the embedded loop reaches a `break`,
and in the state it ends in both the job queue and the ready queue are empty.
(`max_seq_len > 0` and non-negative arrivals, also part of the input contract,
are not needed.) -/
theorem simulate_rr_terminates (q m : Int) (ps : List Process) (hq : 0 < q)
    (hb : ∀ p ∈ ps, 0 ≤ p.burst) :
    ∃ s, run true q m (measure (init_state ps) + 1) (init_state ps) = some s ∧
      s.jq = [] ∧ s.rq = [] := by
  obtain ⟨s, hs⟩ := run_terminates (o := true) (m := m) hq (init_state ps) (core_init ps hb)
  refine ⟨s, hs, ?_⟩
  refine run_rule (o := true) (q := q) (m := m) (fun _ => True) (fun s => s.jq = [] ∧ s.rq = [])
    ?_ ?_ ?_ ?_ ?_ ?_ _ _ s trivial hs
  · intro s _ h1 h2; exact ⟨h2, h1⟩
  · intros; trivial
  · intros; trivial
  · intros; trivial
  · intro s _ h1 h2
    obtain ⟨p, hp⟩ := List.length_eq_one.mp h1
    exact ⟨h2, by simp [last_job, hp]⟩
  · intros; trivial

theorem simulate_rr_terminates_witness :
    ∃ s, run true 2 10 (measure (init_state [mkProc 0 5 3]) + 1) (init_state [mkProc 0 5 3])
        = some s ∧ s.jq = [] ∧ s.rq = [] :=
  simulate_rr_terminates 2 10 [mkProc 0 5 3] (by decide) (by decide)

/-- A returned list has the protected fields of the input list. -/
theorem returns_frame {q m : Int} {ps : List Process} {seq0 : List Int} {r : Result}
    (hr : Returns q m ps seq0 r) : r.processes.map frame = ps.map frame := by
  obtain ⟨fuel, s, hs, rfl⟩ := run_of_returns hr
  exact run_frame (ps.map frame) fuel _ s rfl hs

/-- C8: `simulate_rr` changes only `start_time` and `finish_time`. Whenever it
returns, the returned list has the length of the input list and every process
has its `id`, `arrival` and `burst` unchanged; and it does return when the
quantum is positive and the bursts are non-negative. -/
theorem simulate_rr_frame (q m : Int) (ps : List Process) (seq0 : List Int) :
    (0 < q → (∀ p ∈ ps, 0 ≤ p.burst) → ∃ r, Returns q m ps seq0 r) ∧
    ∀ r, Returns q m ps seq0 r →
      r.processes.length = ps.length ∧
      ∀ i, (procAt r.processes i).id = (procAt ps i).id ∧
        (procAt r.processes i).arrival = (procAt ps i).arrival ∧
        (procAt r.processes i).burst = (procAt ps i).burst := by
  refine ⟨returns_exists q m ps seq0, ?_⟩
  intro r hr
  have h := returns_frame hr
  refine ⟨by simpa using congrArg List.length h, fun i => ?_⟩
  have := arrival_of_frame h i
  exact ⟨this.2.2, this.1, this.2.1⟩

theorem simulate_rr_frame_witness :
    (∃ r, Returns 2 10 [mkProc 0 5 3] [] r) ∧
    ∀ r, Returns 2 10 [mkProc 0 5 3] [] r →
      r.processes.length = [mkProc 0 5 3].length ∧
      ∀ i, (procAt r.processes i).id = (procAt [mkProc 0 5 3] i).id ∧
        (procAt r.processes i).arrival = (procAt [mkProc 0 5 3] i).arrival ∧
        (procAt r.processes i).burst = (procAt [mkProc 0 5 3] i).burst :=
  ⟨(simulate_rr_frame 2 10 [mkProc 0 5 3] []).1 (by decide) (by decide),
   (simulate_rr_frame 2 10 [mkProc 0 5 3] []).2⟩

/-- Every process of a returned list is complete. -/
theorem returns_all_done {q m : Int} {ps : List Process} {seq0 : List Int} {r : Result}
    (hq : 0 < q) (hv : ValidInput ps) (hr : Returns q m ps seq0 r) :
    ∀ p ∈ r.processes, Done p := by
  obtain ⟨fuel, s, hs, rfl⟩ := run_of_returns hr
  have h := run_all_done (o := true) (m := m) hq ps.length fuel _ s ⟨inv_init ps hv, rfl⟩ hs
  intro p hp
  obtain ⟨i, hi, rfl⟩ := exists_procAt_of_mem hp
  exact h.2 i (h.1 ▸ hi)

/-- C4: for every valid input (`quantum > 0`, non-negative arrivals and bursts,
both timestamps initially `-1`) `simulate_rr` returns, and in the returned list
no process has `start_time` or `finish_time` still at the unset value `-1`;
this covers the process completed by the "only one job left" exit and the
processes that fast-forward brought to a remaining burst of 0. -/
theorem simulate_rr_populated (q m : Int) (ps : List Process) (seq0 : List Int)
    (hq : 0 < q) (hv : ValidInput ps) :
    (∃ r, Returns q m ps seq0 r) ∧
    ∀ r, Returns q m ps seq0 r → r.processes.length = ps.length ∧
      ∀ p ∈ r.processes, p.start_time ≠ -1 ∧ p.finish_time ≠ -1 := by
  refine ⟨returns_exists q m ps seq0 hq (fun p hp => (hv p hp).2.1), ?_⟩
  intro r hr
  refine ⟨by simpa using congrArg List.length (returns_frame hr), fun p hp => ?_⟩
  have h := returns_all_done hq hv hr p hp
  exact ⟨h.1, h.2.1⟩

theorem simulate_rr_populated_witness :
    (∃ r, Returns 2 10 [mkProc 0 0 8, mkProc 1 30 1] [] r) ∧
    ∀ r, Returns 2 10 [mkProc 0 0 8, mkProc 1 30 1] [] r →
      r.processes.length = [mkProc 0 0 8, mkProc 1 30 1].length ∧
      ∀ p ∈ r.processes, p.start_time ≠ -1 ∧ p.finish_time ≠ -1 :=
  simulate_rr_populated 2 10 [mkProc 0 0 8, mkProc 1 30 1] [] (by decide) (by decide)

/-- C9, idle gap with a single process: for a list of exactly one process with
arrival `a` and burst `b`, and every `max_seq_len ≥ 2`, `simulate_rr` returns
exactly one result: `start_time = a`, `finish_time = a + b`, and
`seq = [-1, 0]` when `a > 0`, `seq = [0]` otherwise. (The input contract has
`a ≥ 0`, `b ≥ 0` and `quantum > 0`; the equation holds without them, and under
`a ≥ 0` the second case is `a = 0`.) -/
theorem simulate_rr_single (i a b q m : Int) (seq0 : List Int) (hm : 2 ≤ m) :
    Returns q m [⟨i, a, b, -1, -1⟩] seq0
      ⟨[⟨i, a, b, a, a + b⟩], if 0 < a then [-1, 0] else [0]⟩ ∧
    ∀ r, Returns q m [⟨i, a, b, -1, -1⟩] seq0 r →
      r = ⟨[⟨i, a, b, a, a + b⟩], if 0 < a then [-1, 0] else [0]⟩ := by
  have key : Returns q m [⟨i, a, b, -1, -1⟩] seq0
      ⟨[⟨i, a, b, a, a + b⟩], if 0 < a then [-1, 0] else [0]⟩ := by
    refine ⟨3, ?_⟩
    have h0 : ¬ (m ≤ 0) := by omega
    have h1 : ¬ (m ≤ 1) := by omega
    by_cases hpos : 0 < a <;> by_cases hle : b ≤ q <;>
      simp [simulate_rr, vector_clear, run, iter, init_state, idle_step, finish_step, finish_slice, dispatch,
        preempt_step, preempt_slice, last_job, move_arrived, append_seq, procAt, rembAt,
        setStart, setFinish, hpos, hle, h0, h1, List.range, List.range.loop]
  exact ⟨key, fun r hr => returns_unique hr key⟩

/-- Scenario A: one process with arrival 5 and burst 3, quantum 2, cap 10. -/
theorem simulate_rr_single_witness :
    Returns 2 10 [⟨0, 5, 3, -1, -1⟩] [] ⟨[⟨0, 5, 3, 5, 8⟩], [-1, 0]⟩ ∧
    ∀ r, Returns 2 10 [⟨0, 5, 3, -1, -1⟩] [] r → r = ⟨[⟨0, 5, 3, 5, 8⟩], [-1, 0]⟩ :=
  simulate_rr_single 0 5 3 2 10 [] (by decide)

/-- The result of Scenario C on the code: two processes with arrival 0 and
burst 10, quantum 1, cap 3. -/
theorem scenario_c_run :
    simulate_rr 10 1 3 [mkProc 0 0 10, mkProc 1 0 10] [] =
      some ⟨[⟨0, 0, 10, 0, 19⟩, ⟨1, 0, 10, 1, 20⟩], [0, 1, 0]⟩ := by
  decide

/-- C10 as stated fails: in Scenario C no result of `simulate_rr` has
`finish_time` 10 for process 0 and 20 for process 1. -/
theorem scenario_c_not_10_20 :
    ¬ ∃ r, Returns 1 3 [mkProc 0 0 10, mkProc 1 0 10] [] r ∧ r.seq = [0, 1, 0] ∧
      (procAt r.processes 0).finish_time = 10 ∧ (procAt r.processes 1).finish_time = 20 := by
  rintro ⟨r, hr, _, h10, _⟩
  have := returns_unique hr ⟨10, scenario_c_run⟩
  subst this
  revert h10
  decide

/-- C10, amended: in Scenario C (two processes with arrival 0 and burst 10,
quantum 1, cap 3) `simulate_rr` returns a `seq` of exactly 3 entries,
`[0, 1, 0]`, and the finish times are 19 for process 0 and 20 for process 1;
the start times are 0 and 1. -/
theorem scenario_c_result :
    Returns 1 3 [mkProc 0 0 10, mkProc 1 0 10] []
      ⟨[⟨0, 0, 10, 0, 19⟩, ⟨1, 0, 10, 1, 20⟩], [0, 1, 0]⟩ :=
  ⟨10, by decide⟩

/-- C5: when the quantum is at least every burst, `simulate_rr` gives the
first-come-first-served schedule in list order. For every valid input
(`quantum > 0`, non-negative arrivals and bursts, timestamps initially `-1`)
with `burst ≤ quantum` for every process, `simulate_rr` returns, and in every
result `start_time[0] = arrival[0]`, `start_time[i] = max(arrival[i],
finish_time[i-1])` for `i > 0`, `finish_time[i] = start_time[i] + burst[i]`,
and `seq` without the idle markers `-1` is a prefix of `[0, 1, ..., n-1]`.
List order is arrival-then-id order when the list is sorted by arrival; the
equations hold for every list order. Scenario B (cap at
least 3) and Scenario D (cap at least 2) are the second and third parts. -/
theorem simulate_rr_fcfs :
    (∀ (q m : Int) (ps : List Process) (seq0 : List Int), 0 < q → ValidInput ps →
      (∀ p ∈ ps, p.burst ≤ q) →
      (∃ r, Returns q m ps seq0 r) ∧
      ∀ r, Returns q m ps seq0 r →
        r.processes.length = ps.length ∧
        (∀ i, i < ps.length →
          (procAt r.processes i).start_time =
            (if i = 0 then (procAt ps 0).arrival
             else max (procAt ps i).arrival (procAt r.processes (i - 1)).finish_time) ∧
          (procAt r.processes i).finish_time =
            (procAt r.processes i).start_time + (procAt ps i).burst) ∧
        r.seq.filter (fun x => x != -1) <+: (List.range ps.length).map Int.ofNat) ∧
    (∀ m : Int, 3 ≤ m →
      Returns 100 m [mkProc 0 0 3, mkProc 1 1 4, mkProc 2 5 2] []
        ⟨[⟨0, 0, 3, 0, 3⟩, ⟨1, 1, 4, 3, 7⟩, ⟨2, 5, 2, 7, 9⟩], [0, 1, 2]⟩) ∧
    (∀ m : Int, 2 ≤ m →
      Returns 2 m [mkProc 0 0 2, mkProc 1 2 2] []
        ⟨[⟨0, 0, 2, 0, 2⟩, ⟨1, 2, 2, 2, 4⟩], [0, 1]⟩) := by
  refine ⟨?_, ?_, ?_⟩
  · intro q m ps seq0 hq hv hb
    refine ⟨returns_exists q m ps seq0 hq (fun p hp => (hv p hp).2.1), ?_⟩
    intro r hr
    have hfr := arrival_of_frame (returns_frame hr)
    obtain ⟨fuel, s, hs, rfl⟩ := run_of_returns hr
    have h := run_fcfs (o := true) (q := q) (m := m) ps.length fuel _ s
      ⟨rfl, 0, finv_init ps hv hb⟩ hs
    refine ⟨h.1, fun i hi => ?_, h.2.2⟩
    have hf := h.2.1 i hi
    unfold FcfsAt fcfs_free at hf
    rw [(hfr i).1, (hfr i).2.1] at hf
    refine ⟨?_, hf.2⟩
    rw [hf.1]
    by_cases hi0 : i = 0
    · subst hi0
      have := (hv _ (procAt_mem hi)).1
      simp only [if_true]
      omega
    · simp only [hi0, if_false]
  · intro m hm
    refine ⟨5, ?_⟩
    have h0 : ¬ (m ≤ 0) := by omega
    have h1 : ¬ (m ≤ 1) := by omega
    have h2 : ¬ (m ≤ 2) := by omega
    simp [simulate_rr, vector_clear, run, iter, init_state, idle_step, finish_step, finish_slice, dispatch,
      move_arrived, append_seq, procAt, rembAt, setStart, setFinish, mkProc, h0, h1, h2,
      List.range, List.range.loop]
  · intro m hm
    refine ⟨4, ?_⟩
    have h0 : ¬ (m ≤ 0) := by omega
    have h1 : ¬ (m ≤ 1) := by omega
    simp [simulate_rr, vector_clear, run, iter, init_state, idle_step, finish_step, finish_slice, dispatch,
      move_arrived, append_seq, procAt, rembAt, setStart, setFinish, mkProc, h0, h1,
      List.range, List.range.loop]

/-- Scenario B as an instance of the general statement. -/
theorem simulate_rr_fcfs_witness :
    (∃ r, Returns 100 10 [mkProc 0 0 3, mkProc 1 1 4, mkProc 2 5 2] [] r) ∧
    ∀ r, Returns 100 10 [mkProc 0 0 3, mkProc 1 1 4, mkProc 2 5 2] [] r →
      r.processes.length = [mkProc 0 0 3, mkProc 1 1 4, mkProc 2 5 2].length ∧
      (∀ i, i < [mkProc 0 0 3, mkProc 1 1 4, mkProc 2 5 2].length →
        (procAt r.processes i).start_time =
          (if i = 0 then (procAt [mkProc 0 0 3, mkProc 1 1 4, mkProc 2 5 2] 0).arrival
           else max (procAt [mkProc 0 0 3, mkProc 1 1 4, mkProc 2 5 2] i).arrival
             (procAt r.processes (i - 1)).finish_time) ∧
        (procAt r.processes i).finish_time =
          (procAt r.processes i).start_time
            + (procAt [mkProc 0 0 3, mkProc 1 1 4, mkProc 2 5 2] i).burst) ∧
      r.seq.filter (fun x => x != -1) <+:
        (List.range [mkProc 0 0 3, mkProc 1 1 4, mkProc 2 5 2].length).map Int.ofNat :=
  simulate_rr_fcfs.1 100 10 [mkProc 0 0 3, mkProc 1 1 4, mkProc 2 5 2] [] (by decide)
    (by decide) (by decide)

theorem returnsRef_of_run {q m : Int} {ps : List Process} {seq0 : List Int} {fuel : Nat}
    {s : State} (h : run false q m fuel (init_state ps) = some s) :
    ReturnsRef q m ps seq0 ⟨s.processes, s.seq⟩ :=
  ⟨fuel, by rw [simulate_rr_ref_eq, h]; rfl⟩

theorem run_of_returnsRef {q m : Int} {ps : List Process} {seq0 : List Int} {r : Result}
    (h : ReturnsRef q m ps seq0 r) :
    ∃ fuel s, run false q m fuel (init_state ps) = some s ∧ r = ⟨s.processes, s.seq⟩ := by
  obtain ⟨fuel, h⟩ := h
  rw [simulate_rr_ref_eq] at h
  cases hr : run false q m fuel (init_state ps) with
  | none => simp [hr] at h
  | some s =>
    rw [hr] at h
    exact ⟨fuel, s, hr, (Option.some.inj h).symm⟩

/-- The reference simulation has at most one result. -/
theorem returnsRef_unique {q m : Int} {ps : List Process} {seq0 : List Int} {r1 r2 : Result}
    (h1 : ReturnsRef q m ps seq0 r1) (h2 : ReturnsRef q m ps seq0 r2) : r1 = r2 := by
  obtain ⟨f1, s1, e1, rfl⟩ := run_of_returnsRef h1
  obtain ⟨f2, s2, e2, rfl⟩ := run_of_returnsRef h2
  rw [run_unique e1 e2]

/-- Every result of `simulate_rr` is the result of the reference simulation. -/
theorem returnsRef_of_returns {q m : Int} {ps : List Process} {seq0 : List Int} {r : Result}
    (hq : 0 < q) (hb : ∀ p ∈ ps, 0 ≤ p.burst) (h : Returns q m ps seq0 r) :
    ReturnsRef q m ps seq0 r := by
  obtain ⟨fuel, s, hs, rfl⟩ := run_of_returns h
  obtain ⟨f, hf⟩ := sim_run hq fuel _ _ s (core_init ps hb) (Or.inl rfl) hs
  exact returnsRef_of_run hf

/-- C3: for every input with `quantum > 0` and non-negative bursts,
`simulate_rr` and the reference simulation (the fast-forward block disabled,
one quantum per loop pass) both return, and they return the same result: the
same process list, hence the same `start_time` and `finish_time` for every
process, and the same `seq`. (`max_seq_len > 0`, non-negative
arrivals and unset timestamps, also part of the input contract, are not
needed.) -/
theorem simulate_rr_eq_reference (q m : Int) (ps : List Process) (seq0 : List Int)
    (hq : 0 < q) (hb : ∀ p ∈ ps, 0 ≤ p.burst) :
    ∃ r, Returns q m ps seq0 r ∧ ReturnsRef q m ps seq0 r ∧
      (∀ r', Returns q m ps seq0 r' → r' = r) ∧
      (∀ r', ReturnsRef q m ps seq0 r' → r' = r) := by
  obtain ⟨r, hr⟩ := returns_exists q m ps seq0 hq hb
  have href := returnsRef_of_returns hq hb hr
  exact ⟨r, hr, href, fun r' h => returns_unique h hr, fun r' h => returnsRef_unique h href⟩

theorem simulate_rr_eq_reference_witness :
    ∃ r, Returns 1 3 [mkProc 0 0 10, mkProc 1 0 10] [] r ∧
      ReturnsRef 1 3 [mkProc 0 0 10, mkProc 1 0 10] [] r ∧
      (∀ r', Returns 1 3 [mkProc 0 0 10, mkProc 1 0 10] [] r' → r' = r) ∧
      (∀ r', ReturnsRef 1 3 [mkProc 0 0 10, mkProc 1 0 10] [] r' → r' = r) :=
  simulate_rr_eq_reference 1 3 [mkProc 0 0 10, mkProc 1 0 10] [] (by decide) (by decide)

/-- The sequence returned under a cap is the cut of the sequence returned
under any larger cap, and the process lists agree. -/
theorem returns_cap {q m m' : Int} {ps : List Process} {seq0 : List Int} {r r' : Result}
    (hq : 0 < q) (hb : ∀ p ∈ ps, 0 ≤ p.burst) (hm : 0 < m) (hmm : m ≤ m')
    (hr : Returns q m ps seq0 r) (hr' : Returns q m' ps seq0 r') :
    r.seq = r'.seq.take m.toNat ∧ r.processes = r'.processes := by
  have h1 := returnsRef_of_returns hq hb hr
  obtain ⟨f, s', hs', rfl⟩ := run_of_returnsRef (returnsRef_of_returns hq hb hr')
  have h2 := run_cap (q := q) hm hmm f (init_state ps)
  rw [hs', Option.map_some'] at h2
  have hinit : capSeq m.toNat (init_state ps) = init_state ps := by
    unfold capSeq init_state
    simp
  rw [hinit] at h2
  have h3 : ReturnsRef q m ps seq0 ⟨s'.processes, s'.seq.take m.toNat⟩ :=
    @returnsRef_of_run q m ps seq0 f (capSeq m.toNat s') h2
  have := returnsRef_unique h1 h3
  subst this
  exact ⟨rfl, rfl⟩

/-- C6: the reported sequence is the untrimmed compressed sequence cut to its
first `max_seq_len` entries. For every input with `quantum > 0` and
non-negative bursts and all caps `0 < m ≤ m'`, `simulate_rr` returns under both
caps, and the `seq` returned with `max_seq_len = m` equals the first `m`
entries (all entries, if fewer) of the `seq` returned with `max_seq_len = m'`. -/
theorem simulate_rr_cap_prefix (q m m' : Int) (ps : List Process) (seq0 : List Int)
    (hq : 0 < q) (hb : ∀ p ∈ ps, 0 ≤ p.burst) (hm : 0 < m) (hmm : m ≤ m') :
    (∃ r r', Returns q m ps seq0 r ∧ Returns q m' ps seq0 r') ∧
    ∀ r r', Returns q m ps seq0 r → Returns q m' ps seq0 r' →
      r.seq = r'.seq.take m.toNat := by
  obtain ⟨r, hr⟩ := returns_exists q m ps seq0 hq hb
  obtain ⟨r', hr'⟩ := returns_exists q m' ps seq0 hq hb
  exact ⟨⟨r, r', hr, hr'⟩, fun a b ha hb' => (returns_cap hq hb hm hmm ha hb').1⟩

theorem simulate_rr_cap_prefix_witness :
    (∃ r r', Returns 1 3 [mkProc 0 0 10, mkProc 1 0 10] [] r ∧
      Returns 1 10 [mkProc 0 0 10, mkProc 1 0 10] [] r') ∧
    ∀ r r', Returns 1 3 [mkProc 0 0 10, mkProc 1 0 10] [] r →
      Returns 1 10 [mkProc 0 0 10, mkProc 1 0 10] [] r' →
      r.seq = r'.seq.take (3 : Int).toNat :=
  simulate_rr_cap_prefix 1 3 10 [mkProc 0 0 10, mkProc 1 0 10] [] (by decide) (by decide)
    (by decide) (by decide)

/-- C16, queue ownership: for every valid input (`quantum > 0`, non-negative
arrivals and bursts, timestamps initially `-1`), at the top of every iteration
of the main loop the concatenation `jq ++ rq` contains no index twice, no index
is in both queues, every member is a position of the process list, and the
members are exactly the processes whose `finish_time` is still unset; a process
whose `finish_time` has been set is in neither queue. -/
theorem queue_ownership (q m : Int) (ps : List Process) (s : State) (hq : 0 < q)
    (hv : ValidInput ps) (ht : LoopTop q m ps s) :
    (s.jq ++ s.rq).Nodup ∧ (∀ i, i ∈ s.jq → i ∉ s.rq) ∧
    (∀ i ∈ s.jq ++ s.rq, i < ps.length) ∧
    (∀ i, i < ps.length → (i ∈ s.jq ++ s.rq ↔ (procAt s.processes i).finish_time = -1)) ∧
    (∀ i, i < ps.length → (procAt s.processes i).finish_time ≠ -1 → i ∉ s.jq ∧ i ∉ s.rq) := by
  obtain ⟨h, hlen⟩ := inv_loop_top hq hv ht
  have hiff : ∀ i, i < ps.length →
      (i ∈ s.jq ++ s.rq ↔ (procAt s.processes i).finish_time = -1) := by
    intro i hi
    constructor
    · intro hmem
      rcases List.mem_append.mp hmem with h1 | h1
      · exact (h.waiting i h1).2.1
      · exact (h.ready i h1).1
    · intro hf
      by_contra hnot
      exact (h.finished i (hlen ▸ hi) hnot).1.2.1 hf
  refine ⟨h.core.2, fun i h1 h2 => (List.nodup_append.mp h.core.2).2.2 h1 h2, ?_, hiff, ?_⟩
  · intro i hi
    have := (h.core.1 i hi).1
    rw [h.len, hlen] at this
    exact this
  · intro i hi hf
    have : i ∉ s.jq ++ s.rq := fun hmem => hf ((hiff i hi).mp hmem)
    exact ⟨fun e => this (List.mem_append_left _ e), fun e => this (List.mem_append_right _ e)⟩

/-- The loop top after four passes on `(0,3), (1,5)` with quantum 2: process 0
is complete, process 1 is alone in the ready queue. -/
theorem queue_ownership_witness :
    ([] ++ [1] : List Nat).Nodup ∧ (∀ i, i ∈ ([] : List Nat) → i ∉ [1]) ∧
    (∀ i ∈ ([] ++ [1] : List Nat), i < [mkProc 0 0 3, mkProc 1 1 5].length) ∧
    (∀ i, i < [mkProc 0 0 3, mkProc 1 1 5].length →
      (i ∈ ([] ++ [1] : List Nat) ↔
        (procAt [⟨0, 0, 3, 0, 5⟩, ⟨1, 1, 5, 2, -1⟩] i).finish_time = -1)) ∧
    (∀ i, i < [mkProc 0 0 3, mkProc 1 1 5].length →
      (procAt [⟨0, 0, 3, 0, 5⟩, ⟨1, 1, 5, 2, -1⟩] i).finish_time ≠ -1 →
      i ∉ ([] : List Nat) ∧ i ∉ [1]) :=
  queue_ownership 2 10 [mkProc 0 0 3, mkProc 1 1 5]
    ⟨5, [], [1], [0, 3], [⟨0, 0, 3, 0, 5⟩, ⟨1, 1, 5, 2, -1⟩], [0, 1, 0]⟩
    (by decide) (by decide) ⟨4, by decide⟩

/-- C18: the trace cap does not influence the schedule. For every input with
`quantum > 0` and non-negative bursts and any two caps `m > 0` and `m' > 0`,
`simulate_rr` returns under both caps and the two returned process lists are
equal, so every process has the same `start_time` and `finish_time`, although
the saturated fast-forward is taken only when `seq` has reached the cap. -/
theorem simulate_rr_cap_independent (q m m' : Int) (ps : List Process) (seq0 : List Int)
    (hq : 0 < q) (hb : ∀ p ∈ ps, 0 ≤ p.burst) (hm : 0 < m) (hm' : 0 < m') :
    (∃ r r', Returns q m ps seq0 r ∧ Returns q m' ps seq0 r') ∧
    ∀ r r', Returns q m ps seq0 r → Returns q m' ps seq0 r' →
      r.processes = r'.processes := by
  obtain ⟨r, hr⟩ := returns_exists q m ps seq0 hq hb
  obtain ⟨r', hr'⟩ := returns_exists q m' ps seq0 hq hb
  refine ⟨⟨r, r', hr, hr'⟩, fun a b ha hb' => ?_⟩
  rcases le_total m m' with h | h
  · exact (returns_cap hq hb hm h ha hb').2
  · exact (returns_cap hq hb hm' h hb' ha).2.symm

theorem simulate_rr_cap_independent_witness :
    (∃ r r', Returns 1 3 [mkProc 0 0 10, mkProc 1 0 10] [] r ∧
      Returns 1 2 [mkProc 0 0 10, mkProc 1 0 10] [] r') ∧
    ∀ r r', Returns 1 3 [mkProc 0 0 10, mkProc 1 0 10] [] r →
      Returns 1 2 [mkProc 0 0 10, mkProc 1 0 10] [] r' → r.processes = r'.processes :=
  simulate_rr_cap_independent 1 3 2 [mkProc 0 0 10, mkProc 1 0 10] [] (by decide) (by decide)
    (by decide) (by decide)

/-- C20: `seq` is a pure output. For every quantum, cap and process list, two
calls of `simulate_rr` that differ only in what `seq` held on entry behave the
same with the same fuel, so they return the same `seq` and the same process
list; in particular the call of `run_sched`, which passes the vector
`[-2, 1000000, 5000]`, returns what a call with an empty vector returns. -/
theorem simulate_rr_seq_pure (q m : Int) (ps : List Process) (seq1 seq2 : List Int) :
    (∀ fuel, simulate_rr fuel q m ps seq1 = simulate_rr fuel q m ps seq2) ∧
    (∀ r, Returns q m ps seq1 r ↔ Returns q m ps seq2 r) ∧
    (∀ r, Returns q m ps [-2, 1000000, 5000] r ↔ Returns q m ps [] r) := by
  have key : ∀ (a b : List Int) (fuel : Nat),
      simulate_rr fuel q m ps a = simulate_rr fuel q m ps b := by
    intro a b fuel
    rw [simulate_rr_eq, simulate_rr_eq]
  have hret : ∀ (a b : List Int) (r : Result), Returns q m ps a r → Returns q m ps b r := by
    rintro a b r ⟨fuel, h⟩
    exact ⟨fuel, (key b a fuel).trans h⟩
  exact ⟨key seq1 seq2, fun r => ⟨hret _ _ r, hret _ _ r⟩, fun r => ⟨hret _ _ r, hret _ _ r⟩⟩

/-- C17: remaining burst is monotone and never overshoots. For every input
with `quantum > 0` and non-negative bursts, at the top of every iteration of
the main loop each process `i` has `0 ≤ remb[i] ≤ burst[i]`, and after a pass
that continues no `remb[i]` has increased and every `remb[i]` is still
non-negative: neither fast-forward case subtracts more than the remaining
burst. -/
theorem remaining_burst_bounds (q m : Int) (ps : List Process) (s : State) (hq : 0 < q)
    (hb : ∀ p ∈ ps, 0 ≤ p.burst) (ht : LoopTop q m ps s) :
    s.remb.length = ps.length ∧
    (∀ i, i < ps.length → 0 ≤ rembAt s.remb i ∧ rembAt s.remb i ≤ (procAt ps i).burst) ∧
    ∀ s', iter true q m s = .loop s' →
      (∀ i, rembAt s'.remb i ≤ rembAt s.remb i) ∧
      (∀ i, i < ps.length → 0 ≤ rembAt s'.remb i) := by
  have h := rinv_loop_top hq hb ht
  have hfr := frame_loop_top ht
  have hpl : s.processes.length = ps.length := by simpa using congrArg List.length hfr
  refine ⟨h.2.1.trans hpl, fun i hi => ?_, fun s' hi => ?_⟩
  · have := h.2.2 i (hpl ▸ hi)
    rw [(arrival_of_frame hfr i).2.1] at this
    exact this
  · have h' := rinv_iter hq s s' h hi
    have hfr' := frame_loop_top (loopTop_next ht hi)
    have hpl' : s'.processes.length = ps.length := by simpa using congrArg List.length hfr'
    exact ⟨h'.2, fun i hi' => (h'.1.2.2 i (hpl' ▸ hi')).1⟩

/-- The loop top after three passes of Scenario C; the next pass ends with
the saturated fast-forward. -/
theorem remaining_burst_bounds_witness :
    ([9, 9] : List Int).length = [mkProc 0 0 10, mkProc 1 0 10].length ∧
    (∀ i, i < [mkProc 0 0 10, mkProc 1 0 10].length →
      0 ≤ rembAt [9, 9] i ∧ rembAt [9, 9] i ≤ (procAt [mkProc 0 0 10, mkProc 1 0 10] i).burst) ∧
    ∀ s', iter true 1 3 ⟨2, [], [0, 1], [9, 9], [⟨0, 0, 10, 0, -1⟩, ⟨1, 0, 10, 1, -1⟩], [0, 1]⟩
        = .loop s' →
      (∀ i, rembAt s'.remb i ≤ rembAt [9, 9] i) ∧
      (∀ i, i < [mkProc 0 0 10, mkProc 1 0 10].length → 0 ≤ rembAt s'.remb i) :=
  remaining_burst_bounds 1 3 [mkProc 0 0 10, mkProc 1 0 10]
    ⟨2, [], [0, 1], [9, 9], [⟨0, 0, 10, 0, -1⟩, ⟨1, 0, 10, 1, -1⟩], [0, 1]⟩
    (by decide) (by decide) ⟨3, by decide⟩

/-- C14, boundary tie-break of one preempting step: at a loop top with a job
queue sorted by arrival and the ready-queue head `j` dispatched with
`remb[j] > quantum`, let `t = curr_time + quantum` (`quantum > 0` is not
needed for the equations). After the
three admission steps (the state of line 113) the ready queue is the old ready
queue without its head, then the job-queue entries with `arrival < t` in
job-queue order, then `j`, then the job-queue entries with `arrival = t` in
job-queue order, and the job queue keeps exactly the entries with
`arrival > t`. The pass then either leaves the loop through the "only one job
left" exit or continues with these two queues (fast-forward does not touch
them). -/
theorem preempt_tie_break (q m : Int) (s : State) (j : Nat) (rq : List Nat)
    (hrq : s.rq = j :: rq) (hlt : q < rembAt s.remb j)
    (hs : s.jq.Pairwise
      (fun a b => (procAt s.processes a).arrival ≤ (procAt s.processes b).arrival)) :
    ((preempt_step q m s j rq).rq =
        rq ++ s.jq.filter (fun i => decide ((procAt s.processes i).arrival < s.curr_time + q))
          ++ [j]
          ++ s.jq.filter (fun i => decide ((procAt s.processes i).arrival = s.curr_time + q)) ∧
      (preempt_step q m s j rq).jq =
        s.jq.filter (fun i => decide (s.curr_time + q < (procAt s.processes i).arrival))) ∧
    ∀ o : Bool, iter o q m s = .exit (last_job m (preempt_step q m s j rq)) ∨
      ∃ s', iter o q m s = .loop s' ∧ s'.rq = (preempt_step q m s j rq).rq ∧
        s'.jq = (preempt_step q m s j rq).jq := by
  have hfr : ∀ i, (procAt (dispatch m s j rq).processes i).arrival
      = (procAt s.processes i).arrival :=
    fun i => (arrival_of_frame (dispatch_frame m s j rq) i).1
  have hmain := preempt_queues_sorted s.processes (s.curr_time + q) j s.jq rq hs
  refine ⟨⟨?_, ?_⟩, fun o => ?_⟩
  · rw [preempt_step_rq, move_arrived_congr _ hfr, move_arrived_congr _ hfr]
    exact hmain.1
  · rw [preempt_step_jq, move_arrived_congr _ hfr, move_arrived_congr _ hfr]
    exact hmain.2
  · have hle : ¬ rembAt s.remb j ≤ q := by omega
    by_cases hl : (preempt_step q m s j rq).rq.length = 1 ∧ (preempt_step q m s j rq).jq = []
    · exact Or.inl (iter_last hrq hle hl)
    · right
      cases o with
      | true =>
        have hqs := fast_forward_queues q m (preempt_step q m s j rq)
        exact ⟨_, iter_pre_opt hrq hle hl, hqs.2, hqs.1⟩
      | false => exact ⟨_, iter_pre_ref hrq hle hl, rfl, rfl⟩

/-- Quantum 2 at time 0 with process 0 (burst 10) running and jobs arriving at
1, 2 and 5 waiting: afterwards the ready queue is `[1, 0, 2]` and the job queue
`[3]`. -/
theorem preempt_tie_break_witness :
    (preempt_step 2 10
        ⟨0, [1, 2, 3], [0], [10, 1, 1, 1],
          [mkProc 0 0 10, mkProc 1 1 1, mkProc 2 2 1, mkProc 3 5 1], []⟩ 0 []).rq = [1, 0, 2] ∧
    (preempt_step 2 10
        ⟨0, [1, 2, 3], [0], [10, 1, 1, 1],
          [mkProc 0 0 10, mkProc 1 1 1, mkProc 2 2 1, mkProc 3 5 1], []⟩ 0 []).jq = [3] :=
  (preempt_tie_break 2 10
    ⟨0, [1, 2, 3], [0], [10, 1, 1, 1],
      [mkProc 0 0 10, mkProc 1 1 1, mkProc 2 2 1, mkProc 3 5 1], []⟩ 0 []
    rfl (by decide) (by decide)).1

/-- C13 as stated fails: for the valid list `(5,1), (0,1)` the job queue that
`simulate_rr` builds is `[0, 1]`, which is not ordered by arrival, and the
first pass moves process 0, whose arrival 5 is not the minimum, to the ready
queue, from where the second pass dispatches it. -/
theorem job_queue_not_sorted :
    ValidInput [mkProc 0 5 1, mkProc 1 0 1] ∧
    ¬ (init_state [mkProc 0 5 1, mkProc 1 0 1]).jq.Pairwise
        (fun a b => (procAt [mkProc 0 5 1, mkProc 1 0 1] a).arrival
          ≤ (procAt [mkProc 0 5 1, mkProc 1 0 1] b).arrival) ∧
    (loop_top true 1 10 1 (init_state [mkProc 0 5 1, mkProc 1 0 1])).map (·.rq) = some [0] ∧
    (procAt [mkProc 0 5 1, mkProc 1 0 1] 1).arrival
      < (procAt [mkProc 0 5 1, mkProc 1 0 1] 0).arrival := by
  decide

/-- C13, amended: the job queue that `simulate_rr` builds before its main loop
is `[0, 1, ..., n-1]`, all process identities in input order. When the list is
in non-decreasing arrival order, this is the order by arrival time with ties
ordered by id. For a non-empty list the first pass is the idle pass that moves
process 0 to the ready queue, so process 0 is the first process dispatched, and
when the list is in non-decreasing arrival order its arrival is the minimum. -/
theorem job_queue_initial (ps : List Process) :
    (init_state ps).jq = List.range ps.length ∧
    (ps.Pairwise (fun a b => a.arrival ≤ b.arrival) →
      (init_state ps).jq.Pairwise (fun a b =>
        (procAt ps a).arrival < (procAt ps b).arrival ∨
        ((procAt ps a).arrival = (procAt ps b).arrival ∧ a < b))) ∧
    (ps ≠ [] → ∀ (o : Bool) (q m : Int),
      ∃ s1, iter o q m (init_state ps) = .loop s1 ∧ s1.rq = [0] ∧ s1.rq.head? = some 0 ∧
        s1.jq = List.range' 1 (ps.length - 1)) ∧
    (ps.Pairwise (fun a b => a.arrival ≤ b.arrival) →
      ∀ i, i < ps.length → (procAt ps 0).arrival ≤ (procAt ps i).arrival) := by
  have hget : ∀ i (hi : i < ps.length), procAt ps i = ps[i] := by
    intro i hi
    unfold procAt
    rw [List.getD_eq_getElem?_getD, List.getElem?_eq_getElem hi]
    rfl
  have hle : ps.Pairwise (fun a b => a.arrival ≤ b.arrival) →
      ∀ a b, a < b → b < ps.length → (procAt ps a).arrival ≤ (procAt ps b).arrival := by
    intro hs a b hab hb
    rw [hget a (by omega), hget b hb]
    exact List.pairwise_iff_getElem.mp hs a b (by omega) hb hab
  refine ⟨rfl, ?_, ?_, ?_⟩
  · intro hs
    show (List.range ps.length).Pairwise _
    refine List.Pairwise.imp_of_mem ?_ (List.pairwise_lt_range ps.length)
    intro a b _ hb hab
    have := hle hs a b hab (List.mem_range.mp hb)
    by_cases he : (procAt ps a).arrival = (procAt ps b).arrival
    · exact Or.inr ⟨he, hab⟩
    · exact Or.inl (by omega)
  · intro hne o q m
    cases ps with
    | nil => exact absurd rfl hne
    | cons p t =>
      have hjq : (init_state (p :: t)).jq = 0 :: List.range' 1 t.length := by
        show List.range (t.length + 1) = _
        rw [List.range_eq_range', List.range'_succ]
      refine ⟨_, iter_idle rfl hjq, rfl, rfl, ?_⟩
      show List.range' 1 t.length = List.range' 1 (t.length + 1 - 1)
      simp
  · intro hs i hi
    cases i with
    | zero => exact le_refl _
    | succ i => exact hle hs 0 (i + 1) (by omega) hi

/-- Scenario B as an instance: sorted arrivals 0, 1, 5. -/
theorem job_queue_initial_witness :
    (init_state [mkProc 0 0 3, mkProc 1 1 4, mkProc 2 5 2]).jq = [0, 1, 2] ∧
    (init_state [mkProc 0 0 3, mkProc 1 1 4, mkProc 2 5 2]).jq.Pairwise (fun a b =>
      (procAt [mkProc 0 0 3, mkProc 1 1 4, mkProc 2 5 2] a).arrival
        < (procAt [mkProc 0 0 3, mkProc 1 1 4, mkProc 2 5 2] b).arrival ∨
      ((procAt [mkProc 0 0 3, mkProc 1 1 4, mkProc 2 5 2] a).arrival
        = (procAt [mkProc 0 0 3, mkProc 1 1 4, mkProc 2 5 2] b).arrival ∧ a < b)) ∧
    (∃ s1, iter true 100 10 (init_state [mkProc 0 0 3, mkProc 1 1 4, mkProc 2 5 2]) = .loop s1 ∧
      s1.rq = [0] ∧ s1.rq.head? = some 0 ∧ s1.jq = List.range' 1 (3 - 1)) ∧
    (∀ i, i < 3 → (procAt [mkProc 0 0 3, mkProc 1 1 4, mkProc 2 5 2] 0).arrival
      ≤ (procAt [mkProc 0 0 3, mkProc 1 1 4, mkProc 2 5 2] i).arrival) :=
  ⟨(job_queue_initial [mkProc 0 0 3, mkProc 1 1 4, mkProc 2 5 2]).1,
   (job_queue_initial [mkProc 0 0 3, mkProc 1 1 4, mkProc 2 5 2]).2.1 (by decide),
   (job_queue_initial [mkProc 0 0 3, mkProc 1 1 4, mkProc 2 5 2]).2.2.1 (by decide) true 100 10,
   (job_queue_initial [mkProc 0 0 3, mkProc 1 1 4, mkProc 2 5 2]).2.2.2 (by decide)⟩

/-- C15 as stated fails: on the valid input of one process `(0, 1)` with
quantum 1, the first iteration of the main loop is the idle pass for a job that
arrives at time 0; after it the total remaining burst is still 1 and
`curr_time` is still 0. -/
theorem first_pass_no_progress :
    iter true 1 1 (init_state [mkProc 0 0 1]) = .loop ⟨0, [], [0], [1], [mkProc 0 0 1], []⟩ ∧
    ¬ (([1] : List Int).sum < (init_state [mkProc 0 0 1]).remb.sum ∨
       (init_state [mkProc 0 0 1]).curr_time < (0 : Int)) := by
  decide

/-- C15, amended: for every input with `quantum > 0` and non-negative arrivals
and bursts, on every iteration of the main loop that continues the measure
`total remaining burst + 2·|jq| + |rq|` strictly decreases and `curr_time` does
not decrease; `curr_time` strictly advances except on an idle pass that admits
a job arriving exactly at `curr_time` and on the finishing pass of a process
whose remaining burst is 0, and on those two kinds of pass neither `curr_time`
nor any remaining burst changes. An iteration that leaves the loop either finds
both queues empty and changes nothing, or advances `curr_time`. -/
theorem pass_progress (q m : Int) (ps : List Process) (s : State) (hq : 0 < q)
    (hv : ∀ p ∈ ps, 0 ≤ p.arrival ∧ 0 ≤ p.burst) (ht : LoopTop q m ps s) :
    (∀ s', iter true q m s = .loop s' →
      measure s' < measure s ∧ s.curr_time ≤ s'.curr_time ∧
      (s.curr_time < s'.curr_time ∨
       (∃ i jq, s.rq = [] ∧ s.jq = i :: jq ∧ (procAt s.processes i).arrival = s.curr_time ∧
          s' = idle_step m s i jq ∧ s'.curr_time = s.curr_time ∧ s'.remb = s.remb) ∨
       (∃ j rq, s.rq = j :: rq ∧ rembAt s.remb j = 0 ∧ s' = finish_step m s j rq ∧
          s'.curr_time = s.curr_time ∧ s'.remb = s.remb))) ∧
    (∀ s', iter true q m s = .exit s' →
      (s' = s ∧ s.rq = [] ∧ s.jq = []) ∨ s.curr_time < s'.curr_time) := by
  have hc := core_loop_top hq (fun p hp => (hv p hp).2) ht
  have htm := timeOK_loop_top (fun p hp => (hv p hp).1) ht
  cases hrq : s.rq with
  | nil =>
    cases hjq : s.jq with
    | nil =>
      rw [iter_nil_nil hrq hjq]
      exact ⟨fun s' h => (by cases h), fun s' h => (by cases h; exact Or.inl ⟨rfl, rfl, rfl⟩)⟩
    | cons i jq =>
      rw [iter_idle hrq hjq]
      refine ⟨fun s' h => ?_, fun s' h => (by cases h)⟩
      cases h
      have hle : s.curr_time ≤ (procAt s.processes i).arrival :=
        htm hrq i (by rw [hjq]; simp)
      refine ⟨(core_idle hc hjq).2, hle, ?_⟩
      by_cases he : (procAt s.processes i).arrival = s.curr_time
      · exact Or.inr (Or.inl ⟨i, jq, rfl, rfl, he, rfl, he, rfl⟩)
      · left
        show s.curr_time < (procAt s.processes i).arrival
        omega
  | cons j rq =>
    have hj := hc.1 j (List.mem_append_right _ (by rw [hrq]; simp))
    by_cases hle : rembAt s.remb j ≤ q
    · rw [iter_finish hrq hle]
      refine ⟨fun s' h => ?_, fun s' h => (by cases h)⟩
      cases h
      refine ⟨(core_finish hc hrq).2, ?_, ?_⟩
      · show s.curr_time ≤ s.curr_time + rembAt s.remb j
        omega
      · by_cases hz : rembAt s.remb j = 0
        · refine Or.inr (Or.inr ⟨j, rq, rfl, hz, rfl, ?_, ?_⟩)
          · show s.curr_time + rembAt s.remb j = s.curr_time
            omega
          · show s.remb.set j 0 = s.remb
            rw [← hz, set_rembAt_self]
        · left
          show s.curr_time < s.curr_time + rembAt s.remb j
          omega
    · have hp := core_preempt (m := m) hc hq hrq (by omega)
      by_cases hl : (preempt_step q m s j rq).rq.length = 1 ∧ (preempt_step q m s j rq).jq = []
      · rw [iter_last hrq hle hl]
        refine ⟨fun s' h => (by cases h), fun s' h => ?_⟩
        cases h
        right
        obtain ⟨a, ha⟩ := List.length_eq_one.mp hl.1
        have hmem : a ∈ (preempt_step q m s j rq).rq := by rw [ha]; simp
        have h0 := (hp.1.1 a (List.mem_append_right _ hmem)).2
        show s.curr_time < (preempt_step q m s j rq).curr_time
          + rembAt (preempt_step q m s j rq).remb ((preempt_step q m s j rq).rq.getLastD 0)
        rw [ha]
        show s.curr_time < s.curr_time + q + rembAt (preempt_step q m s j rq).remb a
        omega
      · rw [iter_pre_opt hrq hle hl]
        refine ⟨fun s' h => ?_, fun s' h => (by cases h)⟩
        cases h
        have hf := core_fast_forward (m := m) hp.1 hq
        have htime := fast_forward_time (m := m) hp.1 hq
        have h1 : (preempt_step q m s j rq).curr_time = s.curr_time + q := rfl
        refine ⟨by omega, by omega, Or.inl (by omega)⟩

/-- The loop top after three passes of Scenario C. -/
theorem pass_progress_witness :
    (∀ s', iter true 1 3 ⟨2, [], [0, 1], [9, 9], [⟨0, 0, 10, 0, -1⟩, ⟨1, 0, 10, 1, -1⟩], [0, 1]⟩
        = .loop s' →
      measure s' <
          measure ⟨2, [], [0, 1], [9, 9], [⟨0, 0, 10, 0, -1⟩, ⟨1, 0, 10, 1, -1⟩], [0, 1]⟩ ∧
        (2 : Int) ≤ s'.curr_time) ∧
    (∀ s', iter true 1 3 ⟨2, [], [0, 1], [9, 9], [⟨0, 0, 10, 0, -1⟩, ⟨1, 0, 10, 1, -1⟩], [0, 1]⟩
        = .exit s' → (2 : Int) < s'.curr_time) :=
  have h := pass_progress 1 3 [mkProc 0 0 10, mkProc 1 0 10]
    ⟨2, [], [0, 1], [9, 9], [⟨0, 0, 10, 0, -1⟩, ⟨1, 0, 10, 1, -1⟩], [0, 1]⟩
    (by decide) (by decide) ⟨3, by decide⟩
  ⟨fun s' hs => ⟨(h.1 s' hs).1, (h.1 s' hs).2.1⟩,
   fun s' hs => (h.2 s' hs).resolve_left (fun e => by simp at e)⟩


/-- C19: for every non-empty process list in which every arrival is 0 and
every burst is non-negative, and every `quantum > 0`, `simulate_rr` returns,
the returned `seq` contains no idle marker `-1`, and the largest `finish_time`
of the returned list is the sum of all bursts: some process finishes exactly
then and none later. (`max_seq_len > 0` is not needed.) -/
theorem simulate_rr_no_idle (q m : Int) (ps : List Process) (seq0 : List Int) (hq : 0 < q)
    (hne : ps ≠ []) (hv : ∀ p ∈ ps, p.arrival = 0 ∧ 0 ≤ p.burst) :
    (∃ r, Returns q m ps seq0 r) ∧
    ∀ r, Returns q m ps seq0 r →
      (-1 : Int) ∉ r.seq ∧
      (∃ p ∈ r.processes, p.finish_time = (ps.map (·.burst)).sum) ∧
      ∀ p ∈ r.processes, p.finish_time ≤ (ps.map (·.burst)).sum := by
  refine ⟨returns_exists q m ps seq0 hq (fun p hp => (hv p hp).2), fun r hr => ?_⟩
  obtain ⟨fuel, s, hs, rfl⟩ := run_of_returns hr
  have ht : TimeOK (init_state ps) := by
    intro _ a hmem
    have hmem' : a ∈ List.range ps.length := List.mem_of_mem_head? hmem
    exact le_of_eq (hv _ (procAt_mem (List.mem_range.mp hmem'))).1.symm
  have h := run_no_idle (m := m) hq (ps.map (·.burst)).sum ps.length fuel _ s
    ⟨winv_init ps hv, ht, rfl⟩ hs
  have hpos : 0 < ps.length := List.length_pos.mpr hne
  refine ⟨h.2.2.2, ?_, fun p hp => ?_⟩
  · obtain ⟨i, hi, e⟩ := h.2.2.1 hpos
    exact ⟨_, procAt_mem (h.1 ▸ hi), e⟩
  · obtain ⟨i, hi, rfl⟩ := exists_procAt_of_mem hp
    exact h.2.1 i (h.1 ▸ hi)

/-- Two processes arriving at 0 with bursts 3 and 5 under quantum 2: no idle
marker, and the last finish time is 8. -/
theorem simulate_rr_no_idle_witness :
    (∃ r, Returns 2 10 [mkProc 0 0 3, mkProc 1 0 5] [] r) ∧
    ∀ r, Returns 2 10 [mkProc 0 0 3, mkProc 1 0 5] [] r →
      (-1 : Int) ∉ r.seq ∧
      (∃ p ∈ r.processes,
        p.finish_time = ([mkProc 0 0 3, mkProc 1 0 5].map (·.burst)).sum) ∧
      ∀ p ∈ r.processes, p.finish_time ≤ ([mkProc 0 0 3, mkProc 1 0 5].map (·.burst)).sum :=
  simulate_rr_no_idle 2 10 [mkProc 0 0 3, mkProc 1 0 5] [] (by decide) (by decide) (by decide)


/-- C11, as stated, fails: the argument vector `sched 0 -5` has a quantum and
a `max_seq_len` that parse to values `≤ 0`, yet on an empty input `cppmain`
reports no error: it invokes `simulate_rr(0, -5, [], seq)`, which returns, and
the return value is 0. -/
theorem cppmain_zero_quantum_accepted :
    stoll "0".toList = some 0 ∧ stoll "-5".toList = some (-5) ∧
    cppmain ["sched".toList, "0".toList, "-5".toList] [] =
      some (.simulate 0 (-5) [] [-2, 1000000, 5000]) ∧
    simulate_rr 1 0 (-5) [] [-2, 1000000, 5000] = some ⟨[], []⟩ ∧
    exit_status (.simulate 0 (-5) [] [-2, 1000000, 5000]) = 0 := by
  decide

/-- C11, amended: the argument handling and the reading loop of `cppmain`
always end, in one of three ways: the usage message, the error of an input
line, or the call of `simulate_rr` (whether that call returns is not part of
this statement). `cppmain` rejects an argument vector with the usage message
(return value -1, `simulate_rr` not invoked) exactly when the vector has not
three entries or `std::stoll` fails on the quantum argument or on the
`max_seq_len` argument. There is no range check: when the two arguments parse
to `q` and `m`, of any sign, `cppmain` goes on as `run_sched(q, m)` does, and
if the input lines are all accepted it invokes `simulate_rr` with quantum `q`
and `max_seq_len` `m` unchanged. -/
theorem cppmain_no_range_check (args : List (List Char)) (stdin : List Char) :
    (∃ r, cppmain args stdin = some r) ∧
    (cppmain args stdin = some .usage ↔
      args.length ≠ 3 ∨ stoll (args.getD 1 []) = none ∨ stoll (args.getD 2 []) = none) ∧
    (∀ q m, args.length = 3 → stoll (args.getD 1 []) = some q →
      stoll (args.getD 2 []) = some m →
      cppmain args stdin = run_sched q m stdin ∧
      ∀ ps, read_lines (lines_of stdin) 0 [] = .ok ps →
        cppmain args stdin = some (.simulate q m ps [-2, 1000000, 5000])) := by
  rcases args with _ | ⟨a0, _ | ⟨a1, _ | ⟨a2, _ | ⟨a3, t⟩⟩⟩⟩
  · simp [cppmain]
  · simp [cppmain]
  · simp [cppmain]
  · cases h1 : stoll a1 with
    | none => simp [cppmain, h1]
    | some q =>
      cases h2 : stoll a2 with
      | none => simp [cppmain, h1, h2]
      | some m =>
        have e : cppmain [a0, a1, a2] stdin = run_sched q m stdin := by
          simp [cppmain, h1, h2]
        rw [e, run_sched_eq]
        refine ⟨⟨_, rfl⟩, ?_, ?_⟩
        · simp only [List.length_cons, List.length_nil, List.getD_cons_succ, List.getD_cons_zero,
            h1, h2]
          cases read_lines (lines_of stdin) 0 [] <;> simp
        · intro q' m' _ e1 e2
          simp only [List.getD_cons_succ, List.getD_cons_zero, h1, h2, Option.some.injEq] at e1 e2
          subst e1 e2
          refine ⟨(run_sched_eq _ _ stdin).symm, fun ps hps => ?_⟩
          rw [hps]
  · simp [cppmain]

/-- C12, as stated, fails: the second record of the input `0 4`, `-3 -7` has
an arrival and a burst that parse to negative integers, yet `run_sched`
reports no error and calls `simulate_rr` with a process list that holds
them. -/
theorem run_sched_negative_accepted :
    stoll "-3".toList = some (-3) ∧ stoll "-7".toList = some (-7) ∧
    run_sched 1 1 "0 4\n-3 -7\n".toList =
      some (.simulate 1 1 [mkProc 0 0 4, mkProc 1 (-3) (-7)] [-2, 1000000, 5000]) := by
  decide

/-- C12, amended: `run_sched` checks the shape of a record, not its sign. Its
reading loop always ends, with the error of an input line or by reaching the
call of `simulate_rr`, never with the usage message (whether that call returns
is not part of this statement). If every line of the input that
has a token holds a record (exactly two tokens, each read by `std::stoll`),
it reports no error and calls `simulate_rr` with the given quantum and
`max_seq_len`, `seq = [-2, 1000000, 5000]`, and one process for each record,
in input order, with `id` its position, `arrival` and `burst` the values
read, negative or not, and both timestamps -1; it calls `simulate_rr` with
no other process list. It reports the error of line `k` only if line `k` of
the input has a token and holds no record. -/
theorem run_sched_no_sign_check (q m : Int) (stdin : List Char) :
    (∃ r, run_sched q m stdin = some r) ∧
    run_sched q m stdin ≠ some .usage ∧
    (∀ recs,
      List.Forall₂ RecordOf ((lines_of stdin).filter fun l => decide (split l ≠ [])) recs →
      run_sched q m stdin = some (.simulate q m (processes_from 0 recs) [-2, 1000000, 5000])) ∧
    (∀ q1 m1 ps seq, run_sched q m stdin = some (.simulate q1 m1 ps seq) →
      q1 = q ∧ m1 = m ∧ seq = [-2, 1000000, 5000] ∧
      ∃ recs,
        List.Forall₂ RecordOf ((lines_of stdin).filter fun l => decide (split l ≠ [])) recs ∧
        ps = processes_from 0 recs) ∧
    (∀ k, run_sched q m stdin = some (.line_error k) →
      1 ≤ k ∧ ∃ l, (lines_of stdin)[k - 1]? = some l ∧ split l ≠ [] ∧ ∀ r, ¬ RecordOf l r) := by
  rw [run_sched_eq]
  refine ⟨⟨_, rfl⟩, ?_, ?_, ?_, ?_⟩
  · cases read_lines (lines_of stdin) 0 [] <;> simp
  · intro recs h
    rw [read_lines_ok _ 0 [] recs h]
    rfl
  · intro q1 m1 ps seq h
    cases hr : read_lines (lines_of stdin) 0 [] with
    | error k => rw [hr] at h; simp at h
    | ok ps0 =>
      rw [hr] at h
      simp only [Option.some.injEq, MainResult.simulate.injEq] at h
      obtain ⟨e1, e2, e3, e4⟩ := h
      obtain ⟨recs, h1, h2⟩ := read_lines_ok_inv _ _ _ _ hr
      exact ⟨e1.symm, e2.symm, e4.symm, recs, h1, by rw [← e3, h2]; rfl⟩
  · intro k h
    cases hr : read_lines (lines_of stdin) 0 [] with
    | ok ps0 => rw [hr] at h; simp at h
    | error k0 =>
      rw [hr] at h
      simp only [Option.some.injEq, MainResult.line_error.injEq] at h
      subst h
      obtain ⟨hk, l, e, h2⟩ := read_lines_error _ _ _ _ hr
      exact ⟨hk, l, by simpa using e, h2⟩

end RR
